import Mathlib

/-!
Free-Swap-It: the text-matching and rule-application engine of `content.js`.

A shallow embedding of the engine of `src/content.js` and the properties of its
specification.

Conventions of the embedding.

* A JavaScript string is the list of its code units (`Str`).
* The regular expressions of the program are all built as
  `new RegExp(escapeRegExp(token), "gi")`.  `compile` models the pattern parser on
  the fragment such patterns live in, `RegExp.exec` the `g`-flag protocol around
  `lastIndex`, `jsReplace` the global `String.prototype.replace` with its `$`
  substitution patterns.  Case folding of the `i` flag is the parameter `canon`.
* The content tree is the list of its nodes in document order.  The shape of a node
  (parent, type, name, id, editability, visibility) never changes in the operations
  modelled here; the only mutable part of the tree, `nodeValue` of the text nodes,
  is held in a separate list `texts` indexed like the nodes.
* A scope selector is the list of the steps of its path; the empty list is the empty
  string.  `getCssSelector` writes the text of a selector; `parseSelector` reads a
  text as a path on the fragment of the selector grammar such texts live in, and a
  text that is no selector, or a selector of another form, has no reading.
* A loop of the program that may run forever takes a fuel argument and yields
  `none` when the fuel is used up.
* Outside the model: the rectangles of a match (a match keeps the range they are
  taken of), the preview overlays, the rows that `renderSaved` writes into the panel
  (text inside the panel is rejected by the locator), and the storage behind
  `saveRules` and `loadRules`.
-/

namespace FreeSwapIt

/-! ## Strings -/

/-- A JavaScript string: the sequence of its code units. -/
abbrev Str := List Char

/-- The code unit of the backslash. -/
def backslash : Char := Char.ofNat 92

/-- The code unit of the grave accent. -/
def graveAccent : Char := Char.ofNat 96

/-- The code unit of the single quote. -/
def singleQuote : Char := Char.ofNat 39

/-- Line terminators of ECMAScript: LF, CR, LS, PS. -/
def isLineTerminator (c : Char) : Bool :=
  c.toNat == 10 || c.toNat == 13 || c.toNat == 8232 || c.toNat == 8233

/-- White space of ECMAScript that `String.prototype.trim` strips (white space and
line terminators). -/
def isTrimmable (c : Char) : Bool :=
  isLineTerminator c || c.toNat == 9 || c.toNat == 11 || c.toNat == 12 || c.toNat == 32 ||
  c.toNat == 160 || c.toNat == 5760 || (8192 ≤ c.toNat && c.toNat ≤ 8202) ||
  c.toNat == 8239 || c.toNat == 8287 || c.toNat == 12288 || c.toNat == 65279

/-- The method `String.prototype.trim`. -/
def trim (s : Str) : Str :=
  ((s.dropWhile isTrimmable).reverse.dropWhile isTrimmable).reverse

/-- Case folding of the `i` flag on ASCII letters, for concrete runs. -/
def asciiCanon (c : Char) : Char := c.toUpper

/-! ## Regular expressions -/

/-- The syntax characters of a pattern, which are the characters of the class in
`escapeRegExp`: `. * + ? ^ $ { } ( ) | [ ] \`. -/
def syntaxChars : List Char :=
  ['.', '*', '+', '?', '^', '$', Char.ofNat 123, Char.ofNat 125, '(', ')', '|', '[', ']',
    Char.ofNat 92]

/-- The function `escapeRegExp` (content.js line 41): every syntax character gets a
backslash in front. -/
def escapeRegExp (s : Str) : Str :=
  s.flatMap fun c => if syntaxChars.contains c then [backslash, c] else [c]

/-- One position of a compiled pattern. -/
inductive Atom where
  | lit (c : Char)
  | any
deriving DecidableEq, Repr

/-- The pattern parser on the fragment reached by the program: a plain character is a
literal, a backslash followed by a syntax character is that character as a literal, an
unescaped `.` matches any character but a line terminator.  Every other use of a
syntax character or of the backslash is outside the fragment (`none`). -/
def compile : Str → Option (List Atom)
  | [] => some []
  | [c] =>
    if c = backslash then none
    else if c = '.' then some [Atom.any]
    else if syntaxChars.contains c then none
    else some [Atom.lit c]
  | c :: d :: rest =>
    if c = backslash then
      if syntaxChars.contains d then (compile rest).map (Atom.lit d :: ·) else none
    else if c = '.' then (compile (d :: rest)).map (Atom.any :: ·)
    else if syntaxChars.contains c then none
    else (compile (d :: rest)).map (Atom.lit c :: ·)

/-- A character against one position of the pattern, under the `i` flag. -/
def atomMatches (canon : Char → Char) : Atom → Char → Bool
  | Atom.lit c, d => canon c == canon d
  | Atom.any, d => !isLineTerminator d

/-- The pattern matches a prefix of the string. -/
def matchesHere (canon : Char → Char) : List Atom → Str → Bool
  | [], _ => true
  | _ :: _, [] => false
  | a :: as, c :: cs => atomMatches canon a c && matchesHere canon as cs

/-- The first index, counted from `i`, at which the pattern matches. -/
def searchFrom (canon : Char → Char) (atoms : List Atom) : Str → Nat → Option Nat
  | [], i => if matchesHere canon atoms [] then some i else none
  | c :: cs, i =>
    if matchesHere canon atoms (c :: cs) then some i else searchFrom canon atoms cs (i + 1)

/-- A regular expression object with the flags `g` and `i`: its compiled pattern and
its mutable `lastIndex`. -/
structure RegExp where
  atoms : List Atom
  lastIndex : Nat
deriving DecidableEq, Repr

/-- The constructor `new RegExp(pattern, "gi")`.  On the patterns of the program,
which are all of the form `escapeRegExp(token)`, the parser succeeds
(`compile_escapeRegExp`), so that no failure is threaded through the callers. -/
def newRegExp (pattern : Str) : RegExp :=
  ⟨(compile pattern).getD [], 0⟩

/-- The method `RegExp.prototype.exec` under the `g` flag: the search starts at
`lastIndex`; a match at `index` of length `len` is returned as `(index, len)` and
moves `lastIndex` to its end, a failure resets `lastIndex` to 0. -/
def RegExp.exec (canon : Char → Char) (re : RegExp) (s : Str) : RegExp × Option (Nat × Nat) :=
  if s.length < re.lastIndex then (⟨re.atoms, 0⟩, none)
  else
    match searchFrom canon re.atoms (s.drop re.lastIndex) re.lastIndex with
    | none => (⟨re.atoms, 0⟩, none)
    | some i => (⟨re.atoms, i + re.atoms.length⟩, some (i, re.atoms.length))

/-- The method `RegExp.prototype.test`: `exec` and whether it matched. -/
def RegExp.test (canon : Char → Char) (re : RegExp) (s : Str) : RegExp × Bool :=
  ((re.exec canon s).1, (re.exec canon s).2.isSome)

/-- The abstract operation GetSubstitution for a pattern without capture groups:
`$$` is a dollar sign, `$&` the matched text, `$` followed by a grave accent the
text before the match, `$` followed by a single quote the text after it; any other
`$` stands for itself. -/
def getSubstitution (matched str : Str) (position : Nat) : Str → Str
  | [] => []
  | [c] => [c]
  | c :: d :: rest =>
    if c = '$' then
      if d = '$' then '$' :: getSubstitution matched str position rest
      else if d = '&' then matched ++ getSubstitution matched str position rest
      else if d = graveAccent then str.take position ++ getSubstitution matched str position rest
      else if d = singleQuote then
        str.drop (position + matched.length) ++ getSubstitution matched str position rest
      else '$' :: getSubstitution matched str position (d :: rest)
    else c :: getSubstitution matched str position (d :: rest)

/-- The scan of a global replace over the rest of the subject `str`: `pos` is the
index of the head of the rest, `skip` the number of characters still covered by the
match found last.  An empty match moves on by one character. -/
def replaceScan (canon : Char → Char) (atoms : List Atom) (replacement str : Str) :
    Str → Nat → Nat → Str
  | [], pos, _ =>
    if matchesHere canon atoms [] then getSubstitution [] str pos replacement else []
  | _ :: cs, pos, skip + 1 => replaceScan canon atoms replacement str cs (pos + 1) skip
  | c :: cs, pos, 0 =>
    if matchesHere canon atoms (c :: cs) then
      getSubstitution ((c :: cs).take atoms.length) str pos replacement ++
        (if atoms.length = 0 then c :: replaceScan canon atoms replacement str cs (pos + 1) 0
         else replaceScan canon atoms replacement str cs (pos + 1) (atoms.length - 1))
    else c :: replaceScan canon atoms replacement str cs (pos + 1) 0

/-- The call `str.replace(re, replacement)` for a regular expression with the `g`
flag: every match, found from left to right from index 0, is replaced by its
substitution. -/
def jsReplace (canon : Char → Char) (re : RegExp) (replacement str : Str) : Str :=
  replaceScan canon re.atoms replacement str str 0 0

/-! ## The content tree -/

/-- The shape of a node of the content tree.  `visible` is the outcome of
`isVisibleElement` on the node (computed style and layout geometry are outside the
engine). -/
structure DomNode where
  parentNode : Option Nat
  nodeType : Nat
  nodeName : Str
  id : Str
  isContentEditable : Bool
  visible : Bool
deriving DecidableEq, Repr

/-- The display context: the nodes of the document in document order (a node is
named by its index), the body element, the host name of the location and the two
elements of the picker, when they exist. -/
structure Page where
  dom : List DomNode
  body : Nat
  hostname : Str
  modalEl : Option Nat
  highlightEl : Option Nat
deriving DecidableEq, Repr

/-- The property `parentNode` of node `i`, when it is a node of the tree. -/
def parentOf (dom : List DomNode) (i : Nat) : Option Nat :=
  (dom[i]?).bind DomNode.parentNode

/-- The walk up the parent links that decides `a.contains(i)`. -/
def containsAux (dom : List DomNode) (a : Nat) : Nat → Nat → Bool
  | 0, i => decide (i = a)
  | fuel + 1, i =>
    decide (i = a) ||
      match parentOf dom i with
      | some p => containsAux dom a fuel p
      | none => false

/-- The method `a.contains(i)`: node `i` is `a` or a descendant of `a`. -/
def contains (dom : List DomNode) (a i : Nat) : Bool :=
  containsAux dom a dom.length i

/-- Node `i` is an element (`nodeType === 1`). -/
def isElementAt (dom : List DomNode) (i : Nat) : Bool :=
  match dom[i]? with
  | some e => decide (e.nodeType = 1)
  | none => false

/-- Node `i` is a text node (`nodeType === 3`). -/
def isTextAt (dom : List DomNode) (i : Nat) : Bool :=
  match dom[i]? with
  | some e => decide (e.nodeType = 3)
  | none => false

/-- The tags of `skip` in `isIgnoredElement`. -/
def skipTags : List Str :=
  ["SCRIPT".toList, "STYLE".toList, "NOSCRIPT".toList, "IFRAME".toList]

/-- The function `isIgnoredElement` (content.js lines 23-31). -/
def isIgnoredElement (el : Option DomNode) : Bool :=
  match el with
  | none => true
  | some e =>
    if e.nodeType = 0 then true
    else if e.nodeName = [] then true
    else if skipTags.contains e.nodeName then true
    else if e.isContentEditable then true
    else false

/-- The function `isVisibleElement` (content.js lines 32-40); a failing query is
caught and answers true. -/
def isVisibleElement (el : Option DomNode) : Bool :=
  match el with
  | none => true
  | some e => e.visible

/-- The method `toLowerCase` on tag names. -/
def toLowerCase (s : Str) : Str := s.map Char.toLower

/-- The lower-cased `nodeName` of node `i`. -/
def tagAt (dom : List DomNode) (i : Nat) : Str :=
  match dom[i]? with
  | some e => toLowerCase e.nodeName
  | none => []

/-- The `id` of node `i`. -/
def idAt (dom : List DomNode) (i : Nat) : Str :=
  match dom[i]? with
  | some e => e.id
  | none => []

/-- The counter `nth` of `getCssSelector` (lines 53-56): one more than the number of
preceding element siblings with the same lower-cased name. -/
def nthOfType (dom : List DomNode) (i : Nat) : Nat :=
  1 + (List.range i).countP fun j =>
    isElementAt dom j && decide (parentOf dom j = parentOf dom i) &&
      decide (tagAt dom j = tagAt dom i)

/-- One step of a selector path: `tag`, `tag#id` or `tag:nth-of-type(n)`.  In
`tagId` the second field is the identifier that the escaped text after `#` denotes. -/
inductive Step where
  | tag (t : Str)
  | tagId (t : Str) (ident : Str)
  | tagNth (t : Str) (n : Nat)
deriving DecidableEq, Repr

/-- A scope selector: the steps of a path joined by the child combinator, outermost
first.  The empty list is the empty string. -/
abbrev Selector := List Step

/-- An element against one compound selector. -/
def stepMatches (dom : List DomNode) : Step → Nat → Bool
  | Step.tag t, i => isElementAt dom i && decide (tagAt dom i = t)
  | Step.tagId t ident, i =>
    isElementAt dom i && decide (tagAt dom i = t) && decide (idAt dom i ≠ []) &&
      decide (idAt dom i = ident)
  | Step.tagNth t n, i =>
    isElementAt dom i && decide (tagAt dom i = t) && decide (nthOfType dom i = n)

/-- An element against a path given innermost step first: the element matches the
first step, its parent the next one, and so on. -/
def matchesRev (dom : List DomNode) : List Step → Nat → Bool
  | [], _ => false
  | [s], i => stepMatches dom s i
  | s :: t :: rest, i =>
    stepMatches dom s i &&
      match parentOf dom i with
      | some p => matchesRev dom (t :: rest) p
      | none => false

/-- The method `Element.matches(selector)` for a non-empty path. -/
def elementMatches (dom : List DomNode) (selector : Selector) (i : Nat) : Bool :=
  matchesRev dom selector.reverse i

/-- The method `document.querySelector(selector)` for a non-empty path: the first
element in document order that matches. -/
def documentQuerySelector (dom : List DomNode) (selector : Selector) : Option Nat :=
  (List.range dom.length).find? fun i => elementMatches dom selector i

/-- The method `root.querySelector(selector)` for a non-empty path: the first
descendant of `root` in document order that matches. -/
def elementQuerySelector (dom : List DomNode) (root : Nat) (selector : Selector) : Option Nat :=
  (List.range dom.length).find? fun i =>
    decide (i ≠ root) && contains dom root i && elementMatches dom selector i

/-! ## Selector texts -/

/-- A character that may stand in an identifier of a selector as it is: an ASCII
letter, a digit, `-` or `_`. -/
def isNameChar (c : Char) : Bool :=
  c.isAlphanum || decide (c = '-') || decide (c = '_')

/-- A character that may start an identifier of a selector: an ASCII letter or `_`. -/
def isNameStart (c : Char) : Bool :=
  c.isAlpha || decide (c = '_')

/-- A hexadecimal digit. -/
def isHexDigit (c : Char) : Bool :=
  c.isDigit || (97 ≤ c.toNat && c.toNat ≤ 102) || (65 ≤ c.toNat && c.toNat ≤ 70)

/-- A newline of the selector grammar: LF, CR, FF. -/
def isCssNewline (c : Char) : Bool :=
  c.toNat == 10 || c.toNat == 13 || c.toNat == 12

/-- The text starts with a valid escape: a backslash that no newline follows. -/
def startsEscape : Str → Bool
  | c :: d :: _ => decide (c = backslash) && !isCssNewline d
  | _ => false

/-- The text starts an identifier: a name-start character or an escape, or `-`
followed by a name-start character, `-` or an escape. -/
def startsIdent : Str → Bool
  | [] => false
  | c :: rest =>
    if c = '-' then
      match rest with
      | [] => false
      | d :: _ => isNameStart d || decide (d = '-') || startsEscape rest
    else isNameStart c || startsEscape (c :: rest)

/-- The identifier read off the head of a text, and the rest of the text.  A backslash
before a character that is neither a hexadecimal digit nor a newline denotes that
character; the reading stops before an escape of another form, before a character
outside ASCII and before every other character. -/
def readName : Str → Str × Str
  | [] => ([], [])
  | [c] => if isNameChar c then ([c], []) else ([], [c])
  | c :: d :: rest =>
    if isNameChar c then (c :: (readName (d :: rest)).1, (readName (d :: rest)).2)
    else if c = backslash then
      if isHexDigit d || isCssNewline d then ([], c :: d :: rest)
      else (d :: (readName rest).1, (readName rest).2)
    else ([], c :: d :: rest)

/-- The decimal digits at the head of a text, and the rest of the text. -/
def readDigits : Str → Str × Str
  | [] => ([], [])
  | c :: rest =>
    if c.isDigit then (c :: (readDigits rest).1, (readDigits rest).2) else ([], c :: rest)

/-- The number that a text of decimal digits denotes. -/
def digitsValue (ds : Str) : Nat :=
  ds.foldl (fun a c => a * 10 + (c.toNat - 48)) 0

/-- One compound selector read off the head of a text, and the rest of the text: a type
name, matched without regard to ASCII case, alone, with `#` and an identifier, or with
`:nth-of-type(` and a number `)`. -/
def parseCompound (s : Str) : Option (Step × Str) :=
  if startsIdent s then
    match (readName s).2 with
    | '#' :: rest =>
      if startsIdent rest then
        some (Step.tagId (toLowerCase (readName s).1) (readName rest).1, (readName rest).2)
      else none
    | ':' :: rest =>
      if "nth-of-type(".toList.isPrefixOf rest then
        match readDigits (rest.drop 12) with
        | (c :: ds, ')' :: rest2) =>
          some (Step.tagNth (toLowerCase (readName s).1) (digitsValue (c :: ds)), rest2)
        | _ => none
      else none
    | rest => some (Step.tag (toLowerCase (readName s).1), rest)
  else none

/-- Compound selectors separated by ` > `, up to the end of the text; the fuel bounds
the number of steps. -/
def parseSteps : Nat → Str → Option (List Step)
  | 0, _ => none
  | fuel + 1, s =>
    match parseCompound s with
    | none => none
    | some (step, []) => some [step]
    | some (step, ' ' :: '>' :: ' ' :: rest) => (parseSteps fuel rest).map (step :: ·)
    | some _ => none

/-- The reading of a selector text as a path, on the fragment of the grammar that
`getCssSelector` writes: type names, `#id`, `:nth-of-type(n)` and the child combinator
written ` > `.  The result is `none` for a text that is no selector (on such a text
`querySelector` throws) and for a selector of another form. -/
def parseSelector (s : Str) : Option Selector :=
  parseSteps (s.length + 1) s

/-- The method `document.querySelector` on a selector text. -/
def querySelectorOfText (dom : List DomNode) (s : Str) : Option Nat :=
  (parseSelector s).bind (documentQuerySelector dom)

/-- The characters that the replace of line 49 of content.js escapes. -/
def idEscapes : List Char := [':', '.', '[', ']', ',', '=']

/-- The replace on the id in line 49 of content.js,
`el.id.replace(/(:|\.|\[|\]|,|=)/g, '\\$1')`: each of the characters `: . [ ] , =`
gets a backslash in front, every other character stays. -/
def escapeId (ident : Str) : Str :=
  ident.flatMap fun c => if idEscapes.contains c then [backslash, c] else [c]

/-- The decimal digit `d`, for `d < 10`. -/
def digitChar (d : Nat) : Char := Char.ofNat (48 + d)

/-- The digits of `n` written in front of `acc`. -/
def decimalLoop : Nat → Nat → Str → Str
  | 0, _, acc => acc
  | fuel + 1, n, acc =>
    if n < 10 then digitChar n :: acc
    else decimalLoop fuel (n / 10) (digitChar (n % 10) :: acc)

/-- The text of a natural number in a template literal: its decimal digits. -/
def decimal (n : Nat) : Str := decimalLoop (n + 1) n []

/-- The method `Array.prototype.join`. -/
def join (sep : Str) : List Str → Str
  | [] => []
  | [x] => x
  | x :: y :: rest => x ++ sep ++ join sep (y :: rest)

/-- The loop of `getCssSelector` (content.js lines 46-61), climbing from `el`; `path`
holds the texts of the steps written so far.  An element without a parent stands for
the root element, whose parent is the document. -/
def getCssSelectorLoop (dom : List DomNode) : Nat → Nat → List Str → Option (List Str)
  | 0, _, _ => none
  | fuel + 1, el, path =>
    match dom[el]? with
    | none => some path
    | some e =>
      if e.nodeType = 1 then
        if e.id ≠ [] then some ((toLowerCase e.nodeName ++ '#' :: escapeId e.id) :: path)
        else
          match e.parentNode with
          | some p =>
            getCssSelectorLoop dom fuel p
              ((if nthOfType dom el ≠ 1 then
                  toLowerCase e.nodeName ++
                    (":nth-of-type(".toList ++ decimal (nthOfType dom el) ++ [')'])
                else toLowerCase e.nodeName) :: path)
          | none =>
            some ((if nthOfType dom el ≠ 1 then
                toLowerCase e.nodeName ++
                  (":nth-of-type(".toList ++ decimal (nthOfType dom el) ++ [')'])
              else toLowerCase e.nodeName) :: path)
      else some path

/-- The function `getCssSelector` (content.js lines 43-63): the texts of the steps
joined by ` > `.  For a node that is not an element the result is `undefined`, here
the empty text; `none` is the loop running out of fuel. -/
def getCssSelector (dom : List DomNode) (fuel : Nat) (el : Nat) : Option Str :=
  if isElementAt dom el then (getCssSelectorLoop dom fuel el []).map (join " > ".toList)
  else some []

/-- The text nodes that a `TreeWalker` on `root` with `SHOW_TEXT` visits, in document
order. -/
def textWalker (dom : List DomNode) (root : Nat) : List Nat :=
  (List.range dom.length).filter fun n =>
    isTextAt dom n && decide (n ≠ root) && contains dom root n

/-! ## Locator -/

/-- A match of the locator: the text node and the range the rectangles are taken of. -/
structure Match where
  node : Nat
  rangeStart : Nat
  rangeEnd : Nat
deriving DecidableEq, Repr

/-- Whether `p` lies in the element `el` of the picker, when that element exists
(`el && el.contains(p)`). -/
def insidePicker (dom : List DomNode) (el : Option Nat) (p : Nat) : Bool :=
  match el with
  | some e => contains dom e p
  | none => false

/-- The filter `acceptNode` of `findMatches` (content.js lines 325-332). -/
def acceptNode (page : Page) (texts : List Str) (n : Nat) : Bool :=
  if texts.getD n [] = [] then false
  else
    match parentOf page.dom n with
    | none => false
    | some p =>
      if insidePicker page.dom page.modalEl p || insidePicker page.dom page.highlightEl p then
        false
      else if isIgnoredElement page.dom[p]? || !isVisibleElement page.dom[p]? then false
      else true

/-- The inner loop of `findMatches` (content.js lines 337-342) on the text `s` of
node `n`. -/
def execLoop (canon : Char → Char) :
    Nat → RegExp → Nat → Str → List Match → Option (RegExp × List Match)
  | 0, _, _, _, _ => none
  | fuel + 1, re, n, s, out =>
    match re.exec canon s with
    | (re1, none) => some (re1, out)
    | (re1, some (index, len)) =>
      execLoop canon fuel re1 n s (out ++ [⟨n, index, index + len⟩])

/-- The outer loop of `findMatches` (content.js lines 335-343) over the nodes the
walker yields; the regular expression object is shared by all nodes. -/
def walkLoop (canon : Char → Char) (fuel : Nat) (texts : List Str) :
    RegExp → List Nat → List Match → Option (List Match)
  | _, [], out => some out
  | re, n :: ns, out =>
    match execLoop canon fuel re n (texts.getD n []) out with
    | none => none
    | some (re1, out1) => walkLoop canon fuel texts re1 ns out1

/-- The root element of `findMatches` (content.js lines 317-322). -/
def rootElement (page : Page) (selector : Selector) : Nat :=
  if selector = [] then page.body
  else (documentQuerySelector page.dom selector).getD page.body

/-- The nodes the walker of `findMatches` yields. -/
def acceptedNodes (page : Page) (texts : List Str) (selector : Selector) : List Nat :=
  (textWalker page.dom (rootElement page selector)).filter (acceptNode page texts)

/-- The function `findMatches` (content.js lines 314-345); `fuel` bounds the number
of `exec` calls on one node. -/
def findMatches (canon : Char → Char) (page : Page) (fuel : Nat) (texts : List Str)
    (token : Str) (selector : Selector) : Option (List Match) :=
  walkLoop canon fuel texts (newRegExp (escapeRegExp token))
    (acceptedNodes page texts selector) []

/-! ## Replacement engine and rule store -/

/-- A stored rule (content.js lines 279-284). -/
structure Rule where
  original : Str
  replacement : Str
  hostname : Str
  selector : Selector
deriving DecidableEq, Repr

/-- The mutable state of the engine and of the tree: the `nodeValue` of every node,
the in-memory rule list and the undo snapshot (`none` is `null`). -/
structure State where
  texts : List Str
  rules : List Rule
  lastSnapshot : Option (List (Nat × Str))
deriving DecidableEq, Repr

/-- The triple test of `findIndex` in `applyReplacement` (content.js line 285). -/
def sameTriple (newRule r : Rule) : Bool :=
  decide (r.hostname = newRule.hostname) && decide (r.selector = newRule.selector) &&
    decide (r.original = newRule.original)

/-- The method `Array.prototype.findIndex`; `none` is the result -1. -/
def findIndex {α : Type} (p : α → Bool) : List α → Option Nat
  | [] => none
  | a :: l => if p a then some 0 else (findIndex p l).map (· + 1)

/-- The store step of `applyReplacement` (content.js lines 285-287): overwrite the
rule with the same triple, or push. -/
def upsertRule (rules : List Rule) (newRule : Rule) : List Rule :=
  match findIndex (sameTriple newRule) rules with
  | some idx => rules.set idx newRule
  | none => rules ++ [newRule]

/-- The text of a node after one iteration of the `forEach` of `applyReplacement`
(content.js line 277). -/
def replaceIn (canon : Char → Char) (token replacement : Str) (s : Str) : Str :=
  jsReplace canon (newRegExp (escapeRegExp token)) replacement s

/-- The function `applyReplacement` (content.js lines 270-289); `input` is the value
of the input field of the panel.  `none` is `findMatches` not returning. -/
def applyReplacement (canon : Char → Char) (page : Page) (fuel : Nat) (st : State)
    (input token : Str) (selector : Selector) : Option State :=
  if trim input = [] then some st
  else
    match findMatches canon page fuel st.texts token selector with
    | none => none
    | some found =>
      some
        { texts := found.foldl
            (fun t m => t.set m.node (replaceIn canon token (trim input) (t.getD m.node [])))
            st.texts
          rules := upsertRule st.rules ⟨token, trim input, page.hostname, selector⟩
          lastSnapshot := some (found.map fun m => (m.node, st.texts.getD m.node [])) }

/-- The function `undoLast` (content.js lines 290-294). -/
def undoLast (st : State) : State :=
  match st.lastSnapshot with
  | none => st
  | some snapshot =>
    { texts := snapshot.foldl (fun t s => t.set s.1 s.2) st.texts
      rules := st.rules
      lastSnapshot := none }

/-- The rules of the current site (content.js lines 300 and 349). -/
def pageRules (hostname : Str) (rules : List Rule) : List Rule :=
  rules.filter fun r => decide (r.hostname = hostname)

/-- The click handler that `renderSaved` gives the delete button of row `i`
(content.js line 308), where `i` is the index of the row in `pageRules`:
`rules.splice(i, 1)`. -/
def deleteRow (st : State) (i : Nat) : State :=
  { st with rules := st.rules.eraseIdx i }

/-! ## Auto-apply -/

/-- The filter `acceptNode` of `applyAllRules` (content.js lines 361-364). -/
def acceptAuto (dom : List DomNode) (texts : List Str) (n : Nat) : Bool :=
  if texts.getD n [] = [] then false
  else
    match parentOf dom n with
    | none => false
    | some p => !isIgnoredElement dom[p]?

/-- The body of the loop over the walker in `applyAllRules` (content.js lines
368-373) at node `n`. -/
def autoStep (canon : Char → Char) (dom : List DomNode) (r : Rule) (texts : List Str)
    (n : Nat) : List Str :=
  if acceptAuto dom texts n then
    if ((newRegExp (escapeRegExp r.original)).test canon (texts.getD n [])).2 then
      texts.set n
        (jsReplace canon ((newRegExp (escapeRegExp r.original)).test canon (texts.getD n [])).1
          r.replacement (texts.getD n []))
    else texts
  else texts

/-- The element a rule is applied under (content.js lines 353-358): `root` when it
matches the selector, else its first matching descendant.  The empty selector makes
`matches` throw, which skips the rule. -/
def targetElement (dom : List DomNode) (root : Nat) (selector : Selector) : Option Nat :=
  if selector = [] then none
  else if elementMatches dom selector root then some root
  else elementQuerySelector dom root selector

/-- The body of `pageRules.forEach` in `applyAllRules` (content.js lines 352-374). -/
def applyRule (canon : Char → Char) (dom : List DomNode) (root : Nat) (texts : List Str)
    (r : Rule) : List Str :=
  match targetElement dom root r.selector with
  | none => texts
  | some target => (textWalker dom target).foldl (autoStep canon dom r) texts

/-- The function `applyAllRules` (content.js lines 348-375). -/
def applyAllRules (canon : Char → Char) (page : Page) (root : Nat) (st : State) : State :=
  { st with
    texts := (pageRules page.hostname st.rules).foldl (applyRule canon page.dom root) st.texts }

/-- The callback of the mutation observer (content.js lines 377-381) on the added
nodes of a batch. -/
def observeDOM (canon : Char → Char) (page : Page) (addedNodes : List Nat) (st : State) :
    State :=
  addedNodes.foldl
    (fun s n => if isElementAt page.dom n then applyAllRules canon page n s else s) st

/-! ## Picker -/

/-- The token that `onClick` captures (content.js lines 147-148) from the text of the
selection and the `innerText` of the element; `none` is the early return. -/
def onClickToken (selection innerText : Str) : Option Str :=
  if trim (if trim selection ≠ [] then trim selection else innerText) = [] then none
  else some (trim (if trim selection ≠ [] then trim selection else innerText))


/-! ## Specification side: literal occurrences -/

/-- A case-insensitive literal occurrence of `token` starts at index `i` of `text`:
the `token.length` characters from `i` on are those of the token up to case. -/
def occursAt (canon : Char → Char) (token text : Str) (i : Nat) : Bool :=
  decide (((text.drop i).take token.length).map canon = token.map canon)

/-- The list `ps` holds the leftmost non-overlapping occurrences of `token` in `text`,
from left to right: each entry is an occurrence, each starts at or after the end of
the one before, and an occurrence that is not in the list starts inside an entry. -/
structure LeftmostNonOverlapping (canon : Char → Char) (token text : Str) (ps : List Nat) :
    Prop where
  occurs : ∀ p ∈ ps, occursAt canon token text p = true
  apart : ps.Pairwise fun p q => p + token.length ≤ q
  leftmost : ∀ q, occursAt canon token text q = true → ∃ p ∈ ps, p ≤ q ∧ q < p + token.length

/-- The scan that collects the leftmost non-overlapping occurrences of a non-empty
token in the rest of a text: `pos` is the index of the head of the rest, `skip` the
number of characters still covered by the occurrence found last. -/
def scanOccurrences (canon : Char → Char) (token : Str) : Str → Nat → Nat → List Nat
  | [], _, _ => []
  | _ :: cs, pos, skip + 1 => scanOccurrences canon token cs (pos + 1) skip
  | c :: cs, pos, 0 =>
    if occursAt canon token (c :: cs) 0 then
      pos :: scanOccurrences canon token cs (pos + 1) (token.length - 1)
    else scanOccurrences canon token cs (pos + 1) 0

/-- The start indices of the leftmost non-overlapping case-insensitive literal
occurrences of `token` in `text`, from left to right. -/
def leftmostOccurrences (canon : Char → Char) (token text : Str) : List Nat :=
  scanOccurrences canon token text 0 0


/-- The triple a rule is stored under: site, scope and token. -/
def ruleKey (r : Rule) : Str × Selector × Str :=
  (r.hostname, r.selector, r.original)

/-- At most one rule per triple. -/
abbrev UniqueTriples (rules : List Rule) : Prop :=
  (rules.map ruleKey).Nodup

/-- A run of applies with the same token and scope, one per input of the panel. -/
def applyEach (canon : Char → Char) (page : Page) (fuel : Nat) (token : Str)
    (selector : Selector) : List Str → State → Option State
  | [], st => some st
  | input :: rest, st =>
    match applyReplacement canon page fuel st input token selector with
    | none => none
    | some st1 => applyEach canon page fuel token selector rest st1

/-- The scan that replaces the leftmost non-overlapping occurrences of a non-empty
token by the replacement text as it stands; `skip` is the number of characters still
covered by the occurrence found last. -/
def replaceVerbatimScan (canon : Char → Char) (token replacement : Str) : Str → Nat → Str
  | [], _ => []
  | _ :: cs, skip + 1 => replaceVerbatimScan canon token replacement cs skip
  | c :: cs, 0 =>
    if occursAt canon token (c :: cs) 0 then
      replacement ++ replaceVerbatimScan canon token replacement cs (token.length - 1)
    else c :: replaceVerbatimScan canon token replacement cs 0

/-- The text with each leftmost non-overlapping case-insensitive literal occurrence of
`token` replaced by `replacement` verbatim. -/
def replaceOccurrences (canon : Char → Char) (token replacement text : Str) : Str :=
  replaceVerbatimScan canon token replacement text 0

/-- The rest `l` of a text, whose head has index `pos`, with the pieces of length `len`
that start at the indices `ps` replaced, the piece at `p` by `sub p`, and every other
character kept. -/
def spliceOccurrences (len : Nat) (sub : Nat → Str) : Str → Nat → List Nat → Str
  | l, _, [] => l
  | l, pos, p :: ps =>
    l.take (p - pos) ++ sub p ++
      spliceOccurrences len sub (l.drop (p - pos + len)) (p + len) ps

/-- The text contains a case-insensitive literal occurrence of `token`. -/
def containsToken (canon : Char → Char) (token : Str) : Str → Bool
  | [] => occursAt canon token [] 0
  | c :: cs => occursAt canon token (c :: cs) 0 || containsToken canon token cs

/-- The parent of node `n` exists and is not ignored: the part of `acceptAuto` that
does not depend on the text. -/
def parentAllowed (dom : List DomNode) (n : Nat) : Bool :=
  match parentOf dom n with
  | none => false
  | some p => !isIgnoredElement dom[p]?

/-- The text that the body of the loop of `applyAllRules` leaves in node `n` for the
rule `r` when the text of the node was `s`. -/
def autoValue (canon : Char → Char) (dom : List DomNode) (r : Rule) (n : Nat) (s : Str) : Str :=
  if s = [] then s
  else if parentAllowed dom n then
    if containsToken canon r.original s then replaceIn canon r.original r.replacement s else s
  else s

/-- The walker of `applyAllRules` from `root` visits node `j` for the rule `r`. -/
def visits (dom : List DomNode) (root : Nat) (r : Rule) (j : Nat) : Bool :=
  match targetElement dom root r.selector with
  | some target => decide (j ∈ textWalker dom target)
  | none => false

/-- The replacement text holds one of the substitution patterns `$$`, `$&`, `$` with a
grave accent, `$` with a single quote. -/
def hasDollarPattern : Str → Bool
  | [] => false
  | [_] => false
  | c :: d :: rest =>
    (decide (c = '$') &&
        (decide (d = '$') || decide (d = '&') || decide (d = graveAccent) ||
          decide (d = singleQuote))) ||
      hasDollarPattern (d :: rest)

/-- The two texts, laid side by side from their first characters, agree up to case as
far as both reach. -/
def agreeAlong (canon : Char → Char) : Str → Str → Bool
  | [], _ => true
  | _ :: _, [] => true
  | x :: xs, y :: ys => decide (canon x = canon y) && agreeAlong canon xs ys

/-- No occurrence of `token` in a text can share a character with a copy of
`replacement` in it: both are non-empty and, however the token is laid over the
replacement, two characters that meet differ.  The token starts at or before the
start of the replacement (a non-empty end piece of the token lies along the
replacement) or inside it (the token lies along a non-empty end piece of the
replacement). -/
abbrev NoOverlap (canon : Char → Char) (token replacement : Str) : Prop :=
  token ≠ [] ∧ replacement ≠ [] ∧
    (∀ us ∈ token.tails, us ≠ [] → agreeAlong canon us replacement = false) ∧
    (∀ rs ∈ replacement.tails, rs ≠ [] → agreeAlong canon token rs = false)

/-- The rules settle in one pass: no replacement holds a substitution pattern, and no
occurrence of the token of a rule can share a character with the replacement of that
rule or of a rule applied after it. -/
abbrev RulesSettle (canon : Char → Char) (rules : List Rule) : Prop :=
  (∀ r ∈ rules, hasDollarPattern r.replacement = false ∧
      NoOverlap canon r.original r.replacement) ∧
    rules.Pairwise fun r q => NoOverlap canon r.original q.replacement

/-- Document order lists a parent before its children. -/
def parentsFirst (dom : List DomNode) : Bool :=
  (List.range dom.length).all fun i =>
    match parentOf dom i with
    | some p => decide (p < i)
    | none => true

/-- Node `i` lies in the subtree of node `a`: parent links lead from `i` to `a`. -/
inductive Desc (dom : List DomNode) (a : Nat) : Nat → Prop where
  | refl : Desc dom a a
  | step (i p : Nat) : parentOf dom i = some p → Desc dom a p → Desc dom a i

/-- The parent of a node is an element. -/
def parentsAreElements (dom : List DomNode) : Bool :=
  (List.range dom.length).all fun i =>
    match parentOf dom i with
    | some p => isElementAt dom p
    | none => true

/-- Document order lists the subtree of a node without a gap: a node between a parent
and one of its children lies in the subtree of the parent. -/
def contiguous (dom : List DomNode) : Bool :=
  (List.range dom.length).all fun i =>
    match parentOf dom i with
    | some p => (List.range i).all fun k => decide (k ≤ p) || contains dom p k
    | none => true

/-- The list of nodes is a tree in document order. -/
def wellFormed (dom : List DomNode) : Bool :=
  parentsFirst dom && parentsAreElements dom && contiguous dom

/-- No two elements have the same non-empty id. -/
def uniqueIds (dom : List DomNode) : Bool :=
  (List.range dom.length).all fun i =>
    (List.range dom.length).all fun j =>
      !(isElementAt dom i && isElementAt dom j && decide (idAt dom i ≠ []) &&
          decide (idAt dom i = idAt dom j)) || decide (i = j)

/-- No other element has the tag name of an element without a parent (in a document:
there is one `html` element, the root). -/
def rootTagUnique (dom : List DomNode) : Bool :=
  (List.range dom.length).all fun i =>
    (List.range dom.length).all fun j =>
      !(isElementAt dom i && decide (parentOf dom i = none) && isElementAt dom j &&
          decide (tagAt dom j = tagAt dom i)) || decide (i = j)

/-- The `nodeName` of node `i`. -/
def nodeNameAt (dom : List DomNode) (i : Nat) : Str :=
  match dom[i]? with
  | some e => e.nodeName
  | none => []

/-- A node name whose lower-cased text is a type selector for the element: it starts
with an ASCII letter, holds only ASCII letters, digits, `-` and `_`, and does not mix
upper-case and lower-case letters (a name in upper case is the name of an HTML element,
which a type selector matches without regard to case; a name with both, such as
`foreignObject`, is matched with regard to case and not by its lower-cased text). -/
def isSafeName (name : Str) : Bool :=
  (match name with
    | [] => false
    | c :: _ => c.isAlpha) &&
  name.all isNameChar &&
  (name.all (fun c => !c.isLower) || name.all (fun c => !c.isUpper))

/-- An id that the text written after `#` by line 49 of content.js denotes: it is
empty, or it holds only ASCII letters, digits, `-`, `_` and the escaped characters
`: . [ ] , =`, and it starts with a letter, `_` or an escaped character, or with `-`
followed by one of these or by `-`. -/
def isSafeId : Str → Bool
  | [] => true
  | c :: rest =>
    (if c = '-' then
      match rest with
      | [] => false
      | d :: _ => isNameStart d || decide (d = '-') || idEscapes.contains d
    else isNameStart c || idEscapes.contains c) &&
    (c :: rest).all fun x => isNameChar x || idEscapes.contains x

/-- The element `el` and the elements that contain it have safe names and safe ids. -/
def pathSafe (dom : List DomNode) (el : Nat) : Bool :=
  (List.range dom.length).all fun a =>
    !contains dom a el || (isSafeName (nodeNameAt dom a) && isSafeId (idAt dom a))

/-- The text of a step: `tag`, `tag#id` with the id escaped as in line 49 of
content.js, or `tag:nth-of-type(n)`. -/
def stepText : Step → Str
  | Step.tag t => t
  | Step.tagId t ident => t ++ '#' :: escapeId ident
  | Step.tagNth t n => t ++ (":nth-of-type(".toList ++ decimal n ++ [')'])

/-- The step `getCssSelector` writes for the element `i`. -/
def stepOf (dom : List DomNode) (i : Nat) : Step :=
  if idAt dom i ≠ [] then Step.tagId (tagAt dom i) (idAt dom i)
  else if nthOfType dom i ≠ 1 then Step.tagNth (tagAt dom i) (nthOfType dom i)
  else Step.tag (tagAt dom i)

/-- The elements `getCssSelector` writes a step for, from `el` upwards: `el`, its
parent, and so on up to the nearest element with an id or to the element without a
parent. -/
def climb (dom : List DomNode) : Nat → Nat → Option (List Nat)
  | 0, _ => none
  | fuel + 1, el =>
    if isElementAt dom el then
      if idAt dom el ≠ [] then some [el]
      else
        match parentOf dom el with
        | some p => (climb dom fuel p).map (el :: ·)
        | none => some [el]
    else some []

/-- A lower-cased type name: it starts with an ASCII letter, holds only ASCII letters,
digits, `-` and `_`, and lower-casing leaves it as it is. -/
def LowName (t : Str) : Prop :=
  (∃ c l, t = c :: l ∧ c.isAlpha = true) ∧ (∀ c ∈ t, isNameChar c = true) ∧
    toLowerCase t = t

/-- A step whose text reads back as the step. -/
def SafeStep : Step → Prop
  | Step.tag t => LowName t
  | Step.tagId t ident => LowName t ∧ isSafeId ident = true ∧ ident ≠ []
  | Step.tagNth t _ => LowName t


/-! ## Example documents -/

/-- A visible, non-editable element. -/
def element (parent : Option Nat) (name ident : Str) : DomNode :=
  ⟨parent, 1, name, ident, false, true⟩

/-- A text node under `parent`. -/
def textNode (parent : Nat) : DomNode :=
  ⟨some parent, 3, "#text".toList, [], false, true⟩

/-- The document `<html><body><p>f(x) = (X)(x)</p><script>g(x)</script><p>(x</p>`. -/
def formulaPage : Page :=
  { dom := [element none "HTML".toList [], element (some 0) "BODY".toList [],
      element (some 1) "P".toList [], textNode 2,
      element (some 1) "SCRIPT".toList [], textNode 4,
      element (some 1) "P".toList [], textNode 6]
    body := 1
    hostname := "a.example".toList
    modalEl := none
    highlightEl := none }

/-- The texts of `formulaPage`. -/
def formulaTexts : List Str :=
  [[], [], [], "f(x) = (X)(x)".toList, [], "g(x)".toList, [], "(x".toList]

/-- The document `<html><body><p>…</p>` with one paragraph. -/
def paragraphPage : Page :=
  { dom := [element none "HTML".toList [], element (some 0) "BODY".toList [],
      element (some 1) "P".toList [], textNode 2]
    body := 1
    hostname := "a.example".toList
    modalEl := none
    highlightEl := none }

/-- The selector `html > body > p`. -/
def paragraphSelector : Selector :=
  [Step.tag "html".toList, Step.tag "body".toList, Step.tag "p".toList]

/-- The state of `paragraphPage` with the paragraph reading `foo` and nothing stored. -/
def fooState : State :=
  { texts := [[], [], [], "foo".toList], rules := [], lastSnapshot := none }

/-- The state after `foo` was replaced by `bar` in the paragraph. -/
def barState : State :=
  { texts := [[], [], [], "bar".toList]
    rules := [⟨"foo".toList, "bar".toList, "a.example".toList, paragraphSelector⟩]
    lastSnapshot := some [(3, "foo".toList)] }

/-- A rule of the site `a.example`. -/
def ruleOfA : Rule :=
  ⟨"foo".toList, "bar".toList, "a.example".toList, paragraphSelector⟩

/-- A rule of the site `b.example`. -/
def ruleOfB : Rule :=
  ⟨"left".toList, "right".toList, "b.example".toList, paragraphSelector⟩

/-- The state of `paragraphPage` with the paragraph reading `5 USD`. -/
def priceState : State :=
  { texts := [[], [], [], "5 USD".toList], rules := [], lastSnapshot := none }

/-- The state of `paragraphPage` with the paragraph reading `cat cat`. -/
def catState : State :=
  { texts := [[], [], [], "cat cat".toList], rules := [], lastSnapshot := none }

/-- The state of `paragraphPage` with the paragraph reading `aabb` and the rule
`ab` to `a` stored. -/
def overlapState : State :=
  { texts := [[], [], [], "aabb".toList]
    rules := [⟨"ab".toList, "a".toList, "a.example".toList, paragraphSelector⟩]
    lastSnapshot := none }

/-- The state of `paragraphPage` with the paragraph reading `foo Foo` and the rule
`foo` to `bar` stored. -/
def fooRuleState : State :=
  { texts := [[], [], [], "foo Foo".toList], rules := [ruleOfA], lastSnapshot := none }

/-- The state of `paragraphPage` with the paragraph reading `Hello cat, hello Bird` and
the rules `cat` to `dog`, `bird` to `fish` and `Hello` to `Hi` stored in this order. -/
def greetingState : State :=
  { texts := [[], [], [], "Hello cat, hello Bird".toList]
    rules := [⟨"cat".toList, "dog".toList, "a.example".toList, paragraphSelector⟩,
      ⟨"bird".toList, "fish".toList, "a.example".toList, paragraphSelector⟩,
      ⟨"Hello".toList, "Hi".toList, "a.example".toList, paragraphSelector⟩]
    lastSnapshot := none }

/-- The state of `paragraphPage` with the paragraph reading `cat cat` and the rule
`cat` to `cats` stored. -/
def catRuleState : State :=
  { texts := [[], [], [], "cat cat".toList]
    rules := [⟨"cat".toList, "cats".toList, "a.example".toList, paragraphSelector⟩]
    lastSnapshot := none }

/-- The document `<html><body><div id="box"><p>…</p></div>`. -/
def boxPage : Page :=
  { dom := [element none "HTML".toList [], element (some 0) "BODY".toList [],
      element (some 1) "DIV".toList "box".toList, element (some 2) "P".toList [], textNode 3]
    body := 1
    hostname := "a.example".toList
    modalEl := none
    highlightEl := none }

/-- The selector `div#box`. -/
def boxSelector : Selector := [Step.tagId "div".toList "box".toList]

/-- The state of `boxPage` with the paragraph reading `foo` and the rule `foo` to `bar`
scoped to the box stored. -/
def boxState : State :=
  { texts := [[], [], [], [], "foo".toList]
    rules := [⟨"foo".toList, "bar".toList, "a.example".toList, boxSelector⟩]
    lastSnapshot := none }

/-- The state of `boxPage` with the paragraph reading `Hello aabb` and the rules `ab`
to `a` and `Hello` to `Hi`, both scoped to the box, stored in this order. -/
def boxGreetingState : State :=
  { texts := [[], [], [], [], "Hello aabb".toList]
    rules := [⟨"ab".toList, "a".toList, "a.example".toList, boxSelector⟩,
      ⟨"Hello".toList, "Hi".toList, "a.example".toList, boxSelector⟩]
    lastSnapshot := none }

/-- The document `<html><head><title>…</title></head><body><svg><title>…</title>`. -/
def titlePage : Page :=
  { dom := [element none "HTML".toList [], element (some 0) "HEAD".toList [],
      element (some 1) "TITLE".toList [], textNode 2,
      element (some 0) "BODY".toList [], element (some 4) "svg".toList [],
      element (some 5) "title".toList [], textNode 6]
    body := 4
    hostname := "a.example".toList
    modalEl := none
    highlightEl := none }

/-- The state of `titlePage` with both titles reading `foo` and the rule `foo` to `bar`
with the scope `title` stored. -/
def titleState : State :=
  { texts := [[], [], [], "foo".toList, [], [], [], "foo".toList]
    rules := [⟨"foo".toList, "bar".toList, "a.example".toList, [Step.tag "title".toList]⟩]
    lastSnapshot := none }

/-- The document `<html><body><p>…</p><p>…</p>`. -/
def twoParagraphPage : Page :=
  { dom := [element none "HTML".toList [], element (some 0) "BODY".toList [],
      element (some 1) "P".toList [], textNode 2, element (some 1) "P".toList [], textNode 4]
    body := 1
    hostname := "a.example".toList
    modalEl := none
    highlightEl := none }

/-- The state of `twoParagraphPage` with both paragraphs reading `foo` and the rule
`foo` to `bar` scoped to the first paragraph stored. -/
def twoParagraphState : State :=
  { texts := [[], [], [], "foo".toList, [], "foo".toList]
    rules := [ruleOfA]
    lastSnapshot := none }

/-- The document `<html><body><p id="x">…</p><p id="x">…</p>`, with the id twice. -/
def duplicateIdPage : Page :=
  { dom := [element none "HTML".toList [], element (some 0) "BODY".toList [],
      element (some 1) "P".toList "x".toList, textNode 2,
      element (some 1) "P".toList "x".toList, textNode 4]
    body := 1
    hostname := "a.example".toList
    modalEl := none
    highlightEl := none }

/-- The document `<html><body><o:p>…</o:p>`, with an element whose name has a colon. -/
def officePage : Page :=
  { dom := [element none "HTML".toList [], element (some 0) "BODY".toList [],
      element (some 1) "O:P".toList [], textNode 2]
    body := 1
    hostname := "a.example".toList
    modalEl := none
    highlightEl := none }

/-- The document `<html><body><p>…</p><p id="1x">…</p>`, with an id that starts with a
digit. -/
def digitIdPage : Page :=
  { dom := [element none "HTML".toList [], element (some 0) "BODY".toList [],
      element (some 1) "P".toList [], textNode 2,
      element (some 1) "P".toList "1x".toList, textNode 4]
    body := 1
    hostname := "a.example".toList
    modalEl := none
    highlightEl := none }

/-- The document `<html><body><div id="a.b"><p>…</p><p>…</p></div>`, with an id that
holds a dot. -/
def dottedIdPage : Page :=
  { dom := [element none "HTML".toList [], element (some 0) "BODY".toList [],
      element (some 1) "DIV".toList "a.b".toList,
      element (some 2) "P".toList [], textNode 3,
      element (some 2) "P".toList [], textNode 5]
    body := 1
    hostname := "a.example".toList
    modalEl := none
    highlightEl := none }
/-! ## Lemmas on patterns -/

theorem backslash_mem_syntaxChars : syntaxChars.contains backslash = true := by decide

theorem compile_cons_plain (c : Char) (rest : Str) (h : syntaxChars.contains c = false) :
    compile (c :: rest) = (compile rest).map (Atom.lit c :: ·) := by
  have h1 : c ≠ backslash := by
    intro hc; rw [hc, backslash_mem_syntaxChars] at h; exact Bool.noConfusion h
  have h2 : c ≠ '.' := by
    intro hc; rw [hc] at h; revert h; decide
  have h3 : c ∉ syntaxChars := by simpa using h
  cases rest with
  | nil => simp [compile, h1, h2, h3]
  | cons d rest => simp [compile, h1, h2, h3]

theorem compile_cons_escaped (c : Char) (rest : Str) (h : syntaxChars.contains c = true) :
    compile (backslash :: c :: rest) = (compile rest).map (Atom.lit c :: ·) := by
  have h3 : c ∈ syntaxChars := by simpa using h
  simp [compile, h3]

/-- The pattern `escapeRegExp(token)` compiles to the literal characters of the
token, whatever the token holds. -/
theorem compile_escapeRegExp (token : Str) :
    compile (escapeRegExp token) = some (token.map Atom.lit) := by
  induction token with
  | nil => rfl
  | cons c t ih =>
    have hstep : escapeRegExp (c :: t) =
        (if syntaxChars.contains c then [backslash, c] else [c]) ++ escapeRegExp t := by
      simp [escapeRegExp, List.flatMap_cons]
    rw [hstep]
    by_cases h : syntaxChars.contains c = true
    · rw [if_pos h]
      show compile (backslash :: c :: escapeRegExp t) = _
      rw [compile_cons_escaped c _ h, ih]; rfl
    · have h0 : syntaxChars.contains c = false := by simpa using h
      rw [if_neg h]
      show compile (c :: escapeRegExp t) = _
      rw [compile_cons_plain c _ h0, ih]; rfl

theorem newRegExp_escapeRegExp (token : Str) :
    newRegExp (escapeRegExp token) = ⟨token.map Atom.lit, 0⟩ := by
  simp [newRegExp, compile_escapeRegExp]

theorem matchesHere_lit (canon : Char → Char) (token l : Str) :
    matchesHere canon (token.map Atom.lit) l = occursAt canon token l 0 := by
  induction token generalizing l with
  | nil => simp [matchesHere, occursAt]
  | cons t ts ih =>
    cases l with
    | nil => simp [matchesHere, occursAt]
    | cons c cs =>
      have := ih cs
      simp only [occursAt, List.drop_zero] at this ⊢
      simp only [List.map_cons, matchesHere, atomMatches, this, List.length_cons,
        List.take_succ_cons, List.cons.injEq]
      by_cases h1 : canon t = canon c
      · simp [h1]
      · have h2 : ¬ canon c = canon t := fun h => h1 h.symm
        simp [h1, h2]


/-! ## Lemmas on the scan of occurrences -/

theorem scanOccurrences_skip (canon : Char → Char) (token l : Str) (pos skip : Nat) :
    scanOccurrences canon token l pos skip =
      scanOccurrences canon token (l.drop skip) (pos + skip) 0 := by
  induction l generalizing pos skip with
  | nil => simp [scanOccurrences]
  | cons c cs ih =>
    cases skip with
    | zero => simp
    | succ k =>
      simp only [scanOccurrences, List.drop_succ_cons]
      rw [ih]
      congr 1
      omega

theorem occursAt_zero_length (canon : Char → Char) (token l : Str)
    (h : occursAt canon token l 0 = true) : token.length ≤ l.length := by
  simp only [occursAt, List.drop_zero, decide_eq_true_eq] at h
  have := congrArg List.length h
  simp only [List.length_map, List.length_take] at this
  omega

theorem scanOccurrences_hit (canon : Char → Char) (token l : Str) (pos : Nat)
    (hne : token ≠ []) (h : occursAt canon token l 0 = true) :
    scanOccurrences canon token l pos 0 =
      pos :: scanOccurrences canon token (l.drop token.length) (pos + token.length) 0 := by
  have hlen : 0 < token.length := List.length_pos.mpr hne
  cases l with
  | nil =>
    have := occursAt_zero_length canon token [] h
    simp only [List.length_nil] at this
    omega
  | cons c cs =>
    simp only [scanOccurrences, h, if_true]
    rw [scanOccurrences_skip]
    have h1 : (c :: cs).drop token.length = cs.drop (token.length - 1) := by
      obtain ⟨k, hk⟩ := Nat.exists_eq_succ_of_ne_zero (Nat.pos_iff_ne_zero.mp hlen)
      rw [hk]; simp
    rw [h1]
    congr 2
    omega

theorem scanOccurrences_miss (canon : Char → Char) (token : Str) (c : Char) (cs : Str)
    (pos : Nat) (h : occursAt canon token (c :: cs) 0 = false) :
    scanOccurrences canon token (c :: cs) pos 0 = scanOccurrences canon token cs (pos + 1) 0 := by
  simp [scanOccurrences, h]

theorem searchFrom_lit_none (canon : Char → Char) (token : Str) (l : Str) :
    ∀ pos, searchFrom canon (token.map Atom.lit) l pos = none →
      scanOccurrences canon token l pos 0 = [] := by
  induction l with
  | nil => intro pos _; simp [scanOccurrences]
  | cons c cs ih =>
    intro pos h
    simp only [searchFrom, matchesHere_lit] at h
    by_cases hm : occursAt canon token (c :: cs) 0 = true
    · simp [hm] at h
    · have hm0 : occursAt canon token (c :: cs) 0 = false := by simpa using hm
      rw [hm0] at h
      simp only [Bool.false_eq_true, if_false] at h
      rw [scanOccurrences_miss canon token c cs pos hm0]
      exact ih (pos + 1) h

theorem searchFrom_lit_some (canon : Char → Char) (token : Str) (hne : token ≠ []) (l : Str) :
    ∀ pos i, searchFrom canon (token.map Atom.lit) l pos = some i →
      pos ≤ i ∧ i + token.length ≤ pos + l.length ∧
      scanOccurrences canon token l pos 0 =
        i :: scanOccurrences canon token (l.drop (i - pos + token.length)) (i + token.length) 0 := by
  induction l with
  | nil =>
    intro pos i h
    exfalso
    simp only [searchFrom, matchesHere_lit] at h
    by_cases hm : occursAt canon token [] 0 = true
    · have := occursAt_zero_length canon token [] hm
      have hlen : 0 < token.length := List.length_pos.mpr hne
      simp only [List.length_nil] at this
      omega
    · simp [hm] at h
  | cons c cs ih =>
    intro pos i h
    simp only [searchFrom, matchesHere_lit] at h
    by_cases hm : occursAt canon token (c :: cs) 0 = true
    · simp only [hm, if_true, Option.some.injEq] at h
      subst h
      have hl := occursAt_zero_length canon token (c :: cs) hm
      refine ⟨le_refl _, by omega, ?_⟩
      rw [scanOccurrences_hit canon token (c :: cs) pos hne hm]
      simp
    · have hm0 : occursAt canon token (c :: cs) 0 = false := by simpa using hm
      rw [hm0] at h
      simp only [Bool.false_eq_true, if_false] at h
      obtain ⟨h1, h2, h3⟩ := ih (pos + 1) i h
      refine ⟨by omega, by simp only [List.length_cons]; omega, ?_⟩
      rw [scanOccurrences_miss canon token c cs pos hm0, h3]
      have : i - pos + token.length = (i - (pos + 1) + token.length) + 1 := by omega
      rw [this, List.drop_succ_cons]

/-! ## The loops of the locator -/

theorem exec_lit_none (canon : Char → Char) (atoms : List Atom) (k : Nat) (s : Str)
    (hk : k ≤ s.length) (h : searchFrom canon atoms (s.drop k) k = none) :
    RegExp.exec canon ⟨atoms, k⟩ s = (⟨atoms, 0⟩, none) := by
  simp [RegExp.exec, Nat.not_lt.mpr hk, h]

theorem exec_lit_some (canon : Char → Char) (atoms : List Atom) (k i : Nat) (s : Str)
    (hk : k ≤ s.length) (h : searchFrom canon atoms (s.drop k) k = some i) :
    RegExp.exec canon ⟨atoms, k⟩ s = (⟨atoms, i + atoms.length⟩, some (i, atoms.length)) := by
  simp [RegExp.exec, Nat.not_lt.mpr hk, h]

/-- The inner loop on one node: started with `lastIndex = k`, with enough fuel, it
appends the occurrences from `k` on and leaves `lastIndex = 0`. -/
theorem execLoop_lit (canon : Char → Char) (token : Str) (hne : token ≠ []) (n : Nat)
    (s : Str) :
    ∀ fuel k out, k ≤ s.length → s.length - k < fuel →
      execLoop canon fuel ⟨token.map Atom.lit, k⟩ n s out =
        some (⟨token.map Atom.lit, 0⟩,
          out ++ (scanOccurrences canon token (s.drop k) k 0).map fun p =>
            (⟨n, p, p + token.length⟩ : Match)) := by
  have hlen : 0 < token.length := List.length_pos.mpr hne
  intro fuel
  induction fuel with
  | zero => intro k out _ h; omega
  | succ f ih =>
    intro k out hk hf
    cases hs : searchFrom canon (token.map Atom.lit) (s.drop k) k with
    | none =>
      rw [execLoop, exec_lit_none canon _ k s hk hs]
      simp [searchFrom_lit_none canon token _ k hs]
    | some i =>
      obtain ⟨h1, h2, h3⟩ := searchFrom_lit_some canon token hne _ k i hs
      simp only [List.length_drop] at h2
      rw [execLoop, exec_lit_some canon _ k i s hk hs]
      simp only [List.length_map]
      rw [ih (i + token.length) _ (by omega) (by omega), h3]
      simp only [List.drop_drop, List.map_cons, List.append_assoc, List.singleton_append]
      have : k + (i - k + token.length) = i + token.length := by omega
      rw [this]


theorem occursAt_drop (canon : Char → Char) (token l : Str) (d j : Nat) :
    occursAt canon token (l.drop d) j = occursAt canon token l (j + d) := by
  simp [occursAt, List.drop_drop, Nat.add_comm]

theorem occursAt_cons_succ (canon : Char → Char) (token : Str) (c : Char) (cs : Str) (j : Nat) :
    occursAt canon token (c :: cs) (j + 1) = occursAt canon token cs j := by
  simp [occursAt]

theorem occursAt_nil (canon : Char → Char) (token : Str) (hne : token ≠ []) (j : Nat) :
    occursAt canon token [] j = false := by
  cases token with
  | nil => exact absurd rfl hne
  | cons t ts => simp [occursAt]

/-- What the scan of occurrences yields on the rest `l` of a text whose head has index
`pos`: occurrences only, apart by the length of the token, and covering every
occurrence of `l`. -/
theorem scanOccurrences_spec (canon : Char → Char) (token : Str) (hne : token ≠ []) :
    ∀ (m : Nat) (l : Str) (pos : Nat), l.length ≤ m →
      (∀ p ∈ scanOccurrences canon token l pos 0,
          pos ≤ p ∧ occursAt canon token l (p - pos) = true) ∧
      (scanOccurrences canon token l pos 0).Pairwise (fun p q => p + token.length ≤ q) ∧
      (∀ j, occursAt canon token l j = true →
          ∃ p ∈ scanOccurrences canon token l pos 0, p ≤ pos + j ∧ pos + j < p + token.length) := by
  have hlen : 0 < token.length := List.length_pos.mpr hne
  intro m
  induction m with
  | zero =>
    intro l pos hl
    have : l = [] := List.length_eq_zero.mp (Nat.le_zero.mp hl)
    subst this
    refine ⟨?_, ?_, ?_⟩
    · intro p hp; simp [scanOccurrences] at hp
    · simp [scanOccurrences]
    · intro j hj; rw [occursAt_nil canon token hne] at hj; exact Bool.noConfusion hj
  | succ m ih =>
    intro l pos hl
    cases l with
    | nil =>
      refine ⟨?_, ?_, ?_⟩
      · intro p hp; simp [scanOccurrences] at hp
      · simp [scanOccurrences]
      · intro j hj; rw [occursAt_nil canon token hne] at hj; exact Bool.noConfusion hj
    | cons c cs =>
      by_cases hm : occursAt canon token (c :: cs) 0 = true
      · rw [scanOccurrences_hit canon token (c :: cs) pos hne hm]
        have hdl : ((c :: cs).drop token.length).length ≤ m := by
          simp only [List.length_drop, List.length_cons] at hl ⊢
          omega
        obtain ⟨ha, hb, hc⟩ := ih ((c :: cs).drop token.length) (pos + token.length) hdl
        refine ⟨?_, ?_, ?_⟩
        · intro p hp
          rcases List.mem_cons.mp hp with hp | hp
          · subst hp; simpa using hm
          · obtain ⟨h1, h2⟩ := ha p hp
            refine ⟨by omega, ?_⟩
            rw [occursAt_drop] at h2
            have : p - pos = p - (pos + token.length) + token.length := by omega
            rw [this]; exact h2
        · refine List.pairwise_cons.mpr ⟨?_, hb⟩
          intro q hq
          exact (ha q hq).1
        · intro j hj
          by_cases hjl : j < token.length
          · exact ⟨pos, List.mem_cons_self _ _, by omega, by omega⟩
          · have hj2 : occursAt canon token ((c :: cs).drop token.length) (j - token.length)
                = true := by
              rw [occursAt_drop]
              have : j - token.length + token.length = j := by omega
              rw [this]; exact hj
            obtain ⟨p, hp, h1, h2⟩ := hc (j - token.length) hj2
            exact ⟨p, List.mem_cons_of_mem _ hp, by omega, by omega⟩
      · have hm0 : occursAt canon token (c :: cs) 0 = false := by simpa using hm
        rw [scanOccurrences_miss canon token c cs pos hm0]
        have hcl : cs.length ≤ m := by
          simp only [List.length_cons] at hl; omega
        obtain ⟨ha, hb, hc⟩ := ih cs (pos + 1) hcl
        refine ⟨?_, hb, ?_⟩
        · intro p hp
          obtain ⟨h1, h2⟩ := ha p hp
          refine ⟨by omega, ?_⟩
          have : p - pos = p - (pos + 1) + 1 := by omega
          rw [this, occursAt_cons_succ]; exact h2
        · intro j hj
          cases j with
          | zero => rw [hm0] at hj; exact Bool.noConfusion hj
          | succ j =>
            rw [occursAt_cons_succ] at hj
            obtain ⟨p, hp, h1, h2⟩ := hc j hj
            exact ⟨p, hp, by omega, by omega⟩

/-- The list `leftmostOccurrences` meets its specification. -/
theorem leftmostOccurrences_spec (canon : Char → Char) (token text : Str) (hne : token ≠ []) :
    LeftmostNonOverlapping canon token text (leftmostOccurrences canon token text) := by
  obtain ⟨ha, hb, hc⟩ := scanOccurrences_spec canon token hne text.length text 0 (le_refl _)
  refine ⟨?_, hb, ?_⟩
  · intro p hp
    simpa using (ha p hp).2
  · intro q hq
    obtain ⟨p, hp, h1, h2⟩ := hc q hq
    exact ⟨p, hp, by omega, by omega⟩

/-- The outer loop: with `lastIndex = 0` at the first node and enough fuel, every node
contributes all its occurrences, node after node. -/
theorem walkLoop_lit (canon : Char → Char) (token : Str) (hne : token ≠ []) (fuel : Nat)
    (texts : List Str) :
    ∀ (nodes : List Nat) (out : List Match),
      (∀ n ∈ nodes, (texts.getD n []).length < fuel) →
      walkLoop canon fuel texts ⟨token.map Atom.lit, 0⟩ nodes out =
        some (out ++ nodes.flatMap fun n =>
          (leftmostOccurrences canon token (texts.getD n [])).map fun p =>
            (⟨n, p, p + token.length⟩ : Match)) := by
  intro nodes
  induction nodes with
  | nil => intro out _; simp [walkLoop]
  | cons n ns ih =>
    intro out hf
    have h1 := execLoop_lit canon token hne n (texts.getD n []) fuel 0 out (Nat.zero_le _)
      (by have := hf n (List.mem_cons_self _ _); omega)
    rw [walkLoop, h1]
    simp only [List.drop_zero]
    rw [ih _ (fun k hk => hf k (List.mem_cons_of_mem _ hk))]
    simp [leftmostOccurrences, List.flatMap_cons]

theorem acceptedNodes_sorted (page : Page) (texts : List Str) (selector : Selector) :
    (acceptedNodes page texts selector).Pairwise (· < ·) := by
  unfold acceptedNodes textWalker
  exact (List.Pairwise.filter _ (List.Pairwise.filter _ (List.pairwise_lt_range _)))


/-! ## Lemmas on the empty token -/

theorem execLoop_nil_atoms (canon : Char → Char) (n : Nat) (s : Str) :
    ∀ fuel out, execLoop canon fuel ⟨[], 0⟩ n s out = none := by
  intro fuel
  induction fuel with
  | zero => intro out; rfl
  | succ f ih =>
    intro out
    have h : RegExp.exec canon ⟨[], 0⟩ s = (⟨[], 0⟩, some (0, 0)) := by
      cases s <;> simp [RegExp.exec, searchFrom, matchesHere]
    rw [execLoop, h]
    exact ih _

theorem findMatches_nil_token (canon : Char → Char) (page : Page) (fuel : Nat)
    (texts : List Str) (selector : Selector) :
    findMatches canon page fuel texts [] selector =
      if acceptedNodes page texts selector = [] then some [] else none := by
  unfold findMatches
  have hre : newRegExp (escapeRegExp []) = ⟨[], 0⟩ := rfl
  rw [hre]
  cases h : acceptedNodes page texts selector with
  | nil => simp [walkLoop]
  | cons n ns => simp [walkLoop, execLoop_nil_atoms]

theorem onClickToken_ne_nil (selection innerText : Str) :
    onClickToken selection innerText ≠ some [] := by
  unfold onClickToken
  by_cases h : trim (if trim selection ≠ [] then trim selection else innerText) = []
  · rw [if_pos h]; simp
  · rw [if_neg h]
    intro hc
    exact h (Option.some.inj hc)

/-! ## Lemmas on the locator with a token -/

theorem findMatches_eq (canon : Char → Char) (page : Page) (fuel : Nat) (texts : List Str)
    (token : Str) (selector : Selector) (hne : token ≠ [])
    (hfuel : ∀ n ∈ acceptedNodes page texts selector, (texts.getD n []).length < fuel) :
    findMatches canon page fuel texts token selector =
      some ((acceptedNodes page texts selector).flatMap fun n =>
        (leftmostOccurrences canon token (texts.getD n [])).map fun p =>
          (⟨n, p, p + token.length⟩ : Match)) := by
  unfold findMatches
  rw [newRegExp_escapeRegExp, walkLoop_lit canon token hne fuel texts _ _ hfuel]
  simp

/-! ## Lemmas on writing node values -/

theorem foldl_set_getElem? (g : Nat → Str) :
    ∀ (us : List (Nat × Str)) (T : List Str), (∀ u ∈ us, u.2 = g u.1) → ∀ j,
      (us.foldl (fun t s => t.set s.1 s.2) T)[j]? =
        if j ∈ us.map Prod.fst then (if j < T.length then some (g j) else none) else T[j]? := by
  intro us
  induction us with
  | nil => intro T _ j; simp
  | cons u us ih =>
    intro T hg j
    rw [List.foldl_cons, ih (T.set u.1 u.2) (fun v hv => hg v (List.mem_cons_of_mem _ hv)) j]
    have hu : u.2 = g u.1 := hg u (List.mem_cons_self _ _)
    simp only [List.length_set, List.map_cons, List.mem_cons, List.getElem?_set]
    by_cases h1 : j ∈ us.map Prod.fst
    · simp [h1]
    · by_cases h2 : j = u.1
      · subst h2
        simp [h1, hu]
      · have h3 : ¬ u.1 = j := fun h => h2 h.symm
        simp [h1, h2, h3]

theorem foldl_replace_length (f : Str → Str) :
    ∀ (found : List Match) (T : List Str),
      (found.foldl (fun t m => t.set m.node (f (t.getD m.node []))) T).length = T.length := by
  intro found
  induction found with
  | nil => intro T; rfl
  | cons m ms ih => intro T; rw [List.foldl_cons, ih]; simp

theorem foldl_replace_getElem?_of_not_mem (f : Str → Str) :
    ∀ (found : List Match) (T : List Str) (j : Nat), j ∉ found.map Match.node →
      (found.foldl (fun t m => t.set m.node (f (t.getD m.node []))) T)[j]? = T[j]? := by
  intro found
  induction found with
  | nil => intro T j _; rfl
  | cons m ms ih =>
    intro T j hj
    simp only [List.map_cons, List.mem_cons, not_or] at hj
    rw [List.foldl_cons, ih _ j hj.2, List.getElem?_set]
    have : ¬ m.node = j := fun h => hj.1 h.symm
    simp [this]

/-- Writing back the values snapshotted before the `forEach` of `applyReplacement`
undoes the `forEach`. -/
theorem undo_after_forEach (f : Str → Str) (found : List Match) (T : List Str) :
    (found.map fun m => (m.node, T.getD m.node [])).foldl (fun t s => t.set s.1 s.2)
        (found.foldl (fun t m => t.set m.node (f (t.getD m.node []))) T) = T := by
  apply List.ext_getElem?
  intro j
  rw [foldl_set_getElem? (fun n => T.getD n [])]
  · rw [foldl_replace_length]
    have hmap : (found.map fun m => (m.node, T.getD m.node [])).map Prod.fst
        = found.map Match.node := by
      simp [List.map_map, Function.comp_def]
    rw [hmap]
    by_cases h1 : j ∈ found.map Match.node
    · rw [if_pos h1]
      by_cases h2 : j < T.length
      · rw [if_pos h2]
        simp [List.getD_eq_getElem?_getD, List.getElem?_eq_getElem h2]
      · rw [if_neg h2]
        exact (List.getElem?_eq_none (Nat.le_of_not_lt h2)).symm
    · rw [if_neg h1]
      exact foldl_replace_getElem?_of_not_mem f found T j h1
  · intro u hu
    obtain ⟨m, _, rfl⟩ := List.mem_map.mp hu
    rfl

theorem applyReplacement_eq (canon : Char → Char) (page : Page) (fuel : Nat) (st : State)
    (input token : Str) (selector : Selector) (hin : trim input ≠ []) (found : List Match)
    (hfound : findMatches canon page fuel st.texts token selector = some found) :
    applyReplacement canon page fuel st input token selector =
      some
        { texts := found.foldl
            (fun t m => t.set m.node (replaceIn canon token (trim input) (t.getD m.node [])))
            st.texts
          rules := upsertRule st.rules ⟨token, trim input, page.hostname, selector⟩
          lastSnapshot := some (found.map fun m => (m.node, st.texts.getD m.node [])) } := by
  unfold applyReplacement
  rw [if_neg hin, hfound]

theorem applyReplacement_blank (canon : Char → Char) (page : Page) (fuel : Nat) (st : State)
    (input token : Str) (selector : Selector) (hin : trim input = []) :
    applyReplacement canon page fuel st input token selector = some st := by
  unfold applyReplacement
  rw [if_pos hin]

theorem apply_undo (canon : Char → Char) (page : Page) (fuel : Nat) (st : State)
    (input token : Str) (selector : Selector) (hin : trim input ≠ []) (htok : token ≠ [])
    (hfuel : ∀ n ∈ acceptedNodes page st.texts selector, (st.texts.getD n []).length < fuel) :
    ∃ st1, applyReplacement canon page fuel st input token selector = some st1 ∧
      (undoLast st1).texts = st.texts ∧ (undoLast st1).lastSnapshot = none := by
  refine ⟨_, applyReplacement_eq canon page fuel st input token selector hin _
    (findMatches_eq canon page fuel st.texts token selector htok hfuel), ?_, ?_⟩
  · simp only [undoLast]
    exact undo_after_forEach _ _ _
  · simp only [undoLast]

/-! ## Lemmas on the rule store -/

theorem sameTriple_iff (newRule r : Rule) :
    sameTriple newRule r = true ↔ ruleKey r = ruleKey newRule := by
  simp [sameTriple, ruleKey, Prod.ext_iff, and_assoc]

theorem upsertRule_nil (newRule : Rule) : upsertRule [] newRule = [newRule] := rfl

theorem upsertRule_cons (a : Rule) (l : List Rule) (newRule : Rule) :
    upsertRule (a :: l) newRule =
      if sameTriple newRule a then newRule :: l else a :: upsertRule l newRule := by
  unfold upsertRule
  by_cases h : sameTriple newRule a = true
  · simp [findIndex, h]
  · simp only [findIndex, h, Bool.false_eq_true, if_false]
    cases findIndex (sameTriple newRule) l with
    | none => simp
    | some idx => simp

theorem map_ruleKey_upsertRule (rules : List Rule) (newRule : Rule) :
    (upsertRule rules newRule).map ruleKey =
      if ruleKey newRule ∈ rules.map ruleKey then rules.map ruleKey
      else rules.map ruleKey ++ [ruleKey newRule] := by
  induction rules with
  | nil => simp [upsertRule_nil]
  | cons a l ih =>
    rw [upsertRule_cons]
    by_cases h : sameTriple newRule a = true
    · have hk := (sameTriple_iff newRule a).mp h
      simp [h, hk]
    · have hk : ¬ ruleKey a = ruleKey newRule := fun hk => h ((sameTriple_iff newRule a).mpr hk)
      have hk2 : ¬ ruleKey newRule = ruleKey a := fun e => hk e.symm
      simp only [h, Bool.false_eq_true, if_false, List.map_cons, ih, List.mem_cons, hk2,
        false_or]
      by_cases hm : ruleKey newRule ∈ l.map ruleKey
      · simp [hm]
      · simp [hm]

theorem filter_ne_upsertRule (rules : List Rule) (newRule : Rule) :
    (upsertRule rules newRule).filter (fun r => decide (ruleKey r ≠ ruleKey newRule)) =
      rules.filter (fun r => decide (ruleKey r ≠ ruleKey newRule)) := by
  induction rules with
  | nil => simp [upsertRule_nil]
  | cons a l ih =>
    rw [upsertRule_cons]
    by_cases h : sameTriple newRule a = true
    · have hk := (sameTriple_iff newRule a).mp h
      simp [h, hk]
    · have hk : ¬ ruleKey a = ruleKey newRule := fun hk => h ((sameTriple_iff newRule a).mpr hk)
      simp only [h, Bool.false_eq_true, if_false]
      rw [List.filter_cons, List.filter_cons, ih]

theorem getElem?_findIdx_upsertRule (rules : List Rule) (newRule : Rule) :
    (upsertRule rules newRule)[rules.findIdx fun r => decide (ruleKey r = ruleKey newRule)]? =
      some newRule := by
  induction rules with
  | nil => simp [upsertRule_nil]
  | cons a l ih =>
    rw [upsertRule_cons, List.findIdx_cons]
    by_cases h : sameTriple newRule a = true
    · have hk := (sameTriple_iff newRule a).mp h
      simp [h, hk]
    · have hk : ¬ ruleKey a = ruleKey newRule := fun hk => h ((sameTriple_iff newRule a).mpr hk)
      simp only [h, Bool.false_eq_true, if_false, hk, decide_False, cond_false]
      simpa using ih

theorem findIdx_upsertRule (rules : List Rule) (newRule : Rule) :
    ((upsertRule rules newRule).findIdx fun r => decide (ruleKey r = ruleKey newRule)) =
      rules.findIdx fun r => decide (ruleKey r = ruleKey newRule) := by
  induction rules with
  | nil => simp [upsertRule_nil, List.findIdx_cons]
  | cons a l ih =>
    rw [upsertRule_cons]
    by_cases h : sameTriple newRule a = true
    · have hk := (sameTriple_iff newRule a).mp h
      simp [h, hk, List.findIdx_cons]
    · have hk : ¬ ruleKey a = ruleKey newRule := fun hk => h ((sameTriple_iff newRule a).mpr hk)
      simp only [h, Bool.false_eq_true, if_false, List.findIdx_cons, hk, decide_False,
        cond_false, ih]

theorem uniqueTriples_upsertRule (rules : List Rule) (newRule : Rule)
    (h : UniqueTriples rules) : UniqueTriples (upsertRule rules newRule) := by
  unfold UniqueTriples at h ⊢
  rw [map_ruleKey_upsertRule]
  by_cases hm : ruleKey newRule ∈ rules.map ruleKey
  · rw [if_pos hm]; exact h
  · rw [if_neg hm]
    exact List.Nodup.append h (List.nodup_singleton _) (by simpa using hm)

theorem filter_eq_of_nodup_of_getElem? :
    ∀ (rules : List Rule) (i : Nat) (a : Rule), (rules.map ruleKey).Nodup →
      rules[i]? = some a →
      rules.filter (fun r => decide (ruleKey r = ruleKey a)) = [a] := by
  intro rules
  induction rules with
  | nil => intro i a _ h; simp at h
  | cons b l ih =>
    intro i a hnd h
    simp only [List.map_cons, List.nodup_cons] at hnd
    cases i with
    | zero =>
      simp only [List.getElem?_cons_zero, Option.some.injEq] at h
      subst h
      rw [List.filter_cons]
      simp only [decide_True, if_true, List.cons.injEq, true_and]
      apply List.filter_eq_nil_iff.mpr
      intro r hr hk
      exact hnd.1 (by
        have := of_decide_eq_true hk
        rw [← this]; exact List.mem_map_of_mem _ hr)
    | succ i =>
      simp only [List.getElem?_cons_succ] at h
      have hmem : a ∈ l := List.getElem?_mem h
      have hb : ¬ ruleKey b = ruleKey a := by
        intro e
        exact hnd.1 (by rw [e]; exact List.mem_map_of_mem _ hmem)
      rw [List.filter_cons]
      simp only [hb, decide_False, Bool.false_eq_true, if_false]
      exact ih i a hnd.2 h

/-- The rule list after a run of upserts with the same triple. -/
theorem foldl_upsertRule_spec (token : Str) (host : Str) (selector : Selector) :
    ∀ (texts : List Str) (rules : List Rule) (final : Str),
      let result := (texts ++ [final]).foldl
        (fun R t => upsertRule R ⟨token, t, host, selector⟩) rules
      let key : Str × Selector × Str := (host, selector, token)
      (UniqueTriples rules → UniqueTriples result) ∧
      result[rules.findIdx fun r => decide (ruleKey r = key)]? =
        some ⟨token, final, host, selector⟩ ∧
      result.filter (fun r => decide (ruleKey r ≠ key)) =
        rules.filter (fun r => decide (ruleKey r ≠ key)) := by
  intro texts
  induction texts with
  | nil =>
    intro rules final
    refine ⟨fun h => uniqueTriples_upsertRule _ _ h, ?_, ?_⟩
    · exact getElem?_findIdx_upsertRule rules ⟨token, final, host, selector⟩
    · exact filter_ne_upsertRule rules ⟨token, final, host, selector⟩
  | cons t ts ih =>
    intro rules final
    obtain ⟨h1, h2, h3⟩ := ih (upsertRule rules ⟨token, t, host, selector⟩) final
    refine ⟨fun h => h1 (uniqueTriples_upsertRule _ _ h), ?_, ?_⟩
    · have := findIdx_upsertRule rules ⟨token, t, host, selector⟩
      simp only [ruleKey] at this h2 ⊢
      rw [← this]
      exact h2
    · have := filter_ne_upsertRule rules ⟨token, t, host, selector⟩
      simp only [ruleKey] at this h3 ⊢
      rw [← this]
      exact h3

/-! ## Lemmas on runs of applies -/

theorem length_getD_le_sum (texts : List Str) (n : Nat) :
    (texts.getD n []).length ≤ (texts.map List.length).sum := by
  induction texts generalizing n with
  | nil => simp
  | cons t ts ih =>
    cases n with
    | zero => simp
    | succ n =>
      have := ih n
      simp only [List.getD_cons_succ, List.map_cons, List.sum_cons]
      omega

theorem applyReplacement_rules (canon : Char → Char) (page : Page) (fuel : Nat) (st st1 : State)
    (input token : Str) (selector : Selector)
    (h : applyReplacement canon page fuel st input token selector = some st1) :
    st1.rules = if trim input = [] then st.rules
      else upsertRule st.rules ⟨token, trim input, page.hostname, selector⟩ := by
  unfold applyReplacement at h
  by_cases hin : trim input = []
  · rw [if_pos hin] at h
    rw [if_pos hin, ← Option.some.inj h]
  · rw [if_neg hin] at h
    rw [if_neg hin]
    cases hf : findMatches canon page fuel st.texts token selector with
    | none => rw [hf] at h; exact Option.noConfusion h
    | some found =>
      rw [hf] at h
      rw [← Option.some.inj h]

theorem applyReplacement_total (canon : Char → Char) (page : Page) (st : State)
    (input token : Str) (selector : Selector) (htok : token ≠ []) (hin : trim input ≠ []) :
    ∃ st1, st1.rules = upsertRule st.rules ⟨token, trim input, page.hostname, selector⟩ ∧
      ∀ fuel, (st.texts.map List.length).sum < fuel →
        applyReplacement canon page fuel st input token selector = some st1 := by
  have key : ∀ fuel, (st.texts.map List.length).sum < fuel →
      applyReplacement canon page fuel st input token selector = some
        { texts := ((acceptedNodes page st.texts selector).flatMap fun n =>
              (leftmostOccurrences canon token (st.texts.getD n [])).map fun p =>
                (⟨n, p, p + token.length⟩ : Match)).foldl
            (fun t m => t.set m.node (replaceIn canon token (trim input) (t.getD m.node [])))
            st.texts
          rules := upsertRule st.rules ⟨token, trim input, page.hostname, selector⟩
          lastSnapshot := some (((acceptedNodes page st.texts selector).flatMap fun n =>
              (leftmostOccurrences canon token (st.texts.getD n [])).map fun p =>
                (⟨n, p, p + token.length⟩ : Match)).map
            fun m => (m.node, st.texts.getD m.node [])) } := by
    intro fuel hfuel
    exact applyReplacement_eq canon page fuel st input token selector hin _
      (findMatches_eq canon page fuel st.texts token selector htok
        (fun n _ => Nat.lt_of_le_of_lt (length_getD_le_sum st.texts n) hfuel))
  exact ⟨_, rfl, key⟩

theorem applyEach_total (canon : Char → Char) (page : Page) (token : Str)
    (selector : Selector) (htok : token ≠ []) :
    ∀ (inputs : List Str) (st : State), (∀ i ∈ inputs, trim i ≠ []) →
      ∃ fuel0 st1,
        st1.rules = (inputs.map trim).foldl
          (fun R t => upsertRule R ⟨token, t, page.hostname, selector⟩) st.rules ∧
        ∀ fuel, fuel0 ≤ fuel →
          applyEach canon page fuel token selector inputs st = some st1 := by
  intro inputs
  induction inputs with
  | nil => intro st _; exact ⟨0, st, rfl, fun _ _ => rfl⟩
  | cons i rest ih =>
    intro st hin
    obtain ⟨st1, hr1, h1⟩ := applyReplacement_total canon page st i token selector htok
      (hin i (List.mem_cons_self _ _))
    obtain ⟨f2, st2, hr2, h2⟩ := ih st1 (fun j hj => hin j (List.mem_cons_of_mem _ hj))
    refine ⟨max ((st.texts.map List.length).sum + 1) f2, st2, ?_, ?_⟩
    · rw [hr2, hr1]; rfl
    · intro fuel hfuel
      rw [applyEach, h1 fuel (by omega)]
      exact h2 fuel (by omega)

theorem apply_run_rules (canon : Char → Char) (page : Page) (st : State)
    (token : Str) (selector : Selector) (inputs : List Str) (final : Str)
    (htok : token ≠ []) (hin : ∀ i ∈ inputs ++ [final], trim i ≠ []) :
    (∀ fuel input st1,
        applyReplacement canon page fuel st input token selector = some st1 →
        UniqueTriples st.rules → UniqueTriples st1.rules) ∧
    ∃ fuel0 st1,
      (∀ fuel, fuel0 ≤ fuel →
        applyEach canon page fuel token selector (inputs ++ [final]) st = some st1) ∧
      (UniqueTriples st.rules →
        UniqueTriples st1.rules ∧
        st1.rules.filter (fun r => decide (ruleKey r = (page.hostname, selector, token))) =
          [⟨token, trim final, page.hostname, selector⟩]) ∧
      st1.rules[st.rules.findIdx
          fun r => decide (ruleKey r = (page.hostname, selector, token))]? =
        some ⟨token, trim final, page.hostname, selector⟩ ∧
      st1.rules.filter (fun r => decide (ruleKey r ≠ (page.hostname, selector, token))) =
        st.rules.filter (fun r => decide (ruleKey r ≠ (page.hostname, selector, token))) := by
  constructor
  · intro fuel input st1 h hu
    rw [applyReplacement_rules canon page fuel st st1 input token selector h]
    by_cases hb : trim input = []
    · rw [if_pos hb]; exact hu
    · rw [if_neg hb]; exact uniqueTriples_upsertRule _ _ hu
  · obtain ⟨fuel0, st1, hr, hrun⟩ :=
      applyEach_total canon page token selector htok (inputs ++ [final]) st hin
    obtain ⟨h1, h2, h3⟩ :=
      foldl_upsertRule_spec token page.hostname selector (inputs.map trim) st.rules (trim final)
    simp only [List.map_append, List.map_cons, List.map_nil] at hr
    rw [← hr] at h1 h2 h3
    refine ⟨fuel0, st1, hrun, ?_, h2, h3⟩
    intro hu
    refine ⟨h1 hu, ?_⟩
    exact filter_eq_of_nodup_of_getElem? st1.rules _ ⟨token, trim final, page.hostname, selector⟩
      (h1 hu) h2

/-! ## Lemmas on the global replace -/

theorem replaceScan_skip (canon : Char → Char) (atoms : List Atom) (hne : atoms ≠ [])
    (replacement str l : Str) (pos skip : Nat) :
    replaceScan canon atoms replacement str l pos skip =
      replaceScan canon atoms replacement str (l.drop skip) (pos + skip) 0 := by
  induction l generalizing pos skip with
  | nil =>
    cases atoms with
    | nil => exact absurd rfl hne
    | cons a as => simp [replaceScan, matchesHere]
  | cons c cs ih =>
    cases skip with
    | zero => simp
    | succ k =>
      simp only [replaceScan, List.drop_succ_cons]
      rw [ih]
      congr 1
      omega

theorem replaceScan_lit_nil (canon : Char → Char) (token : Str) (hne : token ≠ [])
    (replacement str : Str) (pos : Nat) :
    replaceScan canon (token.map Atom.lit) replacement str [] pos 0 = [] := by
  cases token with
  | nil => exact absurd rfl hne
  | cons t ts => simp [replaceScan, matchesHere]

theorem replaceScan_lit_hit (canon : Char → Char) (token : Str) (hne : token ≠ [])
    (replacement str l : Str) (pos : Nat) (h : occursAt canon token l 0 = true) :
    replaceScan canon (token.map Atom.lit) replacement str l pos 0 =
      getSubstitution (l.take token.length) str pos replacement ++
        replaceScan canon (token.map Atom.lit) replacement str (l.drop token.length)
          (pos + token.length) 0 := by
  have hlen : 0 < token.length := List.length_pos.mpr hne
  have hat : token.map Atom.lit ≠ [] := by simpa using hne
  cases l with
  | nil =>
    have := occursAt_zero_length canon token [] h
    simp only [List.length_nil] at this
    omega
  | cons c cs =>
    simp only [replaceScan, matchesHere_lit, h, if_true, List.length_map]
    rw [if_neg (by omega), replaceScan_skip canon _ hat]
    have h1 : (c :: cs).drop token.length = cs.drop (token.length - 1) := by
      obtain ⟨k, hk⟩ := Nat.exists_eq_succ_of_ne_zero (Nat.pos_iff_ne_zero.mp hlen)
      rw [hk]; simp
    rw [h1]
    congr 2
    omega

theorem replaceScan_lit_miss (canon : Char → Char) (token : Str)
    (replacement str : Str) (c : Char) (cs : Str) (pos : Nat)
    (h : occursAt canon token (c :: cs) 0 = false) :
    replaceScan canon (token.map Atom.lit) replacement str (c :: cs) pos 0 =
      c :: replaceScan canon (token.map Atom.lit) replacement str cs (pos + 1) 0 := by
  simp [replaceScan, matchesHere_lit, h]

theorem replaceScan_of_no_occurrence (canon : Char → Char) (token : Str) (hne : token ≠ [])
    (replacement str : Str) :
    ∀ (l : Str) (pos : Nat), scanOccurrences canon token l pos 0 = [] →
      replaceScan canon (token.map Atom.lit) replacement str l pos 0 = l := by
  intro l
  induction l with
  | nil => intro pos _; exact replaceScan_lit_nil canon token hne replacement str pos
  | cons c cs ih =>
    intro pos h
    by_cases hm : occursAt canon token (c :: cs) 0 = true
    · rw [scanOccurrences_hit canon token (c :: cs) pos hne hm] at h
      exact List.noConfusion h
    · have hm0 : occursAt canon token (c :: cs) 0 = false := by simpa using hm
      rw [scanOccurrences_miss canon token c cs pos hm0] at h
      rw [replaceScan_lit_miss canon token replacement str c cs pos hm0, ih (pos + 1) h]

theorem getSubstitution_of_plain (matched str : Str) (position : Nat) :
    ∀ (replacement : Str), hasDollarPattern replacement = false →
      getSubstitution matched str position replacement = replacement := by
  intro replacement
  induction replacement with
  | nil => intro _; rfl
  | cons c tl ih =>
    intro h
    cases tl with
    | nil => rfl
    | cons d rest =>
      simp only [hasDollarPattern, Bool.or_eq_false_iff, Bool.and_eq_false_iff,
        decide_eq_false_iff_not] at h
      obtain ⟨h1, h2⟩ := h
      rw [getSubstitution]
      by_cases hc : c = '$'
      · rw [if_pos hc]
        rcases h1 with h1 | h1
        · exact absurd hc h1
        · obtain ⟨⟨⟨d1, d2⟩, d3⟩, d4⟩ := h1
          rw [if_neg d1, if_neg d2, if_neg d3, if_neg d4, ih h2, hc]
      · rw [if_neg hc, ih h2]

theorem replaceScan_eq_verbatim (canon : Char → Char) (token : Str) (hne : token ≠ [])
    (replacement str : Str) (hd : hasDollarPattern replacement = false) :
    ∀ (l : Str) (pos skip : Nat),
      replaceScan canon (token.map Atom.lit) replacement str l pos skip =
        replaceVerbatimScan canon token replacement l skip := by
  have hlen : 0 < token.length := List.length_pos.mpr hne
  intro l
  induction l with
  | nil =>
    intro pos skip
    cases token with
    | nil => exact absurd rfl hne
    | cons t ts => simp [replaceScan, replaceVerbatimScan, matchesHere]
  | cons c cs ih =>
    intro pos skip
    cases skip with
    | succ k => simp only [replaceScan, replaceVerbatimScan]; exact ih _ _
    | zero =>
      simp only [replaceScan, replaceVerbatimScan, matchesHere_lit, List.length_map]
      by_cases hm : occursAt canon token (c :: cs) 0 = true
      · rw [if_pos hm, if_pos hm, if_neg (by omega), getSubstitution_of_plain _ _ _ _ hd, ih]
      · rw [if_neg hm, if_neg hm, ih]

theorem replaceIn_eq_replaceOccurrences (canon : Char → Char) (token replacement s : Str)
    (hne : token ≠ []) (hd : hasDollarPattern replacement = false) :
    replaceIn canon token replacement s = replaceOccurrences canon token replacement s := by
  unfold replaceIn jsReplace replaceOccurrences
  rw [newRegExp_escapeRegExp]
  exact replaceScan_eq_verbatim canon token hne replacement s hd s 0 0

theorem spliceOccurrences_cons (len : Nat) (sub : Nat → Str) (c : Char) (cs : Str)
    (pos : Nat) :
    ∀ (ps : List Nat), (∀ p ∈ ps, pos + 1 ≤ p) →
      spliceOccurrences len sub (c :: cs) pos ps =
        c :: spliceOccurrences len sub cs (pos + 1) ps := by
  intro ps h
  cases ps with
  | nil => rfl
  | cons p ps =>
    have hp := h p (List.mem_cons_self _ _)
    have e1 : p - pos = (p - (pos + 1)) + 1 := by omega
    have e2 : p - pos + len = (p - (pos + 1) + len) + 1 := by omega
    simp only [spliceOccurrences]
    rw [e2, List.drop_succ_cons, e1, List.take_succ_cons]
    simp

/-- The global replace writes the text with every leftmost non-overlapping occurrence
replaced by its substitution. -/
theorem replaceScan_eq_splice (canon : Char → Char) (token : Str) (hne : token ≠ [])
    (replacement s : Str) :
    ∀ (m : Nat) (l : Str) (pos : Nat), l.length ≤ m → l = s.drop pos →
      replaceScan canon (token.map Atom.lit) replacement s l pos 0 =
        spliceOccurrences token.length
          (fun p => getSubstitution ((s.drop p).take token.length) s p replacement)
          l pos (scanOccurrences canon token l pos 0) := by
  have hlen : 0 < token.length := List.length_pos.mpr hne
  intro m
  induction m with
  | zero =>
    intro l pos hl _
    have : l = [] := List.length_eq_zero.mp (Nat.le_zero.mp hl)
    subst this
    rw [replaceScan_lit_nil canon token hne]
    simp [scanOccurrences, spliceOccurrences]
  | succ m ih =>
    intro l pos hl hs
    cases l with
    | nil =>
      rw [replaceScan_lit_nil canon token hne]
      simp [scanOccurrences, spliceOccurrences]
    | cons c cs =>
      by_cases hm : occursAt canon token (c :: cs) 0 = true
      · have hdl : ((c :: cs).drop token.length).length ≤ m := by
          simp only [List.length_drop, List.length_cons] at hl ⊢
          omega
        have hs2 : (c :: cs).drop token.length = s.drop (pos + token.length) := by
          rw [hs, List.drop_drop]
        rw [replaceScan_lit_hit canon token hne replacement s (c :: cs) pos hm,
          scanOccurrences_hit canon token (c :: cs) pos hne hm,
          ih _ (pos + token.length) hdl hs2]
        simp only [spliceOccurrences, Nat.sub_self, List.take_zero, List.nil_append,
          Nat.zero_add]
        rw [hs]
      · have hm0 : occursAt canon token (c :: cs) 0 = false := by simpa using hm
        have hcl : cs.length ≤ m := by
          simp only [List.length_cons] at hl; omega
        have hs2 : cs = s.drop (pos + 1) := by
          have : (c :: cs).drop 1 = (s.drop pos).drop 1 := by rw [hs]
          rw [List.drop_drop] at this
          simpa [Nat.add_comm] using this
        rw [replaceScan_lit_miss canon token replacement s c cs pos hm0,
          scanOccurrences_miss canon token c cs pos hm0, ih cs (pos + 1) hcl hs2,
          spliceOccurrences_cons]
        intro p hp
        exact ((scanOccurrences_spec canon token hne cs.length cs (pos + 1) (le_refl _)).1 p
          hp).1

theorem replaceIn_eq_splice (canon : Char → Char) (token replacement s : Str)
    (hne : token ≠ []) :
    replaceIn canon token replacement s =
      spliceOccurrences token.length
        (fun p => getSubstitution ((s.drop p).take token.length) s p replacement)
        s 0 (leftmostOccurrences canon token s) := by
  unfold replaceIn jsReplace leftmostOccurrences
  rw [newRegExp_escapeRegExp]
  exact replaceScan_eq_splice canon token hne replacement s s.length s 0 (le_refl _) rfl

theorem scanOccurrences_of_not_contains (canon : Char → Char) (token : Str) :
    ∀ (l : Str) (pos : Nat), containsToken canon token l = false →
      scanOccurrences canon token l pos 0 = [] := by
  intro l
  induction l with
  | nil => intro pos _; rfl
  | cons c cs ih =>
    intro pos h
    rw [containsToken, Bool.or_eq_false_iff] at h
    rw [scanOccurrences_miss canon token c cs pos h.1]
    exact ih (pos + 1) h.2

theorem replaceIn_of_not_contains (canon : Char → Char) (token replacement s : Str)
    (hne : token ≠ []) (h : containsToken canon token s = false) :
    replaceIn canon token replacement s = s := by
  unfold replaceIn jsReplace
  rw [newRegExp_escapeRegExp]
  exact replaceScan_of_no_occurrence canon token hne replacement s s 0
    (scanOccurrences_of_not_contains canon token s 0 h)

/-! ## Lemmas on the `forEach` of `applyReplacement` -/

theorem getD_set_eq (T : List Str) (i j : Nat) (v : Str) (hi : i < T.length) :
    (T.set i v).getD j [] = if i = j then v else T.getD j [] := by
  simp only [List.getD_eq_getElem?_getD, List.getElem?_set]
  by_cases h : i = j
  · subst h
    simp [hi]
  · simp [h]

theorem getD_set_of_ge (T : List Str) (i j : Nat) (v : Str) (hi : T.length ≤ i) :
    (T.set i v).getD j [] = T.getD j [] := by
  simp only [List.getD_eq_getElem?_getD, List.getElem?_set]
  by_cases h : i = j
  · subst h
    simp [Nat.not_lt.mpr hi, List.getElem?_eq_none hi]
  · simp [h]

theorem lt_length_of_getD_ne_nil (T : List Str) (n : Nat) (h : T.getD n [] ≠ []) :
    n < T.length := by
  by_contra hn
  apply h
  simp [List.getD_eq_getElem?_getD, List.getElem?_eq_none (Nat.le_of_not_lt hn)]

theorem forEach_getD (f : Str → Str) :
    ∀ (found : List Match) (T : List Str) (j : Nat), j < T.length →
      (found.foldl (fun t m => t.set m.node (f (t.getD m.node []))) T).getD j [] =
        f^[(found.map Match.node).count j] (T.getD j []) := by
  intro found
  induction found with
  | nil => intro T j _; rfl
  | cons m ms ih =>
    intro T j hj
    rw [List.foldl_cons, ih _ j (by simpa using hj)]
    simp only [List.map_cons, List.count_cons]
    by_cases h : m.node = j
    · subst h
      rw [getD_set_eq T _ _ _ hj]
      simp [Function.iterate_succ_apply]
    · have hb : (m.node == j) = false := by simpa using h
      by_cases hm : m.node < T.length
      · rw [getD_set_eq T _ _ _ hm]
        simp [h, hb]
      · rw [getD_set_of_ge T _ _ _ (Nat.le_of_not_lt hm)]
        simp [hb]

theorem count_node_map (g : Nat → Nat → Match) (hg : ∀ n p, (g n p).node = n) (n j : Nat) :
    ∀ (l : List Nat), ((l.map (g n)).map Match.node).count j = if n = j then l.length else 0 := by
  intro l
  induction l with
  | nil => simp
  | cons p ps ih =>
    simp only [List.map_cons, List.count_cons, ih, hg, List.length_cons]
    by_cases h : n = j
    · simp [h]
    · simp [h]

theorem count_node_flatMap (g : Nat → Nat → Match) (hg : ∀ n p, (g n p).node = n)
    (occ : Nat → List Nat) (j : Nat) :
    ∀ (nodes : List Nat), nodes.Nodup →
      ((nodes.flatMap fun n => (occ n).map (g n)).map Match.node).count j =
        if j ∈ nodes then (occ j).length else 0 := by
  intro nodes
  induction nodes with
  | nil => intro _; simp
  | cons n ns ih =>
    intro hnd
    simp only [List.nodup_cons] at hnd
    simp only [List.flatMap_cons, List.map_append, List.count_append, ih hnd.2,
      count_node_map g hg n j, List.mem_cons]
    by_cases h : n = j
    · subst h
      simp [hnd.1]
    · have h2 : ¬ j = n := fun e => h e.symm
      simp [h, h2]

theorem acceptedNodes_nodup (page : Page) (texts : List Str) (selector : Selector) :
    (acceptedNodes page texts selector).Nodup :=
  (acceptedNodes_sorted page texts selector).imp (fun h => Nat.ne_of_lt h)

theorem acceptedNodes_getD_ne_nil (page : Page) (texts : List Str) (selector : Selector)
    (n : Nat) (h : n ∈ acceptedNodes page texts selector) : texts.getD n [] ≠ [] := by
  unfold acceptedNodes at h
  have := (List.mem_filter.mp h).2
  unfold acceptNode at this
  intro he
  rw [if_pos he] at this
  exact Bool.noConfusion this

/-- The text of an accepted node after a non-blank apply: the whole-node replace, run
once per match found in the node. -/
theorem applyReplacement_getD (canon : Char → Char) (page : Page) (fuel : Nat) (st : State)
    (input token : Str) (selector : Selector) (hin : trim input ≠ []) (htok : token ≠ [])
    (hfuel : ∀ n ∈ acceptedNodes page st.texts selector, (st.texts.getD n []).length < fuel)
    (n : Nat) (hn : n ∈ acceptedNodes page st.texts selector) :
    ∃ st1, applyReplacement canon page fuel st input token selector = some st1 ∧
      st1.texts.getD n [] =
        (replaceIn canon token (trim input))^[
          (leftmostOccurrences canon token (st.texts.getD n [])).length] (st.texts.getD n []) := by
  refine ⟨_, applyReplacement_eq canon page fuel st input token selector hin _
    (findMatches_eq canon page fuel st.texts token selector htok hfuel), ?_⟩
  show (List.foldl _ st.texts _).getD n [] = _
  rw [forEach_getD _ _ _ _ (lt_length_of_getD_ne_nil _ _
    (acceptedNodes_getD_ne_nil page st.texts selector n hn))]
  rw [count_node_flatMap (fun n p => (⟨n, p, p + token.length⟩ : Match)) (fun _ _ => rfl)
    (fun n => leftmostOccurrences canon token (st.texts.getD n [])) n _
    (acceptedNodes_nodup page st.texts selector), if_pos hn]

theorem apply_all_occurrences (canon : Char → Char) (page : Page) (fuel : Nat) (st : State)
    (input token : Str) (selector : Selector) (hin : trim input ≠ []) (htok : token ≠ [])
    (hfuel : ∀ n ∈ acceptedNodes page st.texts selector, (st.texts.getD n []).length < fuel)
    (n : Nat) (hn : n ∈ acceptedNodes page st.texts selector)
    (honce : (leftmostOccurrences canon token (st.texts.getD n [])).length ≤ 1 ∨
      containsToken canon token (replaceIn canon token (trim input) (st.texts.getD n [])) =
        false) :
    ∃ st1, applyReplacement canon page fuel st input token selector = some st1 ∧
      st1.texts.getD n [] =
        spliceOccurrences token.length
          (fun p => getSubstitution (((st.texts.getD n []).drop p).take token.length)
            (st.texts.getD n []) p (trim input))
          (st.texts.getD n []) 0 (leftmostOccurrences canon token (st.texts.getD n [])) ∧
      (hasDollarPattern (trim input) = false →
        st1.texts.getD n [] =
          replaceOccurrences canon token (trim input) (st.texts.getD n [])) := by
  obtain ⟨st1, h1, h2⟩ := applyReplacement_getD canon page fuel st input token selector hin htok
    hfuel n hn
  have hfs : st1.texts.getD n [] = replaceIn canon token (trim input) (st.texts.getD n []) := by
    rw [h2]
    cases hk : (leftmostOccurrences canon token (st.texts.getD n [])).length with
    | zero =>
      have hnil : leftmostOccurrences canon token (st.texts.getD n []) = [] :=
        List.length_eq_zero.mp hk
      rw [Function.iterate_zero, id]
      unfold replaceIn jsReplace
      rw [newRegExp_escapeRegExp]
      exact (replaceScan_of_no_occurrence canon token htok _ _ _ 0 hnil).symm
    | succ k =>
      rw [Function.iterate_succ_apply]
      rcases honce with h | h
      · have : k = 0 := by omega
        subst this
        rfl
      · exact Function.iterate_fixed (replaceIn_of_not_contains canon token _ _ htok h) k
  refine ⟨st1, h1, ?_, ?_⟩
  · rw [hfs]; exact replaceIn_eq_splice canon token _ _ htok
  · intro hd
    rw [hfs]; exact replaceIn_eq_replaceOccurrences canon token _ _ htok hd

/-! ## Lemmas on occurrences after a replace -/

theorem occursAt_nil_token (canon : Char → Char) (l : Str) : occursAt canon [] l 0 = true := by
  simp [occursAt]

theorem occursAt_cons_nil (canon : Char → Char) (u : Char) (us : Str) :
    occursAt canon (u :: us) [] 0 = false := by
  simp [occursAt]

theorem occursAt_cons_cons (canon : Char → Char) (u : Char) (us : Str) (c : Char) (cs : Str) :
    occursAt canon (u :: us) (c :: cs) 0 =
      (decide (canon c = canon u) && occursAt canon us cs 0) := by
  simp only [occursAt, List.drop_zero, List.length_cons, List.take_succ_cons, List.map_cons,
    List.cons.injEq]
  by_cases h : canon c = canon u <;> simp [h]

theorem replaceVerbatimScan_skip (canon : Char → Char) (token replacement l : Str)
    (skip : Nat) :
    replaceVerbatimScan canon token replacement l skip =
      replaceVerbatimScan canon token replacement (l.drop skip) 0 := by
  induction l generalizing skip with
  | nil => simp [replaceVerbatimScan]
  | cons c cs ih =>
    cases skip with
    | zero => simp
    | succ k =>
      simp only [replaceVerbatimScan, List.drop_succ_cons]
      exact ih k

theorem replaceVerbatim_hit (canon : Char → Char) (token replacement l : Str)
    (hne : token ≠ []) (h : occursAt canon token l 0 = true) :
    replaceVerbatimScan canon token replacement l 0 =
      replacement ++ replaceVerbatimScan canon token replacement (l.drop token.length) 0 := by
  have hlen : 0 < token.length := List.length_pos.mpr hne
  cases l with
  | nil =>
    have := occursAt_zero_length canon token [] h
    simp only [List.length_nil] at this
    omega
  | cons c cs =>
    simp only [replaceVerbatimScan, h, if_true]
    rw [replaceVerbatimScan_skip]
    have h1 : (c :: cs).drop token.length = cs.drop (token.length - 1) := by
      obtain ⟨k, hk⟩ := Nat.exists_eq_succ_of_ne_zero (Nat.pos_iff_ne_zero.mp hlen)
      rw [hk]; simp
    rw [h1]

theorem replaceVerbatim_miss (canon : Char → Char) (token replacement : Str) (c : Char)
    (cs : Str) (h : occursAt canon token (c :: cs) 0 = false) :
    replaceVerbatimScan canon token replacement (c :: cs) 0 =
      c :: replaceVerbatimScan canon token replacement cs 0 := by
  simp [replaceVerbatimScan, h]

theorem agreeAlong_of_occursAt (canon : Char → Char) (X : Str) :
    ∀ (us R : Str), occursAt canon us (R ++ X) 0 = true → agreeAlong canon us R = true := by
  intro us
  induction us with
  | nil => intro R _; rfl
  | cons u us ih =>
    intro R h
    cases R with
    | nil => rfl
    | cons r rs =>
      rw [List.cons_append, occursAt_cons_cons] at h
      simp only [Bool.and_eq_true, decide_eq_true_eq] at h
      simp only [agreeAlong, Bool.and_eq_true, decide_eq_true_eq]
      exact ⟨h.1.symm, ih rs h.2⟩

theorem mem_tails_of_mem_tails_tail (u : Char) (us ws : Str) (h : ws ∈ us.tails) :
    ws ∈ (u :: us).tails := by
  rw [List.mem_tails] at h ⊢
  exact h.trans (List.suffix_cons u us)

theorem self_mem_tails (l : Str) : l ∈ l.tails :=
  (List.mem_tails _ _).mpr (List.suffix_refl l)

/-- A prefix of the replaced text that cannot lie along the replacement, nor any of its
end pieces, is a prefix of the text before the replace. -/
theorem prefix_of_replaced (canon : Char → Char) (token replacement : Str)
    (hne : token ≠ []) :
    ∀ (U l : Str), (∀ ws ∈ U.tails, ws ≠ [] → agreeAlong canon ws replacement = false) →
      occursAt canon U (replaceVerbatimScan canon token replacement l 0) 0 = true →
      occursAt canon U l 0 = true := by
  intro U
  induction U with
  | nil => intro l _ _; exact occursAt_nil_token canon l
  | cons u us ih =>
    intro l hdis h
    cases l with
    | nil =>
      simp only [replaceVerbatimScan] at h
      rw [occursAt_cons_nil] at h
      exact Bool.noConfusion h
    | cons c cs =>
      by_cases hm : occursAt canon token (c :: cs) 0 = true
      · exfalso
        rw [replaceVerbatim_hit canon token replacement (c :: cs) hne hm] at h
        have h1 := agreeAlong_of_occursAt canon _ (u :: us) replacement h
        rw [hdis (u :: us) (self_mem_tails _) (List.cons_ne_nil _ _)] at h1
        exact Bool.noConfusion h1
      · have hm0 : occursAt canon token (c :: cs) 0 = false := by simpa using hm
        rw [replaceVerbatim_miss canon token replacement c cs hm0, occursAt_cons_cons] at h
        simp only [Bool.and_eq_true, decide_eq_true_eq] at h
        rw [occursAt_cons_cons]
        simp only [Bool.and_eq_true, decide_eq_true_eq]
        exact ⟨h.1, ih cs
          (fun ws hws hn => hdis ws (mem_tails_of_mem_tails_tail u us ws hws) hn) h.2⟩

theorem containsToken_append_left (canon : Char → Char) (U X : Str) :
    ∀ (R : Str), (∀ rs ∈ R.tails, rs ≠ [] → agreeAlong canon U rs = false) →
      containsToken canon U (R ++ X) = containsToken canon U X := by
  intro R
  induction R with
  | nil => intro _; rfl
  | cons r rs ih =>
    intro h
    have h0 : occursAt canon U (r :: rs ++ X) 0 = false := by
      by_contra hc
      have hc1 : occursAt canon U ((r :: rs) ++ X) 0 = true := by simpa using hc
      have := agreeAlong_of_occursAt canon X U (r :: rs) hc1
      rw [h (r :: rs) (self_mem_tails _) (List.cons_ne_nil _ _)] at this
      exact Bool.noConfusion this
    rw [List.cons_append, containsToken, ← List.cons_append, h0, Bool.false_or]
    exact ih (fun ws hws hn => h ws (mem_tails_of_mem_tails_tail r rs ws hws) hn)

theorem containsToken_of_tail (canon : Char → Char) (U : Str) (c : Char) (cs : Str)
    (h : containsToken canon U cs = true) : containsToken canon U (c :: cs) = true := by
  rw [containsToken, h, Bool.or_true]

theorem containsToken_of_drop (canon : Char → Char) (U : Str) :
    ∀ (l : Str) (k : Nat), containsToken canon U (l.drop k) = true →
      containsToken canon U l = true := by
  intro l
  induction l with
  | nil => intro k h; simpa using h
  | cons c cs ih =>
    intro k h
    cases k with
    | zero => simpa using h
    | succ k =>
      rw [List.drop_succ_cons] at h
      exact containsToken_of_tail canon U c cs (ih k h)

theorem containsToken_nil (canon : Char → Char) (U : Str) (hU : U ≠ []) :
    containsToken canon U [] = false := by
  cases U with
  | nil => exact absurd rfl hU
  | cons u us => rw [containsToken, occursAt_cons_nil]

/-- An occurrence of a token in the replaced text, when no occurrence of the token can
share a character with the replacement, comes from an occurrence in the text before
the replace. -/
theorem containsToken_of_replaced (canon : Char → Char) (token replacement : Str)
    (hne : token ≠ []) (U : Str) (hdis : NoOverlap canon U replacement) :
    ∀ (m : Nat) (l : Str), l.length ≤ m →
      containsToken canon U (replaceVerbatimScan canon token replacement l 0) = true →
      containsToken canon U l = true := by
  have hlen : 0 < token.length := List.length_pos.mpr hne
  obtain ⟨_, _, hd1, hd2⟩ := hdis
  intro m
  induction m with
  | zero =>
    intro l hl h
    have : l = [] := List.length_eq_zero.mp (Nat.le_zero.mp hl)
    subst this
    simpa [replaceVerbatimScan] using h
  | succ m ih =>
    intro l hl h
    cases l with
    | nil => simpa [replaceVerbatimScan] using h
    | cons c cs =>
      by_cases hm : occursAt canon token (c :: cs) 0 = true
      · rw [replaceVerbatim_hit canon token replacement (c :: cs) hne hm,
          containsToken_append_left canon U _ replacement hd2] at h
        have hdl : ((c :: cs).drop token.length).length ≤ m := by
          simp only [List.length_drop, List.length_cons] at hl ⊢
          omega
        exact containsToken_of_drop canon _ _ _ (ih _ hdl h)
      · have hm0 : occursAt canon token (c :: cs) 0 = false := by simpa using hm
        have hcl : cs.length ≤ m := by
          simp only [List.length_cons] at hl; omega
        have hrw := replaceVerbatim_miss canon token replacement c cs hm0
        rw [hrw, containsToken] at h
        rcases Bool.or_eq_true_iff.mp h with h1 | h1
        · rw [← hrw] at h1
          have := prefix_of_replaced canon token replacement hne U (c :: cs) hd1 h1
          rw [containsToken, this, Bool.true_or]
        · exact containsToken_of_tail canon _ c cs (ih cs hcl h1)

/-- After the replace no occurrence of the token is left, when no occurrence of the
token can share a character with the replacement. -/
theorem not_containsToken_replaced (canon : Char → Char) (token replacement : Str)
    (hdis : NoOverlap canon token replacement) :
    ∀ (m : Nat) (l : Str), l.length ≤ m →
      containsToken canon token (replaceVerbatimScan canon token replacement l 0) = false := by
  obtain ⟨hne, _, hd1, hd2⟩ := hdis
  have hlen : 0 < token.length := List.length_pos.mpr hne
  intro m
  induction m with
  | zero =>
    intro l hl
    have : l = [] := List.length_eq_zero.mp (Nat.le_zero.mp hl)
    subst this
    simpa [replaceVerbatimScan] using containsToken_nil canon token hne
  | succ m ih =>
    intro l hl
    cases l with
    | nil => simpa [replaceVerbatimScan] using containsToken_nil canon token hne
    | cons c cs =>
      by_cases hm : occursAt canon token (c :: cs) 0 = true
      · rw [replaceVerbatim_hit canon token replacement (c :: cs) hne hm]
        have hdl : ((c :: cs).drop token.length).length ≤ m := by
          simp only [List.length_drop, List.length_cons] at hl ⊢
          omega
        rw [containsToken_append_left canon token _ replacement hd2]
        exact ih _ hdl
      · have hm0 : occursAt canon token (c :: cs) 0 = false := by simpa using hm
        have hcl : cs.length ≤ m := by
          simp only [List.length_cons] at hl; omega
        have hrw := replaceVerbatim_miss canon token replacement c cs hm0
        rw [hrw, containsToken, ih cs hcl, Bool.or_false]
        by_contra hcon
        have h1 : occursAt canon token
            (replaceVerbatimScan canon token replacement (c :: cs) 0) 0 = true := by
          rw [hrw]; simpa using hcon
        have := prefix_of_replaced canon token replacement hne token (c :: cs) hd1 h1
        rw [hm0] at this
        exact Bool.noConfusion this

theorem searchFrom_isSome (canon : Char → Char) (token : Str) :
    ∀ (l : Str) (pos : Nat),
      (searchFrom canon (token.map Atom.lit) l pos).isSome = containsToken canon token l := by
  intro l
  induction l with
  | nil =>
    intro pos
    simp only [searchFrom, matchesHere_lit, containsToken]
    by_cases h : occursAt canon token [] 0 = true <;> simp [h]
  | cons c cs ih =>
    intro pos
    simp only [searchFrom, matchesHere_lit, containsToken]
    by_cases h : occursAt canon token (c :: cs) 0 = true
    · simp [h]
    · simp [h, ih]

theorem test_eq_containsToken (canon : Char → Char) (token s : Str) :
    ((newRegExp (escapeRegExp token)).test canon s).2 = containsToken canon token s := by
  rw [newRegExp_escapeRegExp]
  simp only [RegExp.test, RegExp.exec, Nat.not_lt_zero, if_false, List.drop_zero]
  rw [← searchFrom_isSome canon token s 0]
  cases searchFrom canon (token.map Atom.lit) s 0 <;> rfl

theorem replaceOccurrences_of_not_contains (canon : Char → Char) (token replacement : Str) :
    ∀ (l : Str), containsToken canon token l = false →
      replaceVerbatimScan canon token replacement l 0 = l := by
  intro l
  induction l with
  | nil => intro _; rfl
  | cons c cs ih =>
    intro h
    rw [containsToken, Bool.or_eq_false_iff] at h
    rw [replaceVerbatim_miss canon token replacement c cs h.1, ih h.2]

/-! ## Lemmas on the auto-apply pass -/

theorem exec_atoms (canon : Char → Char) (re : RegExp) (s : Str) :
    (re.exec canon s).1.atoms = re.atoms := by
  unfold RegExp.exec
  split
  · rfl
  · split <;> rfl

theorem acceptAuto_eq (dom : List DomNode) (T : List Str) (n : Nat) :
    acceptAuto dom T n = (decide (T.getD n [] ≠ []) && parentAllowed dom n) := by
  unfold acceptAuto parentAllowed
  by_cases h : T.getD n [] = []
  · simp [h]
  · simp only [h, if_false, ne_eq, not_false_eq_true, decide_True, Bool.true_and]

theorem autoStep_eq (canon : Char → Char) (dom : List DomNode) (r : Rule) (T : List Str)
    (n : Nat) :
    autoStep canon dom r T n =
      if acceptAuto dom T n = true ∧ containsToken canon r.original (T.getD n []) = true then
        T.set n (replaceIn canon r.original r.replacement (T.getD n []))
      else T := by
  unfold autoStep
  rw [test_eq_containsToken]
  have hj : jsReplace canon ((newRegExp (escapeRegExp r.original)).test canon (T.getD n [])).1
      r.replacement (T.getD n []) = replaceIn canon r.original r.replacement (T.getD n []) := by
    unfold replaceIn jsReplace RegExp.test
    rw [exec_atoms]
  rw [hj]
  by_cases h1 : acceptAuto dom T n = true
  · by_cases h2 : containsToken canon r.original (T.getD n []) = true
    · simp [h1, h2]
    · simp [h1, h2]
  · simp [h1]

theorem autoStep_length (canon : Char → Char) (dom : List DomNode) (r : Rule) (T : List Str)
    (n : Nat) : (autoStep canon dom r T n).length = T.length := by
  rw [autoStep_eq]
  split <;> simp

theorem autoStep_getD (canon : Char → Char) (dom : List DomNode) (r : Rule) (T : List Str)
    (n j : Nat) :
    (autoStep canon dom r T n).getD j [] =
      if j = n then autoValue canon dom r n (T.getD n []) else T.getD j [] := by
  rw [autoStep_eq, acceptAuto_eq]
  unfold autoValue
  by_cases h0 : T.getD n [] = []
  · simp only [h0, ne_eq, not_true_eq_false, decide_False, Bool.false_and, Bool.false_eq_true,
      false_and, if_false, if_true]
    by_cases hj : j = n
    · rw [if_pos hj, hj, h0]
    · rw [if_neg hj]
  · have hlt := lt_length_of_getD_ne_nil T n h0
    simp only [ne_eq, h0, not_false_eq_true, decide_True, Bool.true_and, if_false]
    by_cases h1 : parentAllowed dom n = true
    · by_cases h2 : containsToken canon r.original (T.getD n []) = true
      · simp only [h1, h2, and_self, if_true]
        rw [getD_set_eq T n j _ hlt]
        by_cases hj : j = n
        · simp [hj]
        · have hj2 : ¬ n = j := fun e => hj e.symm
          simp [hj, hj2]
      · simp only [h1, h2, and_false, if_false, if_true, Bool.false_eq_true]
        by_cases hj : j = n
        · simp [hj]
        · simp [hj]
    · simp only [h1, false_and, if_false, Bool.false_eq_true]
      by_cases hj : j = n
      · simp [hj]
      · simp [hj]

theorem foldl_autoStep_length (canon : Char → Char) (dom : List DomNode) (r : Rule) :
    ∀ (nodes : List Nat) (T : List Str),
      (nodes.foldl (autoStep canon dom r) T).length = T.length := by
  intro nodes
  induction nodes with
  | nil => intro T; rfl
  | cons n ns ih => intro T; rw [List.foldl_cons, ih, autoStep_length]

theorem foldl_autoStep_getD (canon : Char → Char) (dom : List DomNode) (r : Rule) :
    ∀ (nodes : List Nat) (T : List Str) (j : Nat), nodes.Nodup →
      (nodes.foldl (autoStep canon dom r) T).getD j [] =
        if j ∈ nodes then autoValue canon dom r j (T.getD j []) else T.getD j [] := by
  intro nodes
  induction nodes with
  | nil => intro T j _; simp
  | cons n ns ih =>
    intro T j hnd
    simp only [List.nodup_cons] at hnd
    rw [List.foldl_cons, ih _ j hnd.2, autoStep_getD]
    by_cases hj : j = n
    · subst hj
      simp [hnd.1]
    · simp [hj]

theorem textWalker_nodup (dom : List DomNode) (root : Nat) : (textWalker dom root).Nodup := by
  unfold textWalker
  exact (List.nodup_range _).filter _

theorem applyRule_length (canon : Char → Char) (dom : List DomNode) (root : Nat)
    (T : List Str) (r : Rule) : (applyRule canon dom root T r).length = T.length := by
  unfold applyRule
  split
  · rfl
  · exact foldl_autoStep_length canon dom r _ T

theorem applyRule_getD (canon : Char → Char) (dom : List DomNode) (root : Nat)
    (T : List Str) (r : Rule) (j : Nat) :
    (applyRule canon dom root T r).getD j [] =
      if visits dom root r j then autoValue canon dom r j (T.getD j []) else T.getD j [] := by
  unfold applyRule visits
  cases h : targetElement dom root r.selector with
  | none => simp
  | some target =>
    simp only [decide_eq_true_eq]
    exact foldl_autoStep_getD canon dom r _ T j (textWalker_nodup dom target)

theorem ext_getD (l1 l2 : List Str) (hlen : l1.length = l2.length)
    (h : ∀ j, l1.getD j [] = l2.getD j []) : l1 = l2 := by
  apply List.ext_getElem hlen
  intro j h1 h2
  have := h j
  simpa [List.getD_eq_getElem?_getD, List.getElem?_eq_getElem h1,
    List.getElem?_eq_getElem h2] using this

theorem autoValue_of_not_contains (canon : Char → Char) (dom : List DomNode) (r : Rule)
    (n : Nat) (s : Str)
    (h : parentAllowed dom n = true → containsToken canon r.original s = false) :
    autoValue canon dom r n s = s := by
  unfold autoValue
  by_cases h0 : s = []
  · rw [if_pos h0]
  · rw [if_neg h0]
    by_cases h1 : parentAllowed dom n = true
    · rw [if_pos h1, h h1]; rfl
    · rw [if_neg h1]

theorem autoValue_clean (canon : Char → Char) (dom : List DomNode) (r : Rule) (n : Nat)
    (s : Str) (hd : hasDollarPattern r.replacement = false)
    (hdis : NoOverlap canon r.original r.replacement)
    (hp : parentAllowed dom n = true) :
    containsToken canon r.original (autoValue canon dom r n s) = false := by
  have hne : r.original ≠ [] := hdis.1
  unfold autoValue
  by_cases h0 : s = []
  · rw [if_pos h0, h0]; exact containsToken_nil canon _ hne
  · rw [if_neg h0, if_pos hp]
    by_cases h2 : containsToken canon r.original s = true
    · rw [if_pos h2, replaceIn_eq_replaceOccurrences canon _ _ _ hne hd]
      exact not_containsToken_replaced canon _ _ hdis s.length s (le_refl _)
    · rw [if_neg h2]; simpa using h2

theorem autoValue_preserves (canon : Char → Char) (dom : List DomNode) (r : Rule) (n : Nat)
    (s : Str) (hne : r.original ≠ []) (hd : hasDollarPattern r.replacement = false)
    (U : Str) (hdis : NoOverlap canon U r.replacement)
    (h : containsToken canon U s = false) :
    containsToken canon U (autoValue canon dom r n s) = false := by
  unfold autoValue
  by_cases h0 : s = []
  · rw [if_pos h0]; exact h
  · rw [if_neg h0]
    by_cases h1 : parentAllowed dom n = true
    · rw [if_pos h1]
      by_cases h2 : containsToken canon r.original s = true
      · rw [if_pos h2, replaceIn_eq_replaceOccurrences canon _ _ _ hne hd]
        by_contra hc
        have hc1 : containsToken canon U (replaceOccurrences canon r.original r.replacement s)
            = true := by simpa using hc
        have := containsToken_of_replaced canon _ _ hne U hdis s.length s (le_refl _) hc1
        rw [h] at this
        exact Bool.noConfusion this
      · rw [if_neg h2]; exact h
    · rw [if_neg h1]; exact h

/-- The rules applied after a token was cleared from a text do not bring it back, when
none of their replacements can line up with it. -/
theorem foldl_applyRule_preserves (canon : Char → Char) (dom : List DomNode) (root : Nat)
    (U : Str) (j : Nat) :
    ∀ (later : List Rule) (T : List Str),
      (∀ q ∈ later, q.original ≠ [] ∧ hasDollarPattern q.replacement = false ∧
        NoOverlap canon U q.replacement) →
      containsToken canon U (T.getD j []) = false →
      containsToken canon U ((later.foldl (applyRule canon dom root) T).getD j []) = false := by
  intro later
  induction later with
  | nil => intro T _ h; exact h
  | cons q qs ih =>
    intro T hq h
    rw [List.foldl_cons]
    apply ih _ (fun x hx => hq x (List.mem_cons_of_mem _ hx))
    rw [applyRule_getD]
    obtain ⟨hq1, hq2, hq3⟩ := hq q (List.mem_cons_self _ _)
    by_cases hv : visits dom root q j = true
    · rw [if_pos hv]
      exact autoValue_preserves canon dom q j _ hq1 hq2 U hq3 h
    · rw [if_neg hv]; exact h

/-- After the rules `earlier ++ r :: later` were applied in turn, no node visited for `r`
holds the token of `r`, whatever the earlier rules are. -/
theorem foldl_applyRule_clean (canon : Char → Char) (dom : List DomNode) (root : Nat)
    (earlier later : List Rule) (r : Rule) (T : List Str)
    (hd : hasDollarPattern r.replacement = false)
    (hno : NoOverlap canon r.original r.replacement)
    (hlater : ∀ q ∈ later, q.original ≠ [] ∧ hasDollarPattern q.replacement = false ∧
      NoOverlap canon r.original q.replacement)
    (j : Nat) (hv : visits dom root r j = true) (hp : parentAllowed dom j = true) :
    containsToken canon r.original
      (((earlier ++ r :: later).foldl (applyRule canon dom root) T).getD j []) = false := by
  rw [List.foldl_append, List.foldl_cons]
  apply foldl_applyRule_preserves canon dom root r.original j later _ hlater
  rw [applyRule_getD, if_pos hv]
  exact autoValue_clean canon dom r j _ hd hno hp

theorem applyRule_of_clean (canon : Char → Char) (dom : List DomNode) (root : Nat)
    (T : List Str) (r : Rule)
    (h : ∀ j, visits dom root r j = true → parentAllowed dom j = true →
      containsToken canon r.original (T.getD j []) = false) :
    applyRule canon dom root T r = T := by
  apply ext_getD _ _ (applyRule_length canon dom root T r)
  intro j
  rw [applyRule_getD]
  by_cases hv : visits dom root r j = true
  · rw [if_pos hv]
    exact autoValue_of_not_contains canon dom r j _ (h j hv)
  · rw [if_neg hv]

theorem foldl_applyRule_of_clean (canon : Char → Char) (dom : List DomNode) (root : Nat)
    (T : List Str) :
    ∀ (rules : List Rule),
      (∀ r ∈ rules, ∀ j, visits dom root r j = true → parentAllowed dom j = true →
        containsToken canon r.original (T.getD j []) = false) →
      rules.foldl (applyRule canon dom root) T = T := by
  intro rules
  induction rules with
  | nil => intro _; rfl
  | cons r rs ih =>
    intro h
    rw [List.foldl_cons, applyRule_of_clean canon dom root T r (h r (List.mem_cons_self _ _))]
    exact ih (fun x hx => h x (List.mem_cons_of_mem _ hx))

theorem applyAllRules_clean (canon : Char → Char) (page : Page) (root : Nat) (st : State)
    (hap : RulesSettle canon (pageRules page.hostname st.rules)) :
    ∀ r ∈ pageRules page.hostname st.rules, ∀ j,
      visits page.dom root r j = true → parentAllowed page.dom j = true →
      containsToken canon r.original
        ((applyAllRules canon page root st).texts.getD j []) = false := by
  intro r hr j hv hp
  obtain ⟨earlier, later, hsplit⟩ := List.append_of_mem hr
  obtain ⟨hown, hpair⟩ := hap
  have hlater : ∀ q ∈ later, q.original ≠ [] ∧ hasDollarPattern q.replacement = false ∧
      NoOverlap canon r.original q.replacement := by
    intro q hq
    have hqm : q ∈ pageRules page.hostname st.rules := by
      rw [hsplit]; simp [hq]
    rw [hsplit, List.pairwise_append, List.pairwise_cons] at hpair
    exact ⟨(hown q hqm).2.1, (hown q hqm).1, hpair.2.1.1 q hq⟩
  unfold applyAllRules
  simp only
  rw [hsplit]
  exact foldl_applyRule_clean canon page.dom root earlier later r st.texts (hown r hr).1
    (hown r hr).2 hlater j hv hp

theorem applyAllRules_idempotent (canon : Char → Char) (page : Page) (root : Nat) (st : State)
    (hap : RulesSettle canon (pageRules page.hostname st.rules)) :
    applyAllRules canon page root (applyAllRules canon page root st) =
      applyAllRules canon page root st := by
  have hclean := applyAllRules_clean canon page root st hap
  unfold applyAllRules at hclean ⊢
  simp only
  rw [foldl_applyRule_of_clean canon page.dom root _ _ hclean]

/-! ## Lemmas on the content tree -/

theorem parentsFirst_spec (dom : List DomNode) (h : parentsFirst dom = true) (i p : Nat)
    (hp : parentOf dom i = some p) : p < i := by
  have hi : i < dom.length := by
    by_contra hn
    unfold parentOf at hp
    rw [List.getElem?_eq_none (Nat.le_of_not_lt hn)] at hp
    exact Option.noConfusion hp
  unfold parentsFirst at h
  have := List.all_eq_true.mp h i (List.mem_range.mpr hi)
  rw [hp] at this
  simpa using this

theorem containsAux_le (dom : List DomNode) (h : parentsFirst dom = true) (a : Nat) :
    ∀ (fuel i : Nat), containsAux dom a fuel i = true → a ≤ i := by
  intro fuel
  induction fuel with
  | zero =>
    intro i hc
    simp only [containsAux, decide_eq_true_eq] at hc
    omega
  | succ f ih =>
    intro i hc
    simp only [containsAux, Bool.or_eq_true, decide_eq_true_eq] at hc
    rcases hc with hc | hc
    · omega
    · cases hp : parentOf dom i with
      | none => rw [hp] at hc; exact Bool.noConfusion hc
      | some p =>
        rw [hp] at hc
        have := ih p hc
        have := parentsFirst_spec dom h i p hp
        omega

theorem contains_le (dom : List DomNode) (h : parentsFirst dom = true) (a i : Nat)
    (hc : contains dom a i = true) : a ≤ i :=
  containsAux_le dom h a dom.length i hc

theorem find?_range_some (p : Nat → Bool) :
    ∀ (n e : Nat), (List.range n).find? p = some e →
      e < n ∧ p e = true ∧ ∀ j, j < e → p j = false := by
  intro n
  induction n with
  | zero => intro e h; simp at h
  | succ n ih =>
    intro e h
    rw [List.range_succ, List.find?_append] at h
    cases hf : (List.range n).find? p with
    | some x =>
      rw [hf] at h
      simp only [Option.or, Option.some.injEq] at h
      subst h
      obtain ⟨h1, h2, h3⟩ := ih x hf
      exact ⟨by omega, h2, h3⟩
    | none =>
      rw [hf] at h
      simp only [Option.or] at h
      have hnone := List.find?_eq_none.mp hf
      by_cases hpn : p n = true
      · simp only [List.find?_cons, hpn, Option.some.injEq] at h
        subst h
        refine ⟨by omega, hpn, ?_⟩
        intro j hj
        have := hnone j (List.mem_range.mpr hj)
        simpa using this
      · simp [List.find?_cons, hpn] at h

theorem find?_range_of_first (p : Nat → Bool) :
    ∀ (n e : Nat), e < n → p e = true → (∀ j, j < e → p j = false) →
      (List.range n).find? p = some e := by
  intro n
  induction n with
  | zero => intro e h; omega
  | succ n ih =>
    intro e he hp hfirst
    rw [List.range_succ, List.find?_append]
    by_cases hen : e < n
    · rw [ih e hen hp hfirst]; rfl
    · have : e = n := by omega
      subst this
      have hnone : (List.range e).find? p = none := by
        apply List.find?_eq_none.mpr
        intro j hj
        have := hfirst j (List.mem_range.mp hj)
        simp [this]
      rw [hnone]
      simp [List.find?_cons, hp]

theorem stepMatches_isElement (dom : List DomNode) (s : Step) (i : Nat)
    (h : stepMatches dom s i = true) : isElementAt dom i = true := by
  cases s <;> simp only [stepMatches, Bool.and_eq_true] at h
  · exact h.1
  · exact h.1.1.1
  · exact h.1.1

theorem matchesRev_isElement (dom : List DomNode) (rev : List Step) (i : Nat)
    (h : matchesRev dom rev i = true) : isElementAt dom i = true := by
  cases rev with
  | nil => simp [matchesRev] at h
  | cons s rest =>
    cases rest with
    | nil => exact stepMatches_isElement dom s i (by simpa [matchesRev] using h)
    | cons t rest =>
      simp only [matchesRev, Bool.and_eq_true] at h
      exact stepMatches_isElement dom s i h.1

theorem elementMatches_nil (dom : List DomNode) (i : Nat) : elementMatches dom [] i = false := by
  simp [elementMatches, matchesRev]

theorem selector_ne_nil_of_query (dom : List DomNode) (selector : Selector) (E : Nat)
    (h : documentQuerySelector dom selector = some E) : selector ≠ [] := by
  intro he
  subst he
  have := (find?_range_some _ _ _ h).2.1
  rw [elementMatches_nil] at this
  exact Bool.noConfusion this

theorem isElementAt_lt (dom : List DomNode) (i : Nat) (h : isElementAt dom i = true) :
    i < dom.length := by
  by_contra hn
  unfold isElementAt at h
  rw [List.getElem?_eq_none (Nat.le_of_not_lt hn)] at h
  exact Bool.noConfusion h

theorem isTextAt_lt (dom : List DomNode) (i : Nat) (h : isTextAt dom i = true) :
    i < dom.length := by
  by_contra hn
  unfold isTextAt at h
  rw [List.getElem?_eq_none (Nat.le_of_not_lt hn)] at h
  exact Bool.noConfusion h

theorem text_ne_element (dom : List DomNode) (n e : Nat) (hn : isTextAt dom n = true)
    (he : isElementAt dom e = true) : n ≠ e := by
  intro h
  subst h
  unfold isTextAt at hn
  unfold isElementAt at he
  cases hd : dom[n]? with
  | none => rw [hd] at hn; exact Bool.noConfusion hn
  | some x =>
    rw [hd] at hn he
    simp only [decide_eq_true_eq] at hn he
    omega

theorem mem_textWalker (dom : List DomNode) (root j : Nat) :
    j ∈ textWalker dom root ↔
      isTextAt dom j = true ∧ j ≠ root ∧ contains dom root j = true := by
  unfold textWalker
  simp only [List.mem_filter, List.mem_range, Bool.and_eq_true, decide_eq_true_eq]
  constructor
  · rintro ⟨_, ⟨h1, h2⟩, h3⟩; exact ⟨h1, h2, h3⟩
  · rintro ⟨h1, h2, h3⟩; exact ⟨isTextAt_lt dom j h1, ⟨h1, h2⟩, h3⟩

/-- Under a root that is the first match of the selector in the document, or holds
it, `applyAllRules` works on that first match. -/
theorem targetElement_of_first (dom : List DomNode) (hwf : parentsFirst dom = true)
    (root E : Nat) (selector : Selector)
    (hE : documentQuerySelector dom selector = some E)
    (hroot : contains dom root E = true) :
    targetElement dom root selector = some E := by
  obtain ⟨h1, h2, h3⟩ := find?_range_some _ _ _ hE
  unfold targetElement
  rw [if_neg (selector_ne_nil_of_query dom selector E hE)]
  by_cases hm : elementMatches dom selector root = true
  · rw [if_pos hm]
    have hle := contains_le dom hwf root E hroot
    have : ¬ root < E := by
      intro hlt
      have := h3 root hlt
      rw [hm] at this
      exact Bool.noConfusion this
    congr 1
    omega
  · rw [if_neg hm]
    unfold elementQuerySelector
    apply find?_range_of_first _ _ _ h1
    · have hne : E ≠ root := by
        intro he
        rw [he] at h2
        exact hm h2
      simp [hne, hroot, h2]
    · intro j hj
      simp [h3 j hj]

theorem visits_of_inside (dom : List DomNode) (hwf : parentsFirst dom = true)
    (root E : Nat) (r : Rule)
    (hE : documentQuerySelector dom r.selector = some E)
    (hroot : contains dom root E = true) (n : Nat) (hn : isTextAt dom n = true)
    (hin : contains dom E n = true) : visits dom root r n = true := by
  unfold visits
  rw [targetElement_of_first dom hwf root E r.selector hE hroot]
  simp only [decide_eq_true_eq]
  rw [mem_textWalker]
  refine ⟨hn, ?_, hin⟩
  have h2 := (find?_range_some _ _ _ hE).2.1
  exact text_ne_element dom n E hn (matchesRev_isElement dom _ E h2)

theorem observeDOM_singleton (canon : Char → Char) (page : Page) (root : Nat) (st : State)
    (h : isElementAt page.dom root = true) :
    observeDOM canon page [root] st = applyAllRules canon page root st := by
  simp [observeDOM, h]

theorem inserted_subtree_clean (canon : Char → Char) (page : Page) (root : Nat) (st : State)
    (earlier later : List Rule) (r : Rule) (E n : Nat) (hwf : parentsFirst page.dom = true)
    (helem : isElementAt page.dom root = true)
    (hsplit : pageRules page.hostname st.rules = earlier ++ r :: later)
    (hd : hasDollarPattern r.replacement = false)
    (hno : NoOverlap canon r.original r.replacement)
    (hlater : ∀ q ∈ later, q.original ≠ [] ∧ hasDollarPattern q.replacement = false ∧
      NoOverlap canon r.original q.replacement)
    (hE : documentQuerySelector page.dom r.selector = some E)
    (hroot : contains page.dom root E = true)
    (hn : isTextAt page.dom n = true) (hin : contains page.dom E n = true)
    (hp : parentAllowed page.dom n = true) :
    containsToken canon r.original ((observeDOM canon page [root] st).texts.getD n []) = false := by
  rw [observeDOM_singleton canon page root st helem]
  unfold applyAllRules
  simp only
  rw [hsplit]
  exact foldl_applyRule_clean canon page.dom root earlier later r st.texts hd hno hlater n
    (visits_of_inside page.dom hwf root E r hE hroot n hn hin) hp

/-! ## Lemmas on the scope of a replacement -/

theorem execLoop_nodes (canon : Char → Char) (n : Nat) (s : Str) :
    ∀ (fuel : Nat) (re : RegExp) (out : List Match) (re1 : RegExp) (out1 : List Match),
      execLoop canon fuel re n s out = some (re1, out1) →
      ∀ m ∈ out1, m ∈ out ∨ m.node = n := by
  intro fuel
  induction fuel with
  | zero => intro re out re1 out1 h; exact Option.noConfusion h
  | succ f ih =>
    intro re out re1 out1 h m hm
    rw [execLoop] at h
    rcases hx : re.exec canon s with ⟨re2, res⟩
    rw [hx] at h
    cases res with
    | none =>
      simp only [Option.some.injEq, Prod.mk.injEq] at h
      rw [← h.2] at hm
      exact Or.inl hm
    | some il =>
      obtain ⟨index, len⟩ := il
      simp only at h
      rcases ih re2 _ re1 out1 h m hm with h1 | h1
      · rcases List.mem_append.mp h1 with h2 | h2
        · exact Or.inl h2
        · right
          rw [List.mem_singleton.mp h2]
      · exact Or.inr h1

theorem walkLoop_nodes (canon : Char → Char) (fuel : Nat) (texts : List Str) :
    ∀ (nodes : List Nat) (re : RegExp) (out found : List Match),
      walkLoop canon fuel texts re nodes out = some found →
      ∀ m ∈ found, m ∈ out ∨ m.node ∈ nodes := by
  intro nodes
  induction nodes with
  | nil =>
    intro re out found h m hm
    simp only [walkLoop, Option.some.injEq] at h
    rw [← h] at hm
    exact Or.inl hm
  | cons n ns ih =>
    intro re out found h m hm
    rw [walkLoop] at h
    cases hx : execLoop canon fuel re n (texts.getD n []) out with
    | none => rw [hx] at h; exact Option.noConfusion h
    | some res =>
      obtain ⟨re1, out1⟩ := res
      rw [hx] at h
      simp only at h
      rcases ih re1 out1 found h m hm with h1 | h1
      · rcases execLoop_nodes canon n _ fuel re out re1 out1 hx m h1 with h2 | h2
        · exact Or.inl h2
        · right; rw [h2]; exact List.mem_cons_self _ _
      · exact Or.inr (List.mem_cons_of_mem _ h1)

theorem rootElement_of_query (page : Page) (selector : Selector) (E : Nat)
    (hE : documentQuerySelector page.dom selector = some E) :
    rootElement page selector = E := by
  unfold rootElement
  rw [if_neg (selector_ne_nil_of_query page.dom selector E hE), hE]
  rfl

theorem findMatches_nodes (canon : Char → Char) (page : Page) (fuel : Nat) (texts : List Str)
    (token : Str) (selector : Selector) (E : Nat)
    (hE : documentQuerySelector page.dom selector = some E) (found : List Match)
    (h : findMatches canon page fuel texts token selector = some found) :
    ∀ m ∈ found, isTextAt page.dom m.node = true ∧ contains page.dom E m.node = true := by
  intro m hm
  unfold findMatches at h
  rcases walkLoop_nodes canon fuel texts _ _ _ found h m hm with h1 | h1
  · simp at h1
  · unfold acceptedNodes at h1
    rw [rootElement_of_query page selector E hE] at h1
    have := (mem_textWalker page.dom E m.node).mp (List.mem_filter.mp h1).1
    exact ⟨this.1, this.2.2⟩

theorem applyReplacement_some (canon : Char → Char) (page : Page) (fuel : Nat) (st st1 : State)
    (input token : Str) (selector : Selector)
    (h : applyReplacement canon page fuel st input token selector = some st1) :
    st1 = st ∨ ∃ found, findMatches canon page fuel st.texts token selector = some found ∧
      st1.texts = found.foldl
        (fun t m => t.set m.node (replaceIn canon token (trim input) (t.getD m.node [])))
        st.texts := by
  unfold applyReplacement at h
  by_cases hin : trim input = []
  · rw [if_pos hin] at h
    exact Or.inl (Option.some.inj h).symm
  · rw [if_neg hin] at h
    cases hf : findMatches canon page fuel st.texts token selector with
    | none => rw [hf] at h; exact Option.noConfusion h
    | some found =>
      rw [hf] at h
      right
      refine ⟨found, rfl, ?_⟩
      rw [← Option.some.inj h]

theorem applyReplacement_frame (canon : Char → Char) (page : Page) (fuel : Nat)
    (st st1 : State) (input token : Str) (selector : Selector) (E : Nat)
    (hE : documentQuerySelector page.dom selector = some E)
    (h : applyReplacement canon page fuel st input token selector = some st1) (j : Nat)
    (hj : contains page.dom E j = false) :
    st1.texts.getD j [] = st.texts.getD j [] := by
  rcases applyReplacement_some canon page fuel st st1 input token selector h with h1 | h1
  · rw [h1]
  · obtain ⟨found, hf, ht⟩ := h1
    rw [ht, List.getD_eq_getElem?_getD, List.getD_eq_getElem?_getD,
      foldl_replace_getElem?_of_not_mem]
    intro hmem
    obtain ⟨m, hm, hmj⟩ := List.mem_map.mp hmem
    have := (findMatches_nodes canon page fuel st.texts token selector E hE found hf m hm).2
    rw [hmj, hj] at this
    exact Bool.noConfusion this

theorem foldl_applyRule_getD_of_not_visited (canon : Char → Char) (dom : List DomNode)
    (root j : Nat) :
    ∀ (rules : List Rule) (T : List Str), (∀ r ∈ rules, visits dom root r j = false) →
      (rules.foldl (applyRule canon dom root) T).getD j [] = T.getD j [] := by
  intro rules
  induction rules with
  | nil => intro T _; rfl
  | cons r rs ih =>
    intro T h
    rw [List.foldl_cons, ih _ (fun x hx => h x (List.mem_cons_of_mem _ hx)), applyRule_getD,
      h r (List.mem_cons_self _ _)]
    simp

theorem applyAllRules_frame (canon : Char → Char) (page : Page) (st : State)
    (selector : Selector) (E : Nat) (hwf : parentsFirst page.dom = true)
    (hE : documentQuerySelector page.dom selector = some E)
    (hbody : contains page.dom page.body E = true)
    (hsel : ∀ r ∈ pageRules page.hostname st.rules, r.selector = selector) (j : Nat)
    (hj : contains page.dom E j = false) :
    (applyAllRules canon page page.body st).texts.getD j [] = st.texts.getD j [] := by
  unfold applyAllRules
  simp only
  apply foldl_applyRule_getD_of_not_visited
  intro r hr
  unfold visits
  rw [hsel r hr, targetElement_of_first page.dom hwf page.body E selector hE hbody]
  simp only [decide_eq_false_iff_not]
  intro hmem
  have := ((mem_textWalker page.dom E j).mp hmem).2.2
  rw [hj] at this
  exact Bool.noConfusion this

theorem scoped_frame (canon : Char → Char) (page : Page) (st : State) (token : Str)
    (selector : Selector) (E : Nat) (hwf : parentsFirst page.dom = true)
    (hE : documentQuerySelector page.dom selector = some E) :
    (∀ fuel found, findMatches canon page fuel st.texts token selector = some found →
        ∀ m ∈ found, isTextAt page.dom m.node = true ∧ contains page.dom E m.node = true) ∧
    (∀ fuel input st1, applyReplacement canon page fuel st input token selector = some st1 →
        ∀ j, contains page.dom E j = false → st1.texts.getD j [] = st.texts.getD j []) ∧
    (token ≠ [] → ∀ fuel input,
        (∀ n ∈ acceptedNodes page st.texts selector, (st.texts.getD n []).length < fuel) →
        ∃ st1, applyReplacement canon page fuel st input token selector = some st1) ∧
    (contains page.dom page.body E = true →
      (∀ r ∈ pageRules page.hostname st.rules, r.selector = selector) →
      ∀ j, contains page.dom E j = false →
        (applyAllRules canon page page.body st).texts.getD j [] = st.texts.getD j []) := by
  refine ⟨?_, ?_, ?_, ?_⟩
  · intro fuel found h
    exact findMatches_nodes canon page fuel st.texts token selector E hE found h
  · intro fuel input st1 h j hj
    exact applyReplacement_frame canon page fuel st st1 input token selector E hE h j hj
  · intro htok fuel input hfuel
    by_cases hin : trim input = []
    · exact ⟨st, applyReplacement_blank canon page fuel st input token selector hin⟩
    · exact ⟨_, applyReplacement_eq canon page fuel st input token selector hin _
        (findMatches_eq canon page fuel st.texts token selector htok hfuel)⟩
  · intro hbody hsel j hj
    exact applyAllRules_frame canon page st selector E hwf hE hbody hsel j hj

/-! ## Lemmas on the computed selector -/

theorem desc_le (dom : List DomNode) (h : parentsFirst dom = true) (a d : Nat)
    (hd : Desc dom a d) : a ≤ d := by
  induction hd with
  | refl => exact le_refl _
  | step i p hp _ ih =>
    have := parentsFirst_spec dom h i p hp
    omega

theorem desc_trans (dom : List DomNode) (a b c : Nat) (h1 : Desc dom a b)
    (h2 : Desc dom b c) : Desc dom a c := by
  induction h2 with
  | refl => exact h1
  | step i p hp _ ih => exact Desc.step i p hp ih

theorem desc_of_containsAux (dom : List DomNode) (a : Nat) :
    ∀ (fuel i : Nat), containsAux dom a fuel i = true → Desc dom a i := by
  intro fuel
  induction fuel with
  | zero =>
    intro i h
    simp only [containsAux, decide_eq_true_eq] at h
    rw [h]; exact Desc.refl
  | succ f ih =>
    intro i h
    simp only [containsAux, Bool.or_eq_true, decide_eq_true_eq] at h
    rcases h with h | h
    · rw [h]; exact Desc.refl
    · cases hp : parentOf dom i with
      | none => rw [hp] at h; exact Bool.noConfusion h
      | some p =>
        rw [hp] at h
        exact Desc.step i p hp (ih p h)

theorem desc_of_contains (dom : List DomNode) (a i : Nat) (h : contains dom a i = true) :
    Desc dom a i :=
  desc_of_containsAux dom a dom.length i h

theorem wellFormed_parentsFirst (dom : List DomNode) (h : wellFormed dom = true) :
    parentsFirst dom = true := by
  simp only [wellFormed, Bool.and_eq_true] at h
  exact h.1.1

theorem parent_isElement (dom : List DomNode) (h : wellFormed dom = true) (i p : Nat)
    (hp : parentOf dom i = some p) : isElementAt dom p = true := by
  simp only [wellFormed, Bool.and_eq_true] at h
  have hi : i < dom.length := by
    by_contra hn
    unfold parentOf at hp
    rw [List.getElem?_eq_none (Nat.le_of_not_lt hn)] at hp
    exact Option.noConfusion hp
  have := List.all_eq_true.mp h.1.2 i (List.mem_range.mpr hi)
  rw [hp] at this
  exact this

theorem between_desc (dom : List DomNode) (h : wellFormed dom = true) (i p k : Nat)
    (hp : parentOf dom i = some p) (h1 : p < k) (h2 : k < i) : Desc dom p k := by
  simp only [wellFormed, Bool.and_eq_true] at h
  have hi : i < dom.length := by
    by_contra hn
    unfold parentOf at hp
    rw [List.getElem?_eq_none (Nat.le_of_not_lt hn)] at hp
    exact Option.noConfusion hp
  have := List.all_eq_true.mp h.2 i (List.mem_range.mpr hi)
  rw [hp] at this
  have := List.all_eq_true.mp this k (List.mem_range.mpr h2)
  simp only [Bool.or_eq_true, decide_eq_true_eq] at this
  rcases this with h3 | h3
  · omega
  · exact desc_of_contains dom p k h3

/-- The subtree of an element ends before its later siblings. -/
theorem subtree_before_sibling (dom : List DomNode) (h : wellFormed dom = true)
    (e j p : Nat) (he : parentOf dom e = some p) (hj : parentOf dom j = some p)
    (hlt : e < j) : ∀ d, Desc dom e d → d < j := by
  have hpf := wellFormed_parentsFirst dom h
  have hpe := parentsFirst_spec dom hpf e p he
  have hnot : ¬ Desc dom e j := by
    intro hd
    cases hd with
    | refl => omega
    | step _ q hq hdq =>
      rw [hj] at hq
      have : q = p := (Option.some.inj hq).symm
      subst this
      have := desc_le dom hpf e q hdq
      omega
  intro d hd
  induction hd with
  | refl => exact hlt
  | step i c hc hdc ih =>
    by_contra hge
    have hij : i ≠ j := by
      intro e1
      subst e1
      exact hnot (Desc.step i c hc hdc)
    have hgt : j < i := by omega
    have := between_desc dom h i c j hc ih hgt
    exact hnot (desc_trans dom e c j hdc this)

theorem nthOfType_ne_one_of_before (dom : List DomNode) (e j : Nat) (hlt : j < e)
    (hj : isElementAt dom j = true) (hp : parentOf dom j = parentOf dom e)
    (ht : tagAt dom j = tagAt dom e) : nthOfType dom e ≠ 1 := by
  unfold nthOfType
  have : 0 < (List.range e).countP fun k =>
      isElementAt dom k && decide (parentOf dom k = parentOf dom e) &&
        decide (tagAt dom k = tagAt dom e) := by
    apply List.countP_pos_iff.mpr
    exact ⟨j, List.mem_range.mpr hlt, by simp [hj, hp, ht]⟩
  omega

theorem nthOfType_lt (dom : List DomNode) (i j : Nat) (hlt : i < j)
    (hi : isElementAt dom i = true) (hp : parentOf dom i = parentOf dom j)
    (ht : tagAt dom i = tagAt dom j) : nthOfType dom i < nthOfType dom j := by
  unfold nthOfType
  rw [hp, ht]
  have hsub : List.Sublist (List.range (i + 1)) (List.range j) :=
    List.range_sublist.mpr (by omega)
  have h1 := hsub.countP_le (fun k =>
      isElementAt dom k && decide (parentOf dom k = parentOf dom j) &&
        decide (tagAt dom k = tagAt dom j))
  rw [List.range_succ, List.countP_append] at h1
  have h2 : List.countP (fun k =>
      isElementAt dom k && decide (parentOf dom k = parentOf dom j) &&
        decide (tagAt dom k = tagAt dom j)) [i] = 1 := by
    simp [List.countP_cons, hi, hp, ht]
  omega

theorem stepMatches_stepOf_self (dom : List DomNode) (e : Nat)
    (he : isElementAt dom e = true) : stepMatches dom (stepOf dom e) e = true := by
  unfold stepOf
  by_cases h1 : idAt dom e ≠ []
  · rw [if_pos h1]; simp [stepMatches, he, h1]
  · rw [if_neg h1]
    by_cases h2 : nthOfType dom e ≠ 1
    · rw [if_pos h2]; simp [stepMatches, he]
    · rw [if_neg h2]; simp [stepMatches, he]

theorem stepMatches_stepOf (dom : List DomNode) (e j : Nat)
    (h : stepMatches dom (stepOf dom e) j = true) :
    isElementAt dom j = true ∧ tagAt dom j = tagAt dom e ∧
      (idAt dom e ≠ [] → idAt dom j = idAt dom e) ∧
      (idAt dom e = [] → nthOfType dom e ≠ 1 → nthOfType dom j = nthOfType dom e) := by
  unfold stepOf at h
  by_cases h1 : idAt dom e ≠ []
  · rw [if_pos h1] at h
    simp only [stepMatches, Bool.and_eq_true, decide_eq_true_eq] at h
    exact ⟨h.1.1.1, h.1.1.2, fun _ => h.2, fun h0 => absurd h0 h1⟩
  · rw [if_neg h1] at h
    by_cases h2 : nthOfType dom e ≠ 1
    · rw [if_pos h2] at h
      simp only [stepMatches, Bool.and_eq_true, decide_eq_true_eq] at h
      exact ⟨h.1.1, h.1.2, fun h0 => absurd h0 h1, fun _ _ => h.2⟩
    · rw [if_neg h2] at h
      simp only [stepMatches, Bool.and_eq_true, decide_eq_true_eq] at h
      exact ⟨h.1, h.2, fun h0 => absurd h0 h1, fun _ h3 => absurd h3 h2⟩

theorem uniqueIds_spec (dom : List DomNode) (h : uniqueIds dom = true) (i j : Nat)
    (hi : isElementAt dom i = true) (hj : isElementAt dom j = true) (hne : idAt dom i ≠ [])
    (heq : idAt dom i = idAt dom j) : i = j := by
  unfold uniqueIds at h
  have := List.all_eq_true.mp
    (List.all_eq_true.mp h i (List.mem_range.mpr (isElementAt_lt dom i hi))) j
    (List.mem_range.mpr (isElementAt_lt dom j hj))
  have hne2 : idAt dom j ≠ [] := heq ▸ hne
  simpa [hi, hj, heq, hne2] using this

theorem rootTagUnique_spec (dom : List DomNode) (h : rootTagUnique dom = true) (i j : Nat)
    (hi : isElementAt dom i = true) (hp : parentOf dom i = none)
    (hj : isElementAt dom j = true) (ht : tagAt dom j = tagAt dom i) : i = j := by
  unfold rootTagUnique at h
  have := List.all_eq_true.mp
    (List.all_eq_true.mp h i (List.mem_range.mpr (isElementAt_lt dom i hi))) j
    (List.mem_range.mpr (isElementAt_lt dom j hj))
  simpa [hi, hj, hp, ht] using this

theorem climb_some (dom : List DomNode) (h : parentsFirst dom = true) :
    ∀ (fuel el : Nat), el < fuel → ∃ c, climb dom fuel el = some c := by
  intro fuel
  induction fuel with
  | zero => intro el hlt; omega
  | succ f ih =>
    intro el hlt
    rw [climb]
    by_cases he : isElementAt dom el = true
    · rw [if_pos he]
      by_cases hid : idAt dom el ≠ []
      · rw [if_pos hid]; exact ⟨_, rfl⟩
      · rw [if_neg hid]
        cases hp : parentOf dom el with
        | none => exact ⟨_, rfl⟩
        | some p =>
          have := parentsFirst_spec dom h el p hp
          obtain ⟨c, hc⟩ := ih p (by omega)
          exact ⟨el :: c, by simp [hc]⟩
    · rw [if_neg he]; exact ⟨_, rfl⟩

/-- The chain of elements `getCssSelector` climbs from `el`, and the elements its path
matches: `el` itself, or elements that come after the whole subtree of `el`. -/
theorem climb_spec (dom : List DomNode) (hwf : wellFormed dom = true)
    (hids : uniqueIds dom = true) (hroot : rootTagUnique dom = true) :
    ∀ (fuel el : Nat) (c : List Nat), climb dom fuel el = some c →
      isElementAt dom el = true →
      c.head? = some el ∧
      matchesRev dom (c.map (stepOf dom)) el = true ∧
      (∀ j, matchesRev dom (c.map (stepOf dom)) j = true →
        j = el ∨ ∀ d, Desc dom el d → d < j) ∧
      List.Chain' (fun b a => parentOf dom b = some a) c ∧
      (∀ a, c.getLast? = some a → idAt dom a ≠ [] ∨ parentOf dom a = none) ∧
      (∀ a ∈ c.dropLast, idAt dom a = []) := by
  have hpf := wellFormed_parentsFirst dom hwf
  intro fuel
  induction fuel with
  | zero => intro el c h; exact Option.noConfusion h
  | succ f ih =>
    intro el c h hel
    rw [climb, if_pos hel] at h
    by_cases hid : idAt dom el ≠ []
    · rw [if_pos hid] at h
      have hc : c = [el] := (Option.some.inj h).symm
      subst hc
      refine ⟨rfl, ?_, ?_, List.chain'_singleton _, ?_, ?_⟩
      · simpa [matchesRev] using stepMatches_stepOf_self dom el hel
      · intro j hj
        left
        have hj2 : stepMatches dom (stepOf dom el) j = true := by simpa [matchesRev] using hj
        obtain ⟨h1, _, h3, _⟩ := stepMatches_stepOf dom el j hj2
        exact (uniqueIds_spec dom hids el j hel h1 hid (h3 hid).symm).symm
      · intro a ha
        simp only [List.getLast?_singleton, Option.some.injEq] at ha
        subst ha
        exact Or.inl hid
      · intro a ha; simp at ha
    · rw [if_neg hid] at h
      have hid0 : idAt dom el = [] := by simpa using hid
      cases hp : parentOf dom el with
      | none =>
        rw [hp] at h
        dsimp only at h
        have hc : c = [el] := (Option.some.inj h).symm
        subst hc
        refine ⟨rfl, ?_, ?_, List.chain'_singleton _, ?_, ?_⟩
        · simpa [matchesRev] using stepMatches_stepOf_self dom el hel
        · intro j hj
          left
          have hj2 : stepMatches dom (stepOf dom el) j = true := by simpa [matchesRev] using hj
          obtain ⟨h1, h2, _, _⟩ := stepMatches_stepOf dom el j hj2
          exact (rootTagUnique_spec dom hroot el j hel hp h1 h2).symm
        · intro a ha
          simp only [List.getLast?_singleton, Option.some.injEq] at ha
          subst ha
          exact Or.inr hp
        · intro a ha; simp at ha
      | some p =>
        rw [hp] at h
        dsimp only at h
        cases hc1 : climb dom f p with
        | none => rw [hc1] at h; exact Option.noConfusion h
        | some c1 =>
          rw [hc1] at h
          have hc : c = el :: c1 := (Option.some.inj h).symm
          subst hc
          have hpel := parent_isElement dom hwf el p hp
          obtain ⟨i1, i2, i3, i4, i5, i6⟩ := ih p c1 hc1 hpel
          obtain ⟨rest, hrest⟩ : ∃ rest, c1 = p :: rest := by
            cases c1 with
            | nil => simp at i1
            | cons a rest =>
              simp only [List.head?_cons, Option.some.injEq] at i1
              exact ⟨rest, by rw [i1]⟩
          subst hrest
          refine ⟨rfl, ?_, ?_, ?_, ?_, ?_⟩
          · simp only [List.map_cons, matchesRev, hp, Bool.and_eq_true]
            exact ⟨stepMatches_stepOf_self dom el hel, by simpa using i2⟩
          · intro j hj
            simp only [List.map_cons, matchesRev, Bool.and_eq_true] at hj
            obtain ⟨hj1, hj2⟩ := hj
            cases hq : parentOf dom j with
            | none => rw [hq] at hj2; exact Bool.noConfusion hj2
            | some q =>
              rw [hq] at hj2
              have hqj := parentsFirst_spec dom hpf j q hq
              rcases i3 q (by simpa using hj2) with hqp | hbeyond
              · subst hqp
                obtain ⟨h1, h2, _, h4⟩ := stepMatches_stepOf dom el j hj1
                rcases Nat.lt_trichotomy j el with hlt | heq | hgt
                · exfalso
                  by_cases hn : nthOfType dom el ≠ 1
                  · have := nthOfType_lt dom j el hlt h1 (by rw [hq, hp]) h2
                    have := h4 hid0 hn
                    omega
                  · exact hn (nthOfType_ne_one_of_before dom el j hlt h1 (by rw [hq, hp]) h2)
                · exact Or.inl heq
                · exact Or.inr (subtree_before_sibling dom hwf el j q hp hq hgt)
              · right
                intro d hd
                have := hbeyond d (desc_trans dom p el d (Desc.step el p hp Desc.refl) hd)
                omega
          · exact List.chain'_cons.mpr ⟨hp, i4⟩
          · intro a ha
            exact i5 a (by simpa using ha)
          · intro a ha
            rw [List.dropLast_cons₂] at ha
            rcases List.mem_cons.mp ha with ha | ha
            · rw [ha]; exact hid0
            · exact i6 a ha


/-! ## Lemmas on selector texts -/

theorem ascii_forall (P : Char → Bool) (h : ∀ n, n < 128 → P (Char.ofNat n) = true) (c : Char)
    (hc : c.toNat < 128) : P c = true := by
  have := h c.toNat hc
  rwa [Char.ofNat_toNat] at this

theorem toNat_lt_of_isNameChar (c : Char) (h : isNameChar c = true) : c.toNat < 128 := by
  simp only [isNameChar, Char.isAlphanum, Char.isAlpha, Char.isUpper, Char.isLower, Char.isDigit,
    Bool.or_eq_true, Bool.and_eq_true, decide_eq_true_eq] at h
  rcases h with ((((h | h) | h) | h) | h)
  · have := h.2
    simp only [UInt32.le_def, Fin.le_def] at this
    exact Nat.lt_of_le_of_lt this (by decide)
  · have := h.2
    simp only [UInt32.le_def, Fin.le_def] at this
    exact Nat.lt_of_le_of_lt this (by decide)
  · have := h.2
    simp only [UInt32.le_def, Fin.le_def] at this
    exact Nat.lt_of_le_of_lt this (by decide)
  · subst h; decide
  · subst h; decide

set_option maxRecDepth 100000 in
theorem lower_facts_ascii : ∀ n, n < 128 →
    (!isNameChar (Char.ofNat n) ||
      (isNameChar (Char.ofNat n).toLower &&
        decide ((Char.ofNat n).toLower.toLower = (Char.ofNat n).toLower) &&
        (!(Char.ofNat n).isAlpha || (Char.ofNat n).toLower.isAlpha))) = true := by
  decide

theorem lower_facts (c : Char) (h : isNameChar c = true) :
    isNameChar c.toLower = true ∧ c.toLower.toLower = c.toLower ∧
      (c.isAlpha = true → c.toLower.isAlpha = true) := by
  have := ascii_forall
    (fun c => !isNameChar c ||
      (isNameChar c.toLower && decide (c.toLower.toLower = c.toLower) &&
        (!c.isAlpha || c.toLower.isAlpha)))
    lower_facts_ascii c (toNat_lt_of_isNameChar c h)
  simp only [h, Bool.not_true, Bool.false_or, Bool.and_eq_true, decide_eq_true_eq,
    Bool.or_eq_true, Bool.not_eq_true'] at this
  refine ⟨this.1.1, this.1.2, fun ha => ?_⟩
  rcases this.2 with h2 | h2
  · rw [ha] at h2; exact Bool.noConfusion h2
  · exact h2

theorem escapes_facts : ∀ d ∈ idEscapes,
    isNameChar d = false ∧ isHexDigit d = false ∧ isCssNewline d = false ∧
      d ≠ backslash ∧ d ≠ '-' := by
  decide

theorem readName_cons_name (c : Char) (l : Str) (h : isNameChar c = true) :
    readName (c :: l) = (c :: (readName l).1, (readName l).2) := by
  cases l with
  | nil => simp [readName, h]
  | cons d rest => simp [readName, h]

theorem readName_cons_escape (d : Char) (l : Str) (h : d ∈ idEscapes) :
    readName (backslash :: d :: l) = (d :: (readName l).1, (readName l).2) := by
  obtain ⟨_, h2, h3, _, _⟩ := escapes_facts d h
  have hb : isNameChar backslash = false := by decide
  simp [readName, hb, h2, h3]

theorem readName_stop (l : Str)
    (h : ∀ c rest, l = c :: rest → isNameChar c = false ∧ c ≠ backslash) :
    readName l = ([], l) := by
  cases l with
  | nil => rfl
  | cons c rest =>
    obtain ⟨h1, h2⟩ := h c rest rfl
    cases rest with
    | nil => simp [readName, h1]
    | cons d rest2 => simp [readName, h1, h2]

theorem readName_append_names (rest : Str) :
    ∀ (t : Str), (∀ c ∈ t, isNameChar c = true) →
      readName (t ++ rest) = (t ++ (readName rest).1, (readName rest).2) := by
  intro t
  induction t with
  | nil => intro _; rfl
  | cons c t ih =>
    intro h
    rw [List.cons_append, readName_cons_name c _ (h c (List.mem_cons_self _ _)),
      ih (fun x hx => h x (List.mem_cons_of_mem _ hx))]
    rfl

theorem escapeId_cons (c : Char) (l : Str) :
    escapeId (c :: l) = (if idEscapes.contains c then [backslash, c] else [c]) ++ escapeId l := by
  simp [escapeId]

theorem readName_escapeId (rest : Str) :
    ∀ (ident : Str), (∀ c ∈ ident, (isNameChar c || idEscapes.contains c) = true) →
      readName (escapeId ident ++ rest) = (ident ++ (readName rest).1, (readName rest).2) := by
  intro ident
  induction ident with
  | nil => intro _; rfl
  | cons c l ih =>
    intro h
    have ihl := ih (fun x hx => h x (List.mem_cons_of_mem _ hx))
    rw [escapeId_cons]
    by_cases hc : idEscapes.contains c = true
    · rw [if_pos hc]
      have hmem : c ∈ idEscapes := by simpa using hc
      simp only [List.cons_append, List.nil_append]
      rw [readName_cons_escape c _ hmem, ihl]
    · rw [if_neg hc]
      have hn : isNameChar c = true := by
        have := h c (List.mem_cons_self _ _)
        rw [Bool.or_eq_true] at this
        rcases this with h1 | h1
        · exact h1
        · exact absurd h1 hc
      simp only [List.cons_append, List.nil_append]
      rw [readName_cons_name c _ hn, ihl]

theorem readName_boundary (rest : Str) (hb : rest = [] ∨ ∃ r, rest = ' ' :: r) :
    readName rest = ([], rest) := by
  apply readName_stop
  intro c r hc
  rcases hb with hb | ⟨r2, hb⟩
  · rw [hb] at hc; exact List.noConfusion hc
  · rw [hb] at hc
    have : c = ' ' := (List.cons.inj hc).1.symm
    subst this
    decide

theorem startsIdent_of_alpha (c : Char) (l : Str) (h : c.isAlpha = true) :
    startsIdent (c :: l) = true := by
  have hne : c ≠ '-' := by
    intro hc
    subst hc
    exact absurd h (by decide)
  simp [startsIdent, hne, isNameStart, h]

theorem startsIdent_escapeId (rest : Str) (ident : Str) (hne : ident ≠ [])
    (h : isSafeId ident = true) : startsIdent (escapeId ident ++ rest) = true := by
  have hbs : backslash ≠ '-' := by decide
  have hbn : isNameStart backslash = false := by decide
  cases ident with
  | nil => exact absurd rfl hne
  | cons c l =>
    unfold isSafeId at h
    rw [Bool.and_eq_true] at h
    obtain ⟨h1, _⟩ := h
    rw [escapeId_cons]
    by_cases hc : c = '-'
    · subst hc
      rw [if_pos rfl] at h1
      have hnot : idEscapes.contains '-' = false := by decide
      rw [if_neg (by rw [hnot]; exact Bool.false_ne_true)]
      cases l with
      | nil => exact Bool.noConfusion h1
      | cons d l2 =>
        dsimp only at h1
        rw [escapeId_cons]
        by_cases hd : idEscapes.contains d = true
        · rw [if_pos hd]
          have hmem : d ∈ idEscapes := by simpa using hd
          obtain ⟨_, _, h3, _, _⟩ := escapes_facts d hmem
          simp [startsIdent, startsEscape, h3]
        · rw [if_neg hd]
          have hd0 : idEscapes.contains d = false := by simpa using hd
          rw [hd0, Bool.or_false] at h1
          simp only [List.cons_append, List.nil_append, startsIdent, if_true]
          rw [Bool.or_eq_true]
          exact Or.inl h1
    · rw [if_neg hc] at h1
      by_cases hd : idEscapes.contains c = true
      · rw [if_pos hd]
        have hmem : c ∈ idEscapes := by simpa using hd
        obtain ⟨_, _, h3, _, _⟩ := escapes_facts c hmem
        simp [startsIdent, startsEscape, h3, hbs, hbn]
      · rw [if_neg hd]
        have hd0 : idEscapes.contains c = false := by simpa using hd
        rw [hd0, Bool.or_false] at h1
        simp [startsIdent, hc, h1]

/-! ### Numbers -/

theorem digitChar_facts : ∀ d, d < 10 →
    (digitChar d).isDigit = true ∧ (digitChar d).toNat - 48 = d := by
  decide

theorem decimalLoop_append :
    ∀ (fuel n : Nat) (acc : Str), decimalLoop fuel n acc = decimalLoop fuel n [] ++ acc := by
  intro fuel
  induction fuel with
  | zero => intro n acc; rfl
  | succ f ih =>
    intro n acc
    rw [decimalLoop, decimalLoop]
    by_cases h : n < 10
    · rw [if_pos h, if_pos h]; rfl
    · rw [if_neg h, if_neg h, ih (n / 10) (digitChar (n % 10) :: acc),
        ih (n / 10) [digitChar (n % 10)]]
      simp

theorem digitsValue_append_singleton (ds : Str) (c : Char) :
    digitsValue (ds ++ [c]) = digitsValue ds * 10 + (c.toNat - 48) := by
  simp [digitsValue, List.foldl_append]

theorem decimalLoop_spec :
    ∀ (fuel n : Nat), n < fuel →
      (∀ c ∈ decimalLoop fuel n [], c.isDigit = true) ∧
      digitsValue (decimalLoop fuel n []) = n ∧ decimalLoop fuel n [] ≠ [] := by
  intro fuel
  induction fuel with
  | zero => intro n h; omega
  | succ f ih =>
    intro n hn
    rw [decimalLoop]
    by_cases h : n < 10
    · rw [if_pos h]
      obtain ⟨h1, h2⟩ := digitChar_facts n h
      refine ⟨?_, ?_, List.cons_ne_nil _ _⟩
      · intro c hc
        rw [List.mem_singleton.mp hc]; exact h1
      · simp [digitsValue, h2]
    · rw [if_neg h, decimalLoop_append]
      have hlt : n / 10 < f := by omega
      obtain ⟨i1, i2, _⟩ := ih (n / 10) hlt
      obtain ⟨h1, h2⟩ := digitChar_facts (n % 10) (Nat.mod_lt _ (by decide))
      refine ⟨?_, ?_, ?_⟩
      · intro c hc
        rcases List.mem_append.mp hc with hc | hc
        · exact i1 c hc
        · rw [List.mem_singleton.mp hc]; exact h1
      · rw [digitsValue_append_singleton, i2, h2]
        omega
      · simp

theorem decimal_spec (n : Nat) :
    (∀ c ∈ decimal n, c.isDigit = true) ∧ digitsValue (decimal n) = n ∧ decimal n ≠ [] :=
  decimalLoop_spec (n + 1) n (Nat.lt_succ_self n)

theorem readDigits_append (rest : Str)
    (hrest : ∀ c r, rest = c :: r → c.isDigit = false) :
    ∀ (ds : Str), (∀ c ∈ ds, c.isDigit = true) → readDigits (ds ++ rest) = (ds, rest) := by
  intro ds
  induction ds with
  | nil =>
    intro _
    cases rest with
    | nil => rfl
    | cons c r => simp [readDigits, hrest c r rfl]
  | cons c ds ih =>
    intro h
    rw [List.cons_append, readDigits, if_pos (h c (List.mem_cons_self _ _)),
      ih (fun x hx => h x (List.mem_cons_of_mem _ hx))]

/-! ### Compound selectors and paths -/

theorem parseCompound_tag (t rest : Str) (ht : LowName t)
    (hb : rest = [] ∨ ∃ r, rest = ' ' :: r) :
    parseCompound (t ++ rest) = some (Step.tag t, rest) := by
  obtain ⟨⟨c, l, hcl, hc⟩, hall, hlow⟩ := ht
  have hstart : startsIdent (t ++ rest) = true := by
    rw [hcl, List.cons_append]; exact startsIdent_of_alpha c _ hc
  have hread : readName (t ++ rest) = (t, rest) := by
    rw [readName_append_names rest t hall, readName_boundary rest hb]
    simp
  unfold parseCompound
  rw [if_pos hstart, hread]
  rcases hb with hb | ⟨r, hb⟩
  · subst hb; simp [hlow]
  · subst hb; simp [hlow]

theorem parseCompound_tagId (t ident rest : Str) (ht : LowName t)
    (hid : isSafeId ident = true) (hne : ident ≠ [])
    (hb : rest = [] ∨ ∃ r, rest = ' ' :: r) :
    parseCompound (t ++ '#' :: (escapeId ident ++ rest)) = some (Step.tagId t ident, rest) := by
  obtain ⟨⟨c, l, hcl, hc⟩, hall, hlow⟩ := ht
  have hstart : startsIdent (t ++ '#' :: (escapeId ident ++ rest)) = true := by
    rw [hcl, List.cons_append]; exact startsIdent_of_alpha c _ hc
  have hread : readName (t ++ '#' :: (escapeId ident ++ rest)) =
      (t, '#' :: (escapeId ident ++ rest)) := by
    rw [readName_append_names _ t hall,
      readName_stop ('#' :: (escapeId ident ++ rest))
        (fun x r hx => by
          have : x = '#' := (List.cons.inj hx).1.symm
          subst this
          decide)]
    simp
  have hchars : ∀ x ∈ ident, (isNameChar x || idEscapes.contains x) = true := by
    cases ident with
    | nil => exact absurd rfl hne
    | cons a l2 =>
      unfold isSafeId at hid
      rw [Bool.and_eq_true] at hid
      exact List.all_eq_true.mp hid.2
  have hread2 : readName (escapeId ident ++ rest) = (ident, rest) := by
    rw [readName_escapeId rest ident hchars, readName_boundary rest hb]
    simp
  unfold parseCompound
  rw [if_pos hstart, hread]
  simp only
  rw [if_pos (startsIdent_escapeId rest ident hne hid), hread2, hlow]

theorem parseCompound_tagNth (t : Str) (n : Nat) (rest : Str) (ht : LowName t) :
    parseCompound (t ++ (":nth-of-type(".toList ++ decimal n ++ [')']) ++ rest) =
      some (Step.tagNth t n, rest) := by
  obtain ⟨⟨c, l, hcl, hc⟩, hall, hlow⟩ := ht
  obtain ⟨d1, d2, d3⟩ := decimal_spec n
  have hshape : t ++ (":nth-of-type(".toList ++ decimal n ++ [')']) ++ rest =
      t ++ ':' :: ("nth-of-type(".toList ++ (decimal n ++ ')' :: rest)) := by
    simp
  have hstart : startsIdent (t ++ ':' :: ("nth-of-type(".toList ++ (decimal n ++ ')' :: rest)))
      = true := by
    rw [hcl, List.cons_append]; exact startsIdent_of_alpha c _ hc
  have hread : readName (t ++ ':' :: ("nth-of-type(".toList ++ (decimal n ++ ')' :: rest))) =
      (t, ':' :: ("nth-of-type(".toList ++ (decimal n ++ ')' :: rest))) := by
    rw [readName_append_names _ t hall,
      readName_stop (':' :: ("nth-of-type(".toList ++ (decimal n ++ ')' :: rest)))
        (fun x r hx => by
          have : x = ':' := (List.cons.inj hx).1.symm
          subst this
          decide)]
    simp
  have hpre : "nth-of-type(".toList.isPrefixOf
      ("nth-of-type(".toList ++ (decimal n ++ ')' :: rest)) = true := by
    rw [List.isPrefixOf_iff_prefix]
    exact List.prefix_append _ _
  have hdrop : ("nth-of-type(".toList ++ (decimal n ++ ')' :: rest)).drop 12 =
      decimal n ++ ')' :: rest := by
    have h12 : "nth-of-type(".toList.length = 12 := by decide
    rw [← h12, List.drop_left]
  have hdig : readDigits (decimal n ++ ')' :: rest) = (decimal n, ')' :: rest) :=
    readDigits_append (')' :: rest)
      (fun x r hx => by
        have : x = ')' := (List.cons.inj hx).1.symm
        subst this
        decide)
      (decimal n) d1
  rw [hshape]
  unfold parseCompound
  rw [if_pos hstart, hread]
  simp only
  rw [if_pos hpre, hdrop, hdig]
  cases hdec : decimal n with
  | nil => exact absurd hdec d3
  | cons a ds =>
    simp only
    rw [← hdec, d2, hlow]

theorem parseCompound_stepText (st : Step) (rest : Str) (hs : SafeStep st)
    (hb : rest = [] ∨ ∃ r, rest = ' ' :: r) :
    parseCompound (stepText st ++ rest) = some (st, rest) := by
  cases st with
  | tag t => exact parseCompound_tag t rest hs hb
  | tagId t ident =>
    have := parseCompound_tagId t ident rest hs.1 hs.2.1 hs.2.2 hb
    simpa [stepText] using this
  | tagNth t n => exact parseCompound_tagNth t n rest hs

theorem parseSteps_join :
    ∀ (steps : List Step) (fuel : Nat), steps ≠ [] → steps.length ≤ fuel →
      (∀ st ∈ steps, SafeStep st) →
      parseSteps fuel (join " > ".toList (steps.map stepText)) = some steps := by
  intro steps
  induction steps with
  | nil => intro fuel h; exact absurd rfl h
  | cons st more ih =>
    intro fuel _ hlen hsafe
    cases fuel with
    | zero => simp at hlen
    | succ f =>
      have hst := hsafe st (List.mem_cons_self _ _)
      cases more with
      | nil =>
        have := parseCompound_stepText st [] hst (Or.inl rfl)
        rw [List.append_nil] at this
        simp [join, parseSteps, this]
      | cons st2 more2 =>
        have hrest : parseSteps f (join " > ".toList ((st2 :: more2).map stepText)) =
            some (st2 :: more2) :=
          ih f (List.cons_ne_nil _ _) (by simp only [List.length_cons] at hlen ⊢; omega)
            (fun x hx => hsafe x (List.mem_cons_of_mem _ hx))
        have hjoin : join " > ".toList ((st :: st2 :: more2).map stepText) =
            stepText st ++
              (' ' :: '>' :: ' ' :: join " > ".toList ((st2 :: more2).map stepText)) := by
          simp [join]
        have := parseCompound_stepText st
          (' ' :: '>' :: ' ' :: join " > ".toList ((st2 :: more2).map stepText)) hst
          (Or.inr ⟨_, rfl⟩)
        rw [hjoin, parseSteps, this]
        simp only
        rw [hrest]
        rfl

theorem stepText_ne_nil (st : Step) (hs : SafeStep st) : stepText st ≠ [] := by
  cases st with
  | tag t =>
    obtain ⟨⟨c, l, hcl, _⟩, _, _⟩ := hs
    simp [stepText, hcl]
  | tagId t ident => simp [stepText]
  | tagNth t n => simp [stepText]

theorem length_le_join (sep : Str) :
    ∀ (xs : List Str), (∀ x ∈ xs, x ≠ []) → xs.length ≤ (join sep xs).length := by
  intro xs
  induction xs with
  | nil => intro _; exact Nat.le_refl _
  | cons x rest ih =>
    intro h
    have hx : 0 < x.length := List.length_pos.mpr (h x (List.mem_cons_self _ _))
    cases rest with
    | nil => simp only [join, List.length_singleton]; omega
    | cons y more =>
      have := ih (fun z hz => h z (List.mem_cons_of_mem _ hz))
      simp only [join, List.length_append, List.length_cons] at this ⊢
      omega

theorem parseSelector_join (steps : List Step) (hne : steps ≠ [])
    (hsafe : ∀ st ∈ steps, SafeStep st) :
    parseSelector (join " > ".toList (steps.map stepText)) = some steps := by
  unfold parseSelector
  apply parseSteps_join steps _ hne _ hsafe
  have := length_le_join " > ".toList (steps.map stepText)
    (fun x hx => by
      obtain ⟨st, hst, rfl⟩ := List.mem_map.mp hx
      exact stepText_ne_nil st (hsafe st hst))
  rw [List.length_map] at this
  omega

/-! ### The path of an element -/

theorem getCssSelectorLoop_eq (dom : List DomNode) :
    ∀ (fuel el : Nat) (path : List Str),
      getCssSelectorLoop dom fuel el path =
        (climb dom fuel el).map fun c =>
          c.reverse.map (fun a => stepText (stepOf dom a)) ++ path := by
  intro fuel
  induction fuel with
  | zero => intro el path; rfl
  | succ f ih =>
    intro el path
    rw [getCssSelectorLoop, climb]
    cases hd : dom[el]? with
    | none => simp [isElementAt, hd]
    | some e =>
      have h1 : isElementAt dom el = decide (e.nodeType = 1) := by simp [isElementAt, hd]
      have h2 : idAt dom el = e.id := by simp [idAt, hd]
      have h3 : tagAt dom el = toLowerCase e.nodeName := by simp [tagAt, hd]
      have h4 : parentOf dom el = e.parentNode := by simp [parentOf, hd]
      simp only [h1, h2, h4, decide_eq_true_eq]
      by_cases ht : e.nodeType = 1
      · rw [if_pos ht, if_pos ht]
        by_cases hid : e.id ≠ []
        · rw [if_pos hid, if_pos hid]
          simp [stepOf, stepText, h2, h3, hid]
        · rw [if_neg hid, if_neg hid]
          have hstep : stepText (stepOf dom el) =
              if nthOfType dom el ≠ 1 then
                toLowerCase e.nodeName ++
                  (":nth-of-type(".toList ++ decimal (nthOfType dom el) ++ [')'])
              else toLowerCase e.nodeName := by
            unfold stepOf
            rw [h2, h3, if_neg hid]
            by_cases hn : nthOfType dom el ≠ 1
            · rw [if_pos hn, if_pos hn]; rfl
            · rw [if_neg hn, if_neg hn]; rfl
          cases hp : e.parentNode with
          | none => simp [hstep]
          | some p =>
            simp only
            rw [ih, ← hstep]
            cases climb dom f p with
            | none => rfl
            | some c => simp
      · rw [if_neg ht, if_neg ht]
        simp

theorem containsAux_of_desc (dom : List DomNode) (h : parentsFirst dom = true) (a : Nat) :
    ∀ (fuel i : Nat), i ≤ fuel → Desc dom a i → containsAux dom a fuel i = true := by
  intro fuel
  induction fuel with
  | zero =>
    intro i hi hd
    cases hd with
    | refl => simp [containsAux]
    | step _ p hp _ =>
      have := parentsFirst_spec dom h i p hp
      omega
  | succ f ih =>
    intro i hi hd
    cases hd with
    | refl => simp [containsAux]
    | step _ p hp hd2 =>
      have := parentsFirst_spec dom h i p hp
      simp only [containsAux, hp, Bool.or_eq_true, decide_eq_true_eq]
      exact Or.inr (ih p (by omega) hd2)

theorem contains_of_desc (dom : List DomNode) (h : parentsFirst dom = true) (a i : Nat)
    (hd : Desc dom a i) : contains dom a i = true := by
  cases hd with
  | refl =>
    unfold contains
    cases dom.length with
    | zero => simp [containsAux]
    | succ n => simp [containsAux]
  | step _ p hp hd2 =>
    have hi : i < dom.length := by
      by_contra hn
      unfold parentOf at hp
      rw [List.getElem?_eq_none (Nat.le_of_not_lt hn)] at hp
      exact Option.noConfusion hp
    exact containsAux_of_desc dom h a dom.length i (Nat.le_of_lt hi) (Desc.step i p hp hd2)

theorem chain_desc (dom : List DomNode) :
    ∀ (c : List Nat) (el : Nat), c.head? = some el →
      List.Chain' (fun b a => parentOf dom b = some a) c → ∀ a ∈ c, Desc dom a el := by
  intro c
  induction c with
  | nil => intro el h; exact Option.noConfusion h
  | cons x rest ih =>
    intro el hhead hchain a ha
    have hx : x = el := by simpa using hhead
    subst hx
    rcases List.mem_cons.mp ha with ha | ha
    · rw [ha]; exact Desc.refl
    · cases rest with
      | nil => simp at ha
      | cons p rest2 =>
        rw [List.chain'_cons] at hchain
        exact Desc.step x p hchain.1 (ih p rfl hchain.2 a ha)

theorem lowName_tagAt (dom : List DomNode) (a : Nat)
    (h : isSafeName (nodeNameAt dom a) = true) : LowName (tagAt dom a) := by
  have htag : tagAt dom a = toLowerCase (nodeNameAt dom a) := by
    unfold tagAt nodeNameAt
    cases dom[a]? with
    | none => rfl
    | some e => rfl
  rw [htag]
  simp only [isSafeName, Bool.and_eq_true] at h
  obtain ⟨⟨h1, h2⟩, _⟩ := h
  have hall : ∀ c ∈ nodeNameAt dom a, isNameChar c = true := List.all_eq_true.mp h2
  refine ⟨?_, ?_, ?_⟩
  · cases hn : nodeNameAt dom a with
    | nil => rw [hn] at h1; exact Bool.noConfusion h1
    | cons c l =>
      rw [hn] at h1 hall
      exact ⟨c.toLower, l.map Char.toLower, rfl,
        (lower_facts c (hall c (List.mem_cons_self _ _))).2.2 h1⟩
  · intro c hc
    obtain ⟨x, hx, rfl⟩ := List.mem_map.mp hc
    exact (lower_facts x (hall x hx)).1
  · unfold toLowerCase
    rw [List.map_map]
    apply List.map_congr_left
    intro x hx
    exact (lower_facts x (hall x hx)).2.1

theorem safeStep_stepOf (dom : List DomNode) (a : Nat)
    (hname : isSafeName (nodeNameAt dom a) = true) (hid : isSafeId (idAt dom a) = true) :
    SafeStep (stepOf dom a) := by
  have hlow := lowName_tagAt dom a hname
  unfold stepOf
  by_cases h1 : idAt dom a ≠ []
  · rw [if_pos h1]; exact ⟨hlow, hid, h1⟩
  · rw [if_neg h1]
    by_cases h2 : nthOfType dom a ≠ 1
    · rw [if_pos h2]; exact hlow
    · rw [if_neg h2]; exact hlow

theorem pathSafe_spec (dom : List DomNode) (el a : Nat) (h : pathSafe dom el = true)
    (ha : a < dom.length) (hc : contains dom a el = true) :
    isSafeName (nodeNameAt dom a) = true ∧ isSafeId (idAt dom a) = true := by
  have := List.all_eq_true.mp h a (List.mem_range.mpr ha)
  rw [hc] at this
  simpa using this

theorem getCssSelector_resolves_to_element (dom : List DomNode) (fuel el : Nat)
    (hwf : wellFormed dom = true) (hids : uniqueIds dom = true)
    (hroot : rootTagUnique dom = true) (hsafe : pathSafe dom el = true)
    (hel : isElementAt dom el = true) (hfuel : el < fuel) :
    ∃ chain : List Nat,
      getCssSelector dom fuel el =
        some (join " > ".toList (chain.reverse.map fun a => stepText (stepOf dom a))) ∧
      parseSelector (join " > ".toList (chain.reverse.map fun a => stepText (stepOf dom a))) =
        some (chain.reverse.map (stepOf dom)) ∧
      querySelectorOfText dom
        (join " > ".toList (chain.reverse.map fun a => stepText (stepOf dom a))) = some el ∧
      chain.head? = some el ∧
      List.Chain' (fun b a => parentOf dom b = some a) chain ∧
      (∀ a, chain.getLast? = some a → idAt dom a ≠ [] ∨ parentOf dom a = none) ∧
      (∀ a ∈ chain.dropLast, idAt dom a = []) := by
  have hpf := wellFormed_parentsFirst dom hwf
  obtain ⟨c, hc⟩ := climb_some dom hpf fuel el hfuel
  obtain ⟨h1, h2, h3, h4, h5, h6⟩ := climb_spec dom hwf hids hroot fuel el c hc hel
  have hquery : documentQuerySelector dom (c.reverse.map (stepOf dom)) = some el := by
    unfold documentQuerySelector
    have hrev : (c.reverse.map (stepOf dom)).reverse = c.map (stepOf dom) := by
      rw [← List.map_reverse, List.reverse_reverse]
    apply find?_range_of_first _ _ _ (isElementAt_lt dom el hel)
    · unfold elementMatches; rw [hrev]; exact h2
    · intro j hj
      by_contra hm
      have hm1 : matchesRev dom (c.map (stepOf dom)) j = true := by
        unfold elementMatches at hm; rw [hrev] at hm; simpa using hm
      rcases h3 j hm1 with h | h
      · omega
      · have := h el Desc.refl
        omega
  have hcne : c.reverse.map (stepOf dom) ≠ [] := by
    cases c with
    | nil => exact Option.noConfusion h1
    | cons x rest => simp
  have hsteps : ∀ st ∈ c.reverse.map (stepOf dom), SafeStep st := by
    intro st hst
    obtain ⟨a, ha, rfl⟩ := List.mem_map.mp hst
    have hac : a ∈ c := List.mem_reverse.mp ha
    have hdesc := chain_desc dom c el h1 h4 a hac
    have hle := desc_le dom hpf a el hdesc
    have hlt := isElementAt_lt dom el hel
    obtain ⟨s1, s2⟩ := pathSafe_spec dom el a hsafe (by omega)
      (contains_of_desc dom hpf a el hdesc)
    exact safeStep_stepOf dom a s1 s2
  have htext : (c.reverse.map fun a => stepText (stepOf dom a)) =
      (c.reverse.map (stepOf dom)).map stepText := by
    rw [List.map_map]; rfl
  have hparse := parseSelector_join (c.reverse.map (stepOf dom)) hcne hsteps
  rw [← htext] at hparse
  refine ⟨c, ?_, hparse, ?_, h1, h4, h5, h6⟩
  · unfold getCssSelector
    rw [if_pos hel, getCssSelectorLoop_eq, hc]
    simp
  · unfold querySelectorOfText
    rw [hparse]
    exact hquery

/-! ## The claims -/

/-- C5: for a non-empty token, whatever characters it is made of, the pattern
`escapeRegExp(token)` compiles to the characters of the token as literals, and
`findMatches`, with enough fuel, returns exactly one match per leftmost
non-overlapping case-insensitive literal occurrence of the token in each accepted
node, the nodes in document order and the occurrences of a node from left to right,
the scan of every node starting at offset 0. -/
theorem findMatches_literal_occurrences (canon : Char → Char) (page : Page) (fuel : Nat)
    (texts : List Str) (token : Str) (selector : Selector) (hne : token ≠ [])
    (hfuel : ∀ n ∈ acceptedNodes page texts selector, (texts.getD n []).length < fuel) :
    compile (escapeRegExp token) = some (token.map Atom.lit) ∧
    findMatches canon page fuel texts token selector =
      some ((acceptedNodes page texts selector).flatMap fun n =>
        (leftmostOccurrences canon token (texts.getD n [])).map fun p =>
          (⟨n, p, p + token.length⟩ : Match)) ∧
    (acceptedNodes page texts selector).Pairwise (· < ·) ∧
    ∀ n, LeftmostNonOverlapping canon token (texts.getD n [])
      (leftmostOccurrences canon token (texts.getD n [])) :=
  ⟨compile_escapeRegExp token, findMatches_eq canon page fuel texts token selector hne hfuel,
    acceptedNodes_sorted page texts selector,
    fun n => leftmostOccurrences_spec canon token (texts.getD n []) hne⟩

/-- Witness of C5: the token `(x)` in the document of `formulaPage` is found three
times in the first paragraph, never in the script. -/
theorem findMatches_literal_occurrences_witness :
    findMatches asciiCanon formulaPage 20 formulaTexts "(x)".toList [] =
      some [⟨3, 1, 4⟩, ⟨3, 7, 10⟩, ⟨3, 10, 13⟩] :=
  (findMatches_literal_occurrences asciiCanon formulaPage 20 formulaTexts "(x)".toList []
    (by decide) (by decide)).2.1.trans (by decide)

/-- C8 as stated fails: on a page with an accepted text node `findMatches` with the
empty token returns for no amount of fuel. -/
theorem findMatches_empty_token_never_returns :
    ¬ ∃ fuel, findMatches asciiCanon paragraphPage fuel fooState.texts [] [] = some [] := by
  rintro ⟨fuel, h⟩
  rw [findMatches_nil_token] at h
  revert h
  decide

/-- C8, amended: the picker never captures an empty token, and `findMatches` with the
empty token returns the empty list when the walker accepts no text node under the root
and does not return otherwise. -/
theorem empty_token_guarded (canon : Char → Char) (page : Page) (fuel : Nat)
    (texts : List Str) (selector : Selector) (selection innerText : Str) :
    onClickToken selection innerText ≠ some [] ∧
    findMatches canon page fuel texts [] selector =
      if acceptedNodes page texts selector = [] then some [] else none :=
  ⟨onClickToken_ne_nil selection innerText, findMatches_nil_token canon page fuel texts selector⟩

/-- C9, the code at the failing input: with a rule of another site stored first, the
only row of `renderSaved` on `b.example` shows the rule of `b.example`, and its delete
button removes the rule of `a.example` and keeps the rule of the row. -/
theorem deleteRow_removes_rule_of_other_site :
    pageRules "b.example".toList [ruleOfA, ruleOfB] = [ruleOfB] ∧
    (deleteRow ⟨[], [ruleOfA, ruleOfB], none⟩ 0).rules = [ruleOfB] := by
  decide

/-- C1 as stated fails: with the snapshot of an earlier apply still retained, an apply
whose input is blank returns before it takes a snapshot, and the undo that follows
writes the older snapshot back, so that the paragraph that read `bar` before the
apply reads `foo` after the undo. -/
theorem undo_after_blank_apply_restores_older_snapshot :
    applyReplacement asciiCanon paragraphPage 10 fooState "bar".toList "foo".toList
        paragraphSelector = some barState ∧
    findMatches asciiCanon paragraphPage 10 barState.texts "bar".toList paragraphSelector =
        some [⟨3, 0, 3⟩] ∧
    (applyReplacement asciiCanon paragraphPage 10 barState " ".toList "bar".toList
        paragraphSelector).map (fun s => (undoLast s).texts) =
      some [[], [], [], "foo".toList] := by
  decide

/-- C1, amended: for a non-empty token and an input whose trimmed value is not empty,
`applyReplacement`, with enough fuel, returns, and `undoLast` right after it leaves
every node with the text it had before the apply and retains no snapshot. -/
theorem apply_then_undo_restores (canon : Char → Char) (page : Page) (fuel : Nat)
    (st : State) (input token : Str) (selector : Selector) (hin : trim input ≠ [])
    (htok : token ≠ [])
    (hfuel : ∀ n ∈ acceptedNodes page st.texts selector, (st.texts.getD n []).length < fuel) :
    ∃ st1, applyReplacement canon page fuel st input token selector = some st1 ∧
      (undoLast st1).texts = st.texts ∧ (undoLast st1).lastSnapshot = none :=
  apply_undo canon page fuel st input token selector hin htok hfuel

/-- Witness of C1: `foo` replaced by `bar` in the paragraph and undone. -/
theorem apply_then_undo_restores_witness :
    ∃ st1, applyReplacement asciiCanon paragraphPage 10 fooState "bar".toList "foo".toList
        paragraphSelector = some st1 ∧
      (undoLast st1).texts = fooState.texts ∧ (undoLast st1).lastSnapshot = none :=
  apply_then_undo_restores asciiCanon paragraphPage 10 fooState "bar".toList "foo".toList
    paragraphSelector (by decide) (by decide) (by decide)

/-- C2 as stated fails: an apply whose input is blank stores nothing, so that after one
apply on an empty rule list no rule with the triple exists. -/
theorem blank_apply_stores_no_rule :
    (applyEach asciiCanon paragraphPage 10 "foo".toList paragraphSelector [" ".toList]
        fooState).map State.rules = some [] := by
  decide

/-- C2, amended: every apply that returns keeps the rule list at one rule per triple;
and a run of one or more applies with the same non-empty token and the same scope,
each with an input whose trimmed value is not empty, returns with enough fuel and
leaves, on a list with one rule per triple, exactly one rule with the triple, which
holds the trimmed input of the last apply and sits where the triple sat first (last in
the list when it was new), every rule with another triple being kept in its order. -/
theorem applies_keep_one_rule_per_triple (canon : Char → Char) (page : Page) (st : State)
    (token : Str) (selector : Selector) (inputs : List Str) (final : Str)
    (htok : token ≠ []) (hin : ∀ i ∈ inputs ++ [final], trim i ≠ []) :
    (∀ fuel input st1,
        applyReplacement canon page fuel st input token selector = some st1 →
        UniqueTriples st.rules → UniqueTriples st1.rules) ∧
    ∃ fuel0 st1,
      (∀ fuel, fuel0 ≤ fuel →
        applyEach canon page fuel token selector (inputs ++ [final]) st = some st1) ∧
      (UniqueTriples st.rules →
        UniqueTriples st1.rules ∧
        st1.rules.filter (fun r => decide (ruleKey r = (page.hostname, selector, token))) =
          [⟨token, trim final, page.hostname, selector⟩]) ∧
      st1.rules[st.rules.findIdx
          fun r => decide (ruleKey r = (page.hostname, selector, token))]? =
        some ⟨token, trim final, page.hostname, selector⟩ ∧
      st1.rules.filter (fun r => decide (ruleKey r ≠ (page.hostname, selector, token))) =
        st.rules.filter (fun r => decide (ruleKey r ≠ (page.hostname, selector, token))) :=
  apply_run_rules canon page st token selector inputs final htok hin

/-- Witness of C2: two applies on the paragraph of `paragraphPage`, the rule of
another site being stored before. -/
theorem applies_keep_one_rule_per_triple_witness :
    ("foo".toList ≠ [] ∧ ∀ i ∈ ["bar".toList] ++ [" baz ".toList], trim i ≠ []) ∧
    ∃ fuel0 st1,
      (∀ fuel, fuel0 ≤ fuel →
        applyEach asciiCanon paragraphPage fuel "foo".toList paragraphSelector
          (["bar".toList] ++ [" baz ".toList]) { fooState with rules := [ruleOfB] } = some st1) ∧
      st1.rules[1]? = some ⟨"foo".toList, "baz".toList, "a.example".toList, paragraphSelector⟩ :=
  ⟨⟨by decide, by decide⟩,
    match (applies_keep_one_rule_per_triple asciiCanon paragraphPage
      { fooState with rules := [ruleOfB] } "foo".toList paragraphSelector ["bar".toList]
      " baz ".toList (by decide) (by decide)).2 with
    | ⟨fuel0, st1, hrun, _, hat, _⟩ => ⟨fuel0, st1, hrun, hat⟩⟩

/-- C4 as stated fails: the replacement text `$$` is not inserted verbatim; with the
token `USD` the paragraph `5 USD` becomes `5 $`, where the replacement of the
occurrence by the text as it stands gives `5 $$`. -/
theorem apply_expands_dollar_patterns :
    (applyReplacement asciiCanon paragraphPage 10 priceState "$$".toList "USD".toList
        paragraphSelector).map (fun s => s.texts.getD 3 []) = some "5 $".toList ∧
    replaceOccurrences asciiCanon "USD".toList "$$".toList "5 USD".toList = "5 $$".toList := by
  decide

/-- C4, amended: for a non-empty token and an input whose trimmed value is not empty,
`applyReplacement`, with enough fuel, returns, and every accepted node whose text,
with the occurrences replaced once, holds no occurrence of the token any more (or that
holds at most one occurrence) has afterwards its text with each of its leftmost
non-overlapping case-insensitive occurrences of the token, however many, replaced by
the substitution of the trimmed input (`$$`, `$&`, `$` with a grave accent and `$` with
a single quote expanded) and every other character kept; when the trimmed input holds
none of these four patterns, this is every occurrence replaced by the trimmed input
verbatim.  The texts that still hold the token after one replacement are left out:
there the whole-node replace runs once per match. -/
theorem apply_replaces_every_occurrence (canon : Char → Char) (page : Page) (fuel : Nat)
    (st : State) (input token : Str) (selector : Selector) (hin : trim input ≠ [])
    (htok : token ≠ [])
    (hfuel : ∀ n ∈ acceptedNodes page st.texts selector, (st.texts.getD n []).length < fuel)
    (n : Nat) (hn : n ∈ acceptedNodes page st.texts selector)
    (honce : (leftmostOccurrences canon token (st.texts.getD n [])).length ≤ 1 ∨
      containsToken canon token (replaceIn canon token (trim input) (st.texts.getD n [])) =
        false) :
    ∃ st1, applyReplacement canon page fuel st input token selector = some st1 ∧
      st1.texts.getD n [] =
        spliceOccurrences token.length
          (fun p => getSubstitution (((st.texts.getD n []).drop p).take token.length)
            (st.texts.getD n []) p (trim input))
          (st.texts.getD n []) 0 (leftmostOccurrences canon token (st.texts.getD n [])) ∧
      (hasDollarPattern (trim input) = false →
        st1.texts.getD n [] =
          replaceOccurrences canon token (trim input) (st.texts.getD n [])) :=
  apply_all_occurrences canon page fuel st input token selector hin htok hfuel n hn honce

/-- Witness of C4: the two occurrences of `cat` in `Cat cat`, with the input ` $5 `, a
text with a `$` that is none of the four patterns. -/
theorem apply_replaces_every_occurrence_witness :
    ∃ st1, applyReplacement asciiCanon paragraphPage 10
        { catState with texts := [[], [], [], "Cat cat".toList] } " $5 ".toList "cat".toList
        paragraphSelector = some st1 ∧
      st1.texts.getD 3 [] = "$5 $5".toList :=
  match apply_replaces_every_occurrence asciiCanon paragraphPage 10
      { catState with texts := [[], [], [], "Cat cat".toList] } " $5 ".toList
      "cat".toList paragraphSelector (by decide) (by decide) (by decide) 3 (by decide)
      (Or.inr (by decide)) with
  | ⟨st1, h1, _, h3⟩ => ⟨st1, h1, (h3 (by decide)).trans (by decide)⟩

/-- C3 as stated fails: the replacement `a` does not contain the token `ab`, and yet
the paragraph `aabb` reads `aab` after one call of `applyAllRules` and `aa` after
two, the first replace bringing a new occurrence about. -/
theorem applyAllRules_twice_differs :
    containsToken asciiCanon "ab".toList "a".toList = false ∧
    (applyAllRules asciiCanon paragraphPage 1 overlapState).texts =
      [[], [], [], "aab".toList] ∧
    (applyAllRules asciiCanon paragraphPage 1
        (applyAllRules asciiCanon paragraphPage 1 overlapState)).texts =
      [[], [], [], "aa".toList] := by
  decide

/-- C3, amended: let every rule of the current site have a replacement without the
patterns `$$`, `$&`, `$` with a grave accent and `$` with a single quote, and let the
token of a rule line up, up to case, neither with the replacement of the same rule nor
with the replacement of a rule stored after it: both texts are non-empty, no non-empty
end of the token agrees with the replacement along their common length, and no
non-empty end of the replacement agrees so with the token.  Then two calls of
`applyAllRules` on the same root in succession leave the state the first call leaves.
Replacements and tokens of different rules may share characters, and nothing is asked
of a token against the replacements of the rules stored before it. -/
theorem applyAllRules_twice_eq_once (canon : Char → Char) (page : Page) (root : Nat)
    (st : State) (hap : RulesSettle canon (pageRules page.hostname st.rules)) :
    applyAllRules canon page root (applyAllRules canon page root st) =
      applyAllRules canon page root st :=
  applyAllRules_idempotent canon page root st hap

/-- Witness of C3: the rules `cat` to `dog`, `bird` to `fish` and `Hello` to `Hi`, stored
in this order, on the paragraph `Hello cat, hello Bird`. -/
theorem applyAllRules_twice_eq_once_witness :
    applyAllRules asciiCanon paragraphPage 1 (applyAllRules asciiCanon paragraphPage 1 greetingState) =
      applyAllRules asciiCanon paragraphPage 1 greetingState ∧
    (applyAllRules asciiCanon paragraphPage 1 greetingState).texts =
      [[], [], [], "Hi dog, Hi fish".toList] :=
  ⟨applyAllRules_twice_eq_once asciiCanon paragraphPage 1 greetingState (by decide), by decide⟩

/-- C7 as stated fails: for the rule scoped to `div#box`, a paragraph inserted inside
the box and handed to the observer as the inserted root neither matches the selector
nor holds a match, so that the rule is skipped and the token stays in the paragraph. -/
theorem inserted_descendant_of_scope_not_converted :
    documentQuerySelector boxPage.dom boxSelector = some 2 ∧
    contains boxPage.dom 2 3 = true ∧ contains boxPage.dom 2 4 = true ∧
    containsToken asciiCanon "foo".toList "bar".toList = false ∧
    containsToken asciiCanon "foo".toList
      ((observeDOM asciiCanon boxPage [3] boxState).texts.getD 4 []) = true := by
  decide

/-- C7, amended: let `r` be a rule of the current site whose selector resolves in the
document to the element `E`, whose replacement holds none of the patterns `$$`, `$&`,
`$` with a grave accent and `$` with a single quote, and whose token lines up, up to
case, neither with its own replacement nor with the replacement of a rule of the site
stored after it, these later rules having non-empty tokens and replacements without
the four patterns; nothing is asked of the rules stored before `r`.  For an inserted
element `root` that is `E` or contains `E`, the observer on the batch `[root]` leaves
no occurrence of the token of `r` in a text node inside `E` whose parent is not
ignored. -/
theorem inserted_content_converted (canon : Char → Char) (page : Page) (root : Nat)
    (st : State) (earlier later : List Rule) (r : Rule) (E n : Nat)
    (hwf : parentsFirst page.dom = true)
    (helem : isElementAt page.dom root = true)
    (hsplit : pageRules page.hostname st.rules = earlier ++ r :: later)
    (hd : hasDollarPattern r.replacement = false)
    (hno : NoOverlap canon r.original r.replacement)
    (hlater : ∀ q ∈ later, q.original ≠ [] ∧ hasDollarPattern q.replacement = false ∧
      NoOverlap canon r.original q.replacement)
    (hE : documentQuerySelector page.dom r.selector = some E)
    (hroot : contains page.dom root E = true)
    (hn : isTextAt page.dom n = true) (hin : contains page.dom E n = true)
    (hp : parentAllowed page.dom n = true) :
    containsToken canon r.original ((observeDOM canon page [root] st).texts.getD n []) = false :=
  inserted_subtree_clean canon page root st earlier later r E n hwf helem hsplit hd hno hlater
    hE hroot hn hin hp

/-- Witness of C7: the body of `boxPage` handed to the observer as the inserted root,
for the rule `Hello` to `Hi` stored after the rule `ab` to `a`. -/
theorem inserted_content_converted_witness :
    containsToken asciiCanon "Hello".toList
      ((observeDOM asciiCanon boxPage [1] boxGreetingState).texts.getD 4 []) = false ∧
    (observeDOM asciiCanon boxPage [1] boxGreetingState).texts.getD 4 [] = "Hi aab".toList :=
  ⟨inserted_content_converted asciiCanon boxPage 1 boxGreetingState
      [⟨"ab".toList, "a".toList, "a.example".toList, boxSelector⟩] []
      ⟨"Hello".toList, "Hi".toList, "a.example".toList, boxSelector⟩ 2 4
      (by decide) (by decide) (by decide) (by decide) (by decide) (by decide) (by decide)
      (by decide) (by decide) (by decide) (by decide),
    by decide⟩

/-- C6 as stated fails: the selector `title` resolves in the document to the title in
the head, and `applyAllRules` over the body applies the rule to the first `title`
inside the body, a node that is not inside the resolved element. -/
theorem applyAllRules_leaves_scope_outside_body :
    documentQuerySelector titlePage.dom [Step.tag "title".toList] = some 2 ∧
    contains titlePage.dom 2 7 = false ∧
    titleState.texts.getD 7 [] = "foo".toList ∧
    (applyAllRules asciiCanon titlePage titlePage.body titleState).texts.getD 7 [] =
      "bar".toList := by
  decide

/-- C6, amended: when the scope selector resolves in the document to the element `E`,
every match `findMatches` returns lies in a text node inside `E`; `applyReplacement`,
which returns for a non-empty token with enough fuel, changes no text outside `E`; and
when `E` is the body or lies inside it, `applyAllRules` over the body, for rules of the
site with that scope, changes no text outside `E`. -/
theorem scoped_replacement_frame (canon : Char → Char) (page : Page) (st : State)
    (token : Str) (selector : Selector) (E : Nat) (hwf : parentsFirst page.dom = true)
    (hE : documentQuerySelector page.dom selector = some E) :
    (∀ fuel found, findMatches canon page fuel st.texts token selector = some found →
        ∀ m ∈ found, isTextAt page.dom m.node = true ∧ contains page.dom E m.node = true) ∧
    (∀ fuel input st1, applyReplacement canon page fuel st input token selector = some st1 →
        ∀ j, contains page.dom E j = false → st1.texts.getD j [] = st.texts.getD j []) ∧
    (token ≠ [] → ∀ fuel input,
        (∀ n ∈ acceptedNodes page st.texts selector, (st.texts.getD n []).length < fuel) →
        ∃ st1, applyReplacement canon page fuel st input token selector = some st1) ∧
    (contains page.dom page.body E = true →
      (∀ r ∈ pageRules page.hostname st.rules, r.selector = selector) →
      ∀ j, contains page.dom E j = false →
        (applyAllRules canon page page.body st).texts.getD j [] = st.texts.getD j []) :=
  scoped_frame canon page st token selector E hwf hE

/-- Witness of C6: two paragraphs reading `foo` and the rule scoped to the first; after
`applyAllRules` over the body the first reads `bar` and the second still `foo`. -/
theorem scoped_replacement_frame_witness :
    (applyAllRules asciiCanon twoParagraphPage twoParagraphPage.body
        twoParagraphState).texts.getD 5 [] = "foo".toList ∧
    (applyAllRules asciiCanon twoParagraphPage twoParagraphPage.body
        twoParagraphState).texts.getD 3 [] = "bar".toList :=
  ⟨((scoped_replacement_frame asciiCanon twoParagraphPage twoParagraphState "foo".toList
      paragraphSelector 2 (by decide) (by decide)).2.2.2 (by decide) (by decide) 5
      (by decide)).trans (by decide),
    by decide⟩

/-- The whole-node replace of `applyReplacement` runs once per match: with the token
`cat` and the input `cats` the paragraph `cat cat` becomes `catss catss`, where each
occurrence replaced once gives `cats cats`, the text that `applyAllRules` writes for the
rule that this very apply stores. -/
theorem apply_replaces_once_per_match_example :
    (applyReplacement asciiCanon paragraphPage 10 catState "cats".toList "cat".toList
        paragraphSelector).map (fun s => s.texts.getD 3 []) = some "catss catss".toList ∧
    replaceOccurrences asciiCanon "cat".toList "cats".toList "cat cat".toList =
      "cats cats".toList ∧
    (applyReplacement asciiCanon paragraphPage 10 catState "cats".toList "cat".toList
        paragraphSelector).map (fun s => s.rules) = some catRuleState.rules ∧
    (applyAllRules asciiCanon paragraphPage 1 catRuleState).texts.getD 3 [] =
      "cats cats".toList := by
  decide

/-- C10 as stated fails: in a document where two paragraphs have the id `x`, the
text computed from the second one is `p#x`, which resolves to the first one, all names
and ids being safe in a selector. -/
theorem getCssSelector_of_duplicate_id_resolves_elsewhere :
    wellFormed duplicateIdPage.dom = true ∧
    pathSafe duplicateIdPage.dom 4 = true ∧
    getCssSelector duplicateIdPage.dom 10 4 = some "p#x".toList ∧
    querySelectorOfText duplicateIdPage.dom "p#x".toList = some 2 := by
  decide

/-- The name of an element is written into the selector as it is, and of an id only
the characters `: . [ ] , =` are escaped: for the element `o:p` the text is
`html > body > o:p`, and for the paragraph with the id `1x` it is `p#1x`; neither is
a selector, in documents that are well formed and have unique ids and one root. -/
theorem getCssSelector_of_unsafe_name_is_no_selector :
    (wellFormed officePage.dom = true ∧ uniqueIds officePage.dom = true ∧
      rootTagUnique officePage.dom = true ∧
      getCssSelector officePage.dom 10 2 = some "html > body > o:p".toList ∧
      parseSelector "html > body > o:p".toList = none ∧
      querySelectorOfText officePage.dom "html > body > o:p".toList = none) ∧
    (wellFormed digitIdPage.dom = true ∧ uniqueIds digitIdPage.dom = true ∧
      rootTagUnique digitIdPage.dom = true ∧
      getCssSelector digitIdPage.dom 10 4 = some "p#1x".toList ∧
      parseSelector "p#1x".toList = none ∧
      querySelectorOfText digitIdPage.dom "p#1x".toList = none) := by
  decide

/-- C10, amended: in a well-formed document tree in which the non-empty ids are
unique and no other element has the tag name of the root element, let `el` be an
element such that `el` and the elements that contain it have names and ids that are
safe in a selector: a name of ASCII letters, digits, `-` and `_` that starts with a
letter and does not mix upper and lower case, and an id that, with the characters
`: . [ ] , =` escaped, is an identifier.  Then `getCssSelector` on `el` returns, with
fuel above the index of `el`, a text that is a selector and that
`document.querySelector` resolves to `el` itself.  The text is the steps of the chain
that leads from `el` through its parents up to the nearest element with an id or, when
there is none, up to the element without a parent, outermost first and joined by
` > `; the step of an element is `tag#id`, the id escaped, when it has an id,
`tag:nth-of-type(n)` when it has `n - 1 ≥ 1` preceding element siblings of its tag, and
`tag` otherwise, the tag being the lower-cased name. -/
theorem getCssSelector_resolves (dom : List DomNode) (fuel el : Nat)
    (hwf : wellFormed dom = true) (hids : uniqueIds dom = true)
    (hroot : rootTagUnique dom = true) (hsafe : pathSafe dom el = true)
    (hel : isElementAt dom el = true) (hfuel : el < fuel) :
    ∃ chain : List Nat,
      getCssSelector dom fuel el =
        some (join " > ".toList (chain.reverse.map fun a => stepText (stepOf dom a))) ∧
      parseSelector (join " > ".toList (chain.reverse.map fun a => stepText (stepOf dom a))) =
        some (chain.reverse.map (stepOf dom)) ∧
      querySelectorOfText dom
        (join " > ".toList (chain.reverse.map fun a => stepText (stepOf dom a))) = some el ∧
      chain.head? = some el ∧
      List.Chain' (fun b a => parentOf dom b = some a) chain ∧
      (∀ a, chain.getLast? = some a → idAt dom a ≠ [] ∨ parentOf dom a = none) ∧
      (∀ a ∈ chain.dropLast, idAt dom a = []) :=
  getCssSelector_resolves_to_element dom fuel el hwf hids hroot hsafe hel hfuel

/-- Witness of C10: the second paragraph in the box with the id `a.b` of
`dottedIdPage` has the text `div#a\.b > p:nth-of-type(2)`, the dot escaped by a
backslash, which resolves to it. -/
theorem getCssSelector_resolves_witness :
    getCssSelector dottedIdPage.dom 6 5 =
      some ("div#a".toList ++ backslash :: ".b > p:nth-of-type(2)".toList) ∧
    querySelectorOfText dottedIdPage.dom
      ("div#a".toList ++ backslash :: ".b > p:nth-of-type(2)".toList) = some 5 :=
  match getCssSelector_resolves dottedIdPage.dom 6 5 (by decide) (by decide) (by decide)
      (by decide) (by decide) (by decide) with
  | ⟨chain, h1, _, h3, _⟩ =>
    have hp : getCssSelector dottedIdPage.dom 6 5 =
        some ("div#a".toList ++ backslash :: ".b > p:nth-of-type(2)".toList) := by
      decide
    have hc : join " > ".toList (chain.reverse.map fun a => stepText (stepOf dottedIdPage.dom a)) =
        "div#a".toList ++ backslash :: ".b > p:nth-of-type(2)".toList :=
      Option.some.inj (h1.symm.trans hp)
    ⟨hp, hc ▸ h3⟩

end FreeSwapIt
